import Mathlib

/-!
# gokeybr statistics engine: windowed averages, trigram scores, sequence generators

A shallow embedding of `stats/window.go` and `stats/stats.go`.

Conventions of the embedding.

* Go's `float64` is modelled by exact arithmetic in a linearly ordered field `K`
  (instantiated at `ℚ` for evaluation and at `ℝ` where `math.Sqrt` is needed).
  Rounding error, infinities and NaN are outside that model; `x / 0 = 0` as in any
  Lean field.
* Where a property turns on rounding (the monotonicity of `effortResult`, the minimality
  of the paths of `bellmanFord`), the code is embedded a second time with every float64
  operation followed by `roundF64`, round-to-nearest-even on the 53-bit grid of binary64
  with gradual underflow (`effortResultF64`, `bellmanFordF64`). Overflow to infinity is
  outside that model as well.
* Go's `int` is modelled by `Int` (array contents, counters) or `Nat` (lengths, indices).
* A `[]rune` is a `List Char`, a `string` is a `String`; `string(rs)` is `String.mk rs`
  and `[]rune(s)` is `s.data`.
* A Go `map` that is only read by key and written by key is a total function that
  returns the zero value on absent keys; a map that is iterated is an association list
  with distinct keys, its order standing for Go's unspecified iteration order.
-/

namespace Stats

/-! ## window.go -/

/-- Capacity of the circular buffer (`const Capacity = 10`). -/
def Capacity : Nat := 10

/-- The struct `Window`: `Values` is the Go array `[Capacity]int`, kept as a list. -/
structure Window where
  Length : Nat
  Index : Nat
  Values : List Int
  deriving DecidableEq, Repr

/-- The zero value of `Window` (`var w Window`). -/
def Window.zero : Window :=
  { Length := 0, Index := 0, Values := List.replicate Capacity 0 }

/-- Go's `math.Round`: nearest integer, halves away from zero. -/
def mathRound {K : Type} [LinearOrderedField K] [FloorRing K] (x : K) : Int :=
  if 0 ≤ x then ⌊x + 1 / 2⌋ else -⌊-x + 1 / 2⌋

/-- The integer stored for a sample: `int(math.Round(val * 1000.0))`. -/
def toMillis {K : Type} [LinearOrderedField K] [FloorRing K] (val : K) : Int :=
  mathRound (val * 1000)

/-- The effect of `Append` once the sample is converted to milliseconds. -/
def Window.AppendMillis (w : Window) (m : Int) : Window :=
  { Values := w.Values.set w.Index m
    Index := (w.Index + 1) % Capacity
    Length := if w.Length < Capacity then w.Length + 1 else w.Length }

/-- `func (w *Window) Append(val float64)`. -/
def Window.Append {K : Type} [LinearOrderedField K] [FloorRing K] (w : Window) (val : K) :
    Window :=
  w.AppendMillis (toMillis val)

/-- `func (w Window) Average(def float64) float64`: the loop adds
`float64(w.Values[i]) / 1000.0` for `i = 0 .. Length-1`. -/
def Window.Average {K : Type} [LinearOrderedField K] (w : Window) (d : K) : K :=
  if w.Length = 0 then d
  else
    (List.range w.Length).foldl (fun sum i => sum + ((w.Values.getD i 0 : Int) : K) / 1000) 0
      / (w.Length : K)

/-- A sample as it is kept in the window: rounded to the millisecond. -/
def storedSample {K : Type} [LinearOrderedField K] [FloorRing K] (val : K) : K :=
  ((toMillis val : Int) : K) / 1000

/-! ## stats.go: scores -/

/-- `const wpmPer1secTrigramTime = 36.0 // 3 / 5 * 60`. -/
def wpmPer1secTrigramTime {K : Type} [LinearOrderedField K] : K := 36

/-- `func time2wpm(t float64) float64`. -/
def time2wpm {K : Type} [LinearOrderedField K] (t : K) : K :=
  wpmPer1secTrigramTime / t

/-- `const speedOfLight = 150.0 // wpm`. -/
def speedOfLight {K : Type} [LinearOrderedField K] : K := 150

/-- `func effortResult(trigramTime float64) float64`; `sqrt` stands for `math.Sqrt`. -/
def effortResult {K : Type} [LinearOrderedField K] (sqrt : K → K) (trigramTime : K) : K :=
  let speed := time2wpm trigramTime
  let q := speed / speedOfLight
  let q := q * q
  if q > 1 then 0 else sqrt (1 - q)

/-- The struct `trigramStat`. -/
structure trigramStat where
  Count : Int
  Duration : Window
  deriving DecidableEq, Repr

/-- The zero value of `trigramStat`, read from a map at an absent key. -/
def trigramStat.zero : trigramStat :=
  { Count := 0, Duration := Window.zero }

/-- `func (ts trigramStat) Score(avgDuration float64) float64`. -/
def trigramStat.Score {K : Type} [LinearOrderedField K] (sqrt : K → K) (ts : trigramStat)
    (avgDuration : K) : K :=
  let duration := ts.Duration.Average avgDuration
  (ts.Count : K) * effortResult sqrt duration

/-- The struct `TrigramScore`. -/
structure TrigramScore (K : Type) where
  Trigram : String
  Score : K
  deriving DecidableEq, Repr

/-- The struct `stats`; the map `Trigrams` is iterated, so it is an association list. -/
structure stats (K : Type) where
  TotalCharsTyped : Int
  TotalSessionsDuration : K
  SessionsCount : Int
  Trigrams : AList (fun _ : String => trigramStat)

/-- `func (s stats) AverageCharDuration() float64`. -/
def stats.AverageCharDuration {K : Type} [LinearOrderedField K] (s : stats K) : K :=
  s.TotalSessionsDuration / (s.TotalCharsTyped : K)

/-- The library routine `sort.Slice(res, less)`, for a `less` that is a strict weak order:
a sort placing `a` before `b` only if `less b a` fails. The order of ties is unspecified in
Go; here it is that of an insertion sort. -/
def sortSlice {α : Type} (less : α → α → Bool) (res : List α) : List α :=
  res.insertionSort (fun a b => less b a = false)

/-- The slice built by the `range` loop of `trigramsToTrain`, before sorting. -/
def stats.scoredTrigrams {K : Type} [LinearOrderedField K] (sqrt : K → K) (s : stats K) :
    List (TrigramScore K) :=
  s.Trigrams.entries.map fun e =>
    { Trigram := e.1, Score := e.2.Score sqrt (s.AverageCharDuration * 3) }

/-- `func (s stats) trigramsToTrain() []TrigramScore`. -/
def stats.trigramsToTrain {K : Type} [LinearOrderedField K] (sqrt : K → K) (s : stats K) :
    List (TrigramScore K) :=
  sortSlice (fun a b => decide (a.Score > b.Score)) (s.scoredTrigrams sqrt)

/-- The trigram starting at index `i` of `text`: `string(text[i : i+3])`. -/
def trigramAt (text : List Char) (i : Nat) : String :=
  String.mk ((text.drop i).take 3)

/-- The body of the loop of `addSession` at index `i`. -/
def addSessionStep {K : Type} [LinearOrderedField K] [FloorRing K] (text : List Char)
    (timeline : List K) (training : Bool) (s : stats K) (i : Nat) : stats K :=
  let k := trigramAt text i
  let tr := (s.Trigrams.lookup k).getD trigramStat.zero
  let tr := if !training then { tr with Count := tr.Count + 1 } else tr
  let tr := { tr with Duration := tr.Duration.Append (timeline.getD (i + 3) 0 - timeline.getD i 0) }
  { s with Trigrams := s.Trigrams.insert k tr }

/-- `func (s *stats) addSession(text []rune, timeline []float64, training bool)`. -/
def stats.addSession {K : Type} [LinearOrderedField K] [FloorRing K] (s : stats K)
    (text : List Char) (timeline : List K) (training : Bool) : stats K :=
  let s1 : stats K :=
    { s with
      SessionsCount := s.SessionsCount + 1
      TotalCharsTyped := s.TotalCharsTyped + text.length
      TotalSessionsDuration := s.TotalSessionsDuration + timeline.getD (timeline.length - 1) 0 }
  (List.range (text.length - 3)).foldl (addSessionStep text timeline training) s1

/-- Freshly initialised statistics (`&stats{Trigrams: make(map[string]trigramStat)}`). -/
def stats.fresh {K : Type} [LinearOrderedField K] : stats K :=
  { TotalCharsTyped := 0, TotalSessionsDuration := 0, SessionsCount := 0, Trigrams := ∅ }

/-- Invariant of a window built from the zero value by appending the millisecond
values `ms`: slot `i % Capacity` holds sample `i` for each of the last `Capacity` samples. -/
structure Window.Tracks (w : Window) (ms : List Int) : Prop where
  size : w.Values.length = Capacity
  index : w.Index = ms.length % Capacity
  length : w.Length = min ms.length Capacity
  slot : ∀ i, i < ms.length → ms.length ≤ i + Capacity →
    w.Values.getD (i % Capacity) 0 = ms.getD i 0

/-- The value `addSession` stores back for a trigram met at the indices `idxs` (in that
order), `old` being its value before the session. -/
def recorded {K : Type} [LinearOrderedField K] [FloorRing K] (timeline : List K)
    (training : Bool) (old : trigramStat) (idxs : List Nat) : trigramStat :=
  { Count := if training then old.Count else old.Count + idxs.length
    Duration :=
      idxs.foldl (fun w i => w.Append (timeline.getD (i + 3) 0 - timeline.getD i 0))
        old.Duration }

/-- The arithmetic mean, in seconds, of the `Length` occupied slots of a window. -/
def Window.mean {K : Type} [LinearOrderedField K] (w : Window) : K :=
  (∑ i in Finset.range w.Length, ((w.Values.getD i 0 : Int) : K) / 1000) / (w.Length : K)

/-! ## stats.go: the weakest-loop generator -/

/-- `func wrap(loop []rune, l int) string`: `buffer[i] = loop[i % len(loop)]`. Go panics on
an empty `loop` when `l > 0`; here the read then yields the default character. -/
def wrap (loop : List Char) (l : Nat) : String :=
  String.mk ((List.range l).map fun i => loop.getD (i % loop.length) default)

/-- `func headTail(trigram string) (string, string)`: `string(r[:2]), string(r[1:])`.
Go panics on fewer than two runes; the slices are total here. -/
def headTail (trigram : String) : String × String :=
  let r := trigram.data
  (String.mk (r.take 2), String.mk (r.drop 1))

/-- The struct `edge`. -/
structure edge (K : Type) where
  v1 : String
  v2 : String
  w : K

/-- `math.MaxFloat64`, the largest finite `float64`: `2^1024 - 2^971`. -/
def MaxFloat64 {K : Type} [LinearOrderedField K] : K :=
  ((2 ^ 1024 - 2 ^ 971 : Nat) : K)

/-- The two maps of `bellmanFord`. They are read and written by key only, so each is a
total function giving Go's zero value (`0`, `""`) at absent keys. -/
structure pathMaps (K : Type) where
  distance : String → K
  predecessor : String → String

/-- The body of the inner loop of `bellmanFord` for the edge `e`. -/
def relax {K : Type} [LinearOrderedField K] (m : pathMaps K) (e : edge K) : pathMaps K :=
  if m.distance e.v1 + e.w < m.distance e.v2 then
    { distance := Function.update m.distance e.v2 (m.distance e.v1 + e.w)
      predecessor := Function.update m.predecessor e.v2 e.v1 }
  else m

/-- The maps of `bellmanFord` after initialisation: `MaxFloat64` and `""` for every vertex,
then `distance[start] = 0`. -/
def initMaps {K : Type} [LinearOrderedField K] (start : String) (vertices : List String) :
    pathMaps K :=
  { distance := Function.update (fun v => if v ∈ vertices then MaxFloat64 else 0) start 0
    predecessor := fun _ => "" }

/-- The maps of `bellmanFord` after its `len(vertices) - 1` rounds over all edges.
`vertices` lists the keys of the Go map, each once. -/
def bellmanFordMaps {K : Type} [LinearOrderedField K] (start : String)
    (vertices : List String) (edges : List (edge K)) : pathMaps K :=
  (fun m => edges.foldl relax m)^[vertices.length - 1] (initMaps start vertices)

/-- `func bellmanFord(start string, vertices map[string]bool, edges []edge) map[string]string`. -/
def bellmanFord {K : Type} [LinearOrderedField K] (start : String) (vertices : List String)
    (edges : List (edge K)) : String → String :=
  (bellmanFordMaps start vertices edges).predecessor

/-- The graph-building loop of `weakestSequence`: the edges in order, and the keys of the
map `vertices`. -/
def buildGraph {K : Type} [LinearOrderedField K] (trigrams : List (TrigramScore K)) :
    List (edge K) × List String :=
  trigrams.foldl
    (fun g trigram =>
      if trigram.Score > 0 then
        (g.1 ++ [{ v1 := (headTail trigram.Trigram).1, v2 := (headTail trigram.Trigram).2,
                   w := 1 / trigram.Score }],
          (g.2.insert (headTail trigram.Trigram).1).insert (headTail trigram.Trigram).2)
      else g)
    ([], [])

/-- The path-tracing loop of `weakestSequence`, run for at most `fuel` iterations.
`none`: the fuel ran out. `some []`: the loop set `path = nil`. -/
def tracePath (start : String) (ways : String → String) :
    Nat → String → List String → Option (List String)
  | 0, _, _ => none
  | fuel + 1, step, path =>
    if step = start then some (path ++ [step])
    else if ways step = "" then some []
    else tracePath start ways fuel (ways step) (path ++ [step])

/-- The first rune of a string: `[]rune(s)[0]` (Go panics on the empty string). -/
def firstRune (s : String) : Char :=
  s.data.headD default

/-- `func weakestSequence(trigrams []TrigramScore, length int) string`.
`none` when `trigrams` is empty (Go panics on `trigrams[0]`) or when the tracing loop has
not ended after `fuel` iterations. -/
def weakestSequence {K : Type} [LinearOrderedField K] (fuel : Nat)
    (trigrams : List (TrigramScore K)) (length : Nat) : Option String :=
  match trigrams with
  | [] => none
  | top :: _ =>
    let finish := (headTail top.Trigram).1
    let start := (headTail top.Trigram).2
    let g := buildGraph trigrams
    let ways := bellmanFord start g.2 g.1
    match tracePath start ways fuel finish [] with
    | none => none
    | some path =>
      let loop := if path.length = 0 then top.Trigram.data else path.reverse.map firstRune
      some (wrap loop length)

/-- Every recorded predecessor comes from an edge into the vertex, and the distance of the
predecessor plus the weight of that edge does not exceed the distance of the vertex. -/
def PredEdge {K : Type} [LinearOrderedField K] (edges : List (edge K)) (m : pathMaps K) :
    Prop :=
  ∀ v, m.predecessor v ≠ "" →
    ∃ e ∈ edges, e.v1 = m.predecessor v ∧ e.v2 = v ∧ m.distance e.v1 + e.w ≤ m.distance v


/-- A walk in the graph: `es` is a list of edges of `edges` leading from `u` to `v`. -/
def IsWalk {K : Type} (edges : List (edge K)) : String → List (edge K) → String → Prop
  | u, [], v => u = v
  | u, e :: es, v => e ∈ edges ∧ e.v1 = u ∧ IsWalk edges e.v2 es v

/-- The total weight of a list of edges. -/
def weight {K : Type} [LinearOrderedField K] (es : List (edge K)) : K :=
  (es.map fun e => e.w).sum

/-- The vertices met when following `ways` from a vertex until `start` is reached. -/
inductive PredChain (start : String) (ways : String → String) : String → List String → Prop
  | stop : PredChain start ways start [start]
  | step {v : String} {c : List String} : v ≠ start → ways v ≠ "" →
      PredChain start ways (ways v) c → PredChain start ways v (v :: c)

/-- Number of edges whose target is at most as far as `v`: it drops at every step of the
tracing loop. -/
def traceMeasure {K : Type} [LinearOrderedField K] (edges : List (edge K)) (m : pathMaps K)
    (v : String) : Nat :=
  edges.countP fun e => decide (m.distance e.v2 ≤ m.distance v)

/-- The edge that `weakestSequence` makes of a trigram. -/
def trigramEdge {K : Type} [LinearOrderedField K] (t : TrigramScore K) : edge K :=
  { v1 := (headTail t.Trigram).1, v2 := (headTail t.Trigram).2, w := 1 / t.Score }

/-- Invariant of the maps of `bellmanFord` for a graph with positive weights whose edges
join vertices of `vertices`: distances only drop below their initial values, a vertex whose
distance never dropped has no predecessor, and a vertex whose distance dropped has a
predecessor edge and a walk from `start` of exactly that weight. -/
structure Settled {K : Type} [LinearOrderedField K] (start : String) (vertices : List String)
    (edges : List (edge K)) (m : pathMaps K) : Prop where
  le_init : ∀ v, m.distance v ≤ (initMaps start vertices).distance v
  nonneg : ∀ v, 0 ≤ m.distance v
  untouched : ∀ v, m.distance v = (initMaps start vertices).distance v → m.predecessor v = ""
  pred_edge : ∀ v, m.distance v < (initMaps start vertices).distance v →
    ∃ e ∈ edges, e.v1 = m.predecessor v ∧ e.v2 = v ∧ m.distance e.v1 + e.w ≤ m.distance v
  realised : ∀ v, m.distance v < (initMaps start vertices).distance v →
    ∃ es, IsWalk edges start es v ∧ weight es = m.distance v

/-- A graph on the vertices "a", "b", "c": the detour through "b" weighs 2, the direct edge
from "a" to "c" weighs 5. -/
def detourEdges : List (edge ℚ) :=
  [{ v1 := "a", v2 := "b", w := 1 }, { v1 := "b", v2 := "c", w := 1 },
    { v1 := "a", v2 := "c", w := 5 }]

/-! ## stats.go: the Markov-chain generator -/

/-- `const NWeakest = 10`. -/
def NWeakest : Nat := 10

/-- Read of a Go map kept as an association list: the value at key `k`, if present. -/
def getKey {α β : Type} [DecidableEq α] (k : α) : List (α × β) → Option β
  | [] => none
  | (k', v) :: rest => if k' = k then some v else getKey k rest

/-- Write `m[k] = v` to a Go map kept as an association list. -/
def setKey {α β : Type} [DecidableEq α] (k : α) (v : β) : List (α × β) → List (α × β)
  | [] => [(k, v)]
  | (k', v') :: rest => if k' = k then (k, v) :: rest else (k', v') :: setKey k v rest

/-- The type `markovChain`, `map[string]map[rune]float64`. Both maps are iterated, so both
are association lists. -/
abbrev markovChain (K : Type) := List (String × List (Char × K))

/-- The read `chain[bigram]`: the inner map, the nil map (no entries) when absent. -/
def chainLinks {K : Type} (chain : markovChain K) (bigram : String) : List (Char × K) :=
  (getKey bigram chain).getD []

/-- The chain-building loop of `markovSequence`. A score of exactly 0 is replaced by
`0.00000001`; `t[2]` is the third rune (Go panics on fewer than three runes). -/
def buildChain {K : Type} [LinearOrderedField K] (trigrams : List (TrigramScore K)) :
    markovChain K :=
  trigrams.foldl
    (fun chain ts =>
      let t := ts.Trigram.data
      let bigram := String.mk (t.take 2)
      let score := if ts.Score = 0 then 1 / 100000000 else ts.Score
      setKey bigram (setKey (t.getD 2 default) score (chainLinks chain bigram)) chain)
    []

/-- The inner loops of the normalising loop of `markovSequence` for one inner map. -/
def normalizeLinks {K : Type} [LinearOrderedField K] (links : List (Char × K)) :
    List (Char × K) :=
  let totalScore := links.foldl (fun total l => total + l.2) 0
  links.map fun l => (l.1, l.2 / totalScore)

/-- The normalising loop of `markovSequence`. -/
def normalizeChain {K : Type} [LinearOrderedField K] (chain : markovChain K) : markovChain K :=
  chain.map fun c => (c.1, normalizeLinks c.2)

/-- The cumulative-weight selection `for r, sc := range links`: the rune appended, if the
loop reaches its `break`. -/
def pickRune {K : Type} [LinearOrderedField K] (choice : K) :
    List (Char × K) → K → Option Char
  | [], _ => none
  | (r, sc) :: rest, totalScore =>
    if choice ≤ totalScore + sc then some r else pickRune choice rest (totalScore + sc)

/-- The body of the sampling loop `for len(text) < length` in its `n`-th iteration.
`choices n` is the value of the `n`-th call of `rand.Float64()` and `order n` the order in
which the `n`-th `range links` visits the entries. -/
def markovStep {K : Type} [LinearOrderedField K] (chain : markovChain K)
    (order : Nat → List (Char × K) → List (Char × K)) (choices : Nat → K) (n : Nat)
    (text : List Char) : List Char :=
  let links := chainLinks chain (String.mk (text.drop (text.length - 2)))
  let text1 :=
    if links.length = 0 then text ++ [text.getD (text.length % 3) default] else text
  match pickRune (choices n) (order n links) 0 with
  | some r => text1 ++ [r]
  | none => text1

/-- The sampling loop `for len(text) < length`, run for at most `fuel` iterations; `n`
counts the iterations done. `none`: the fuel ran out. -/
def markovLoop {K : Type} [LinearOrderedField K] (chain : markovChain K)
    (order : Nat → List (Char × K) → List (Char × K)) (choices : Nat → K) (length : Nat) :
    Nat → Nat → List Char → Option (List Char)
  | fuel, n, text =>
    if text.length < length then
      match fuel with
      | 0 => none
      | fuel + 1 =>
        markovLoop chain order choices length fuel (n + 1) (markovStep chain order choices n text)
    else some text

/-- `func markovSequence(trigrams []TrigramScore, length int) string`. `seed` is the value
of `rand.Intn(NWeakest)`. `none` when `trigrams[seed]` is out of range (Go panics) or the
sampling loop has not ended after `fuel` iterations. -/
def markovSequence {K : Type} [LinearOrderedField K] (fuel : Nat) (seed : Nat)
    (order : Nat → List (Char × K) → List (Char × K)) (choices : Nat → K)
    (trigrams : List (TrigramScore K)) (length : Nat) : Option String :=
  let chain := normalizeChain (buildChain trigrams)
  match trigrams[seed]? with
  | none => none
  | some ts =>
    match markovLoop chain order choices length fuel 0 ts.Trigram.data with
    | none => none
    | some text => some (String.mk text)

/-- Every inner map of a chain has an entry, and all its weights are positive. -/
def GoodChain {K : Type} [LinearOrderedField K] (chain : markovChain K) : Prop :=
  ∀ c ∈ chain, c.2 ≠ [] ∧ ∀ l ∈ c.2, 0 < l.2

/-- Ten ranked trigrams over "a", "b", "c", "d" with scores 9 down to 0. -/
def tenTrigrams : List (TrigramScore ℚ) :=
  [⟨"abc", 9⟩, ⟨"bcd", 8⟩, ⟨"cda", 7⟩, ⟨"dab", 6⟩, ⟨"abd", 5⟩, ⟨"bda", 4⟩, ⟨"dac", 3⟩,
    ⟨"acb", 2⟩, ⟨"cba", 1⟩, ⟨"bad", 0⟩]

/-! ## stats.go: the report -/

/-- `time.Minute`, in nanoseconds as `time.Duration` counts. -/
def timeMinute : Int := 60 * 1000000000

/-- The choice of `progressInterval` in `GetReport`, from `stats.TotalSessionsDuration`.
`none`: less than 600 seconds of training, `GetReport` returns before choosing. -/
def progressInterval {K : Type} [LinearOrderedField K] (TotalSessionsDuration : K) :
    Option Int :=
  if TotalSessionsDuration < 600 then none
  else
    let progressInterval := timeMinute * 10
    let progressInterval :=
      if TotalSessionsDuration > 2 * 3600 then timeMinute * 30 else progressInterval
    let progressInterval :=
      if TotalSessionsDuration > 10 * 3600 then timeMinute * 30 else progressInterval
    some progressInterval

/-- The slice expression `s[:hi]` on a slice whose capacity equals its length, as the
result of `trigramsToTrain` is (`make([]TrigramScore, 0, len(s.Trigrams))` filled by that
many `append`s). `none`: Go panics, `hi` being out of range. -/
def sliceTo {α : Type} (s : List α) (hi : Nat) : Option (List α) :=
  if hi ≤ s.length then some (s.take hi) else none

/-- One line of the table "Need to be trained most" of `GetReport`: the trigram, its score
in promille of the total duration, its count and its average duration. -/
structure tableRow (K : Type) where
  Trigram : String
  Score : K
  Count : Int
  Duration : K

/-- The part of `GetReport` that prints the table "Need to be trained most": the rows
printed. `none`: Go panics on the slice expression `trigrams[:20]`. -/
def reportTable {K : Type} [LinearOrderedField K] (sqrt : K → K) (s : stats K) :
    Option (List (tableRow K)) :=
  let trigrams := s.trigramsToTrain sqrt
  if trigrams.length > 0 then
    match sliceTo trigrams 20 with
    | none => none
    | some top =>
      some (top.map fun t =>
        let d := (s.Trigrams.lookup t.Trigram).getD trigramStat.zero
        { Trigram := t.Trigram
          Score := t.Score / s.TotalSessionsDuration * 1000
          Count := d.Count
          Duration := d.Duration.Average 0 })
  else some []

/-- Statistics in which "abc" is the only known trigram: met once, typed in 0.1 s, in a
session of 5 characters lasting 1 s. -/
def oneTrigramStats : stats ℚ :=
  { TotalCharsTyped := 5
    TotalSessionsDuration := 1
    SessionsCount := 1
    Trigrams := AList.singleton "abc" { Count := 1, Duration := Window.zero.Append (1 / 10 : ℚ) } }

/-! ## stats.go: sessions and generator requests over the stored state -/

/-- `const MinSessionLength = 5`. -/
def MinSessionLength : Nat := 5

/-- The struct `statLogEntry`; `Start` is the start time already formatted as RFC3339. -/
structure statLogEntry (K : Type) where
  Start : String
  Text : String
  Timeline : List K

/-- The errors returned by the functions of the package. -/
inductive statsError where
  | lengthMismatch (textLength timelineLength : Nat)
  | notEnoughStats
  | storage
  deriving DecidableEq, Repr

/-- What `fs.LoadJSON(StatsFile, ...)` finds: no file, a file that cannot be read or
decoded, or stored statistics. -/
inductive statsFile (K : Type) where
  | missing
  | broken
  | holds (s : stats K)

/-- The state the package works on: the variable `statsCache`, the file `stats.json` and
the lines of `sessions_log.jsonl`. -/
structure world (K : Type) where
  statsCache : Option (stats K)
  file : statsFile K
  log : List (statLogEntry K)

/-- Whether the two writing calls of `fs`, `AppendJSONLine` and `SaveJSON`, fail when
they are made. -/
structure ioFaults where
  appendFails : Bool
  saveFails : Bool

/-- `func loadStats() (*stats, error)`. The cache is assigned before the file is read, so
it stays set to empty statistics when the read fails. -/
def loadStats {K : Type} [LinearOrderedField K] (w : world K) :
    Except statsError (stats K) × world K :=
  match w.statsCache with
  | some s => (Except.ok s, w)
  | none =>
    match w.file with
    | statsFile.holds s => (Except.ok s, { w with statsCache := some s })
    | statsFile.missing => (Except.ok stats.fresh, { w with statsCache := some stats.fresh })
    | statsFile.broken => (Except.error statsError.storage, { w with statsCache := some stats.fresh })

/-- `func updateStats(text []rune, timeline []float64, training bool) error`. `addSession`
changes the cached statistics in place, before `fs.SaveJSON` is called. -/
def updateStats {K : Type} [LinearOrderedField K] [FloorRing K] (io : ioFaults) (w : world K)
    (text : List Char) (timeline : List K) (training : Bool) :
    Except statsError Unit × world K :=
  match loadStats w with
  | (Except.error e, w1) => (Except.error e, w1)
  | (Except.ok s, w1) =>
    let s1 := s.addSession text timeline training
    let w2 : world K := { w1 with statsCache := some s1 }
    if io.saveFails then (Except.error statsError.storage, w2)
    else (Except.ok (), { w2 with file := statsFile.holds s1 })

/-- `func SaveSession(start time.Time, text []rune, timeline []float64, training bool) error`. -/
def SaveSession {K : Type} [LinearOrderedField K] [FloorRing K] (io : ioFaults) (w : world K)
    (start : String) (text : List Char) (timeline : List K) (training : Bool) :
    Except statsError Unit × world K :=
  if text.length ≠ timeline.length then
    (Except.error (statsError.lengthMismatch text.length timeline.length), w)
  else if text.length < MinSessionLength then (Except.ok (), w)
  else if io.appendFails then (Except.error statsError.storage, w)
  else
    updateStats io
      { w with log := w.log ++ [{ Start := start, Text := String.mk text, Timeline := timeline }] }
      text timeline training

/-- `func getTrigrams() ([]TrigramScore, error)`. -/
def getTrigrams {K : Type} [LinearOrderedField K] (sqrt : K → K) (w : world K) :
    Except statsError (List (TrigramScore K)) × world K :=
  match loadStats w with
  | (Except.error e, w1) => (Except.error e, w1)
  | (Except.ok stats, w1) =>
    let trigrams := stats.trigramsToTrain sqrt
    if trigrams.length < NWeakest then (Except.error statsError.notEnoughStats, w1)
    else (Except.ok trigrams, w1)

/-- `func WeakestTraining(length int) (string, error)`. The text is `none` when the tracing
loop of `weakestSequence` has not ended after `fuel` iterations. -/
def WeakestTraining {K : Type} [LinearOrderedField K] (sqrt : K → K) (fuel : Nat)
    (w : world K) (length : Nat) : Except statsError (Option String) × world K :=
  let length := if length = 0 then 100 else length
  match getTrigrams sqrt w with
  | (Except.error e, w1) => (Except.error e, w1)
  | (Except.ok trigrams, w1) =>
    let length := if length = 0 then 100 else length
    (Except.ok (weakestSequence fuel trigrams length), w1)

/-- `func RandomTraining(length int) (string, error)`. The text is `none` when the sampling
loop of `markovSequence` has not ended after `fuel` iterations. -/
def RandomTraining {K : Type} [LinearOrderedField K] (sqrt : K → K) (fuel seed : Nat)
    (order : Nat → List (Char × K) → List (Char × K)) (choices : Nat → K)
    (w : world K) (length : Nat) : Except statsError (Option String) × world K :=
  match getTrigrams sqrt w with
  | (Except.error e, w1) => (Except.error e, w1)
  | (Except.ok trigrams, w1) =>
    let length := if length = 0 then 100 else length
    (Except.ok (markovSequence fuel seed order choices trigrams length), w1)

/-- A trigram met once and typed in 0.1 s, faster than the 150 wpm ceiling. -/
def fastOnce : trigramStat :=
  { Count := 1, Duration := Window.zero.Append (1 / 10 : ℚ) }

/-- Statistics with ten known trigrams, each met once and typed in 0.1 s: every score
is 0. -/
def tenMastered : stats ℚ :=
  { TotalCharsTyped := 13
    TotalSessionsDuration := 1
    SessionsCount := 1
    Trigrams :=
      (["abc", "bcd", "cda", "dab", "abd", "bda", "dac", "acb", "cba", "bad"].map
        fun t => (⟨t, fastOnce⟩ : Sigma fun _ : String => trigramStat)).toAList }

/-- Number of vertices strictly nearer than `v`: it drops at every step of the tracing
loop and is at most the number of vertices. -/
def vertexMeasure {K : Type} [LinearOrderedField K] (vertices : List String)
    (m : pathMaps K) (v : String) : Nat :=
  vertices.countP fun u => decide (m.distance u < m.distance v)

/-! ## float64 rounding -/

/-- Round to the nearest integer, a tie going to the even neighbour. -/
def roundHalfEven {K : Type} [LinearOrderedField K] [FloorRing K] (x : K) : Int :=
  let f := ⌊x⌋
  if x - f < 1 / 2 then f
  else if 1 / 2 < x - f then f + 1
  else if f % 2 = 0 then f else f + 1

/-- The float64 nearest to `x` (IEEE 754 binary64, round to nearest, ties to even):
a 53-bit significand at the binary exponent of `x`, the exponent held at `-1022` below
the normal range. Overflow to infinity is outside the model: the exponent is unbounded
above. -/
def roundF64 {K : Type} [LinearOrderedField K] [FloorRing K] (x : K) : K :=
  let e := max (Int.log 2 |x|) (-1022)
  (roundHalfEven (x / 2 ^ (e - 52)) : K) * 2 ^ (e - 52)

/-- `time2wpm` with its float64 division rounded. -/
def time2wpmF64 {K : Type} [LinearOrderedField K] [FloorRing K] (t : K) : K :=
  roundF64 (wpmPer1secTrigramTime / t)

/-- `effortResult` as float64 computes it: each of the division, the multiplication, the
subtraction and `math.Sqrt` (correctly rounded, `sqrt` being the exact root) delivers the
float64 nearest to its exact result, none fused with another. Durations are positive and
finite here. -/
def effortResultF64 {K : Type} [LinearOrderedField K] [FloorRing K] (sqrt : K → K)
    (trigramTime : K) : K :=
  let speed := time2wpmF64 trigramTime
  let q := roundF64 (speed / speedOfLight)
  let q := roundF64 (q * q)
  if q > 1 then 0 else roundF64 (sqrt (roundF64 (1 - q)))

/-! ## stats.go: bellmanFord with float64 additions -/

/-- The body of the inner loop of `bellmanFord` as float64 runs it: the sum
`distance[e.v1] + e.w` is rounded to the nearest float64, in the test and in the store. -/
def relaxF64 {K : Type} [LinearOrderedField K] [FloorRing K] (m : pathMaps K) (e : edge K) :
    pathMaps K :=
  if roundF64 (m.distance e.v1 + e.w) < m.distance e.v2 then
    { distance := Function.update m.distance e.v2 (roundF64 (m.distance e.v1 + e.w))
      predecessor := Function.update m.predecessor e.v2 e.v1 }
  else m

/-- The maps of `bellmanFord` after its `len(vertices) - 1` rounds over all edges, with
float64 additions. -/
def bellmanFordMapsF64 {K : Type} [LinearOrderedField K] [FloorRing K] (start : String)
    (vertices : List String) (edges : List (edge K)) : pathMaps K :=
  (fun m => edges.foldl relaxF64 m)^[vertices.length - 1] (initMaps start vertices)

/-- `bellmanFord` with float64 additions. -/
def bellmanFordF64 {K : Type} [LinearOrderedField K] [FloorRing K] (start : String)
    (vertices : List String) (edges : List (edge K)) : String → String :=
  (bellmanFordMapsF64 start vertices edges).predecessor

/-- The weight of a list of edges added up in float64, edge by edge in path order, on top
of the value `a`: what `bellmanFord` accumulates along a path that leaves a vertex at
distance `a`. -/
def weightFrom {K : Type} [LinearOrderedField K] [FloorRing K] (a : K) (es : List (edge K)) :
    K :=
  es.foldl (fun acc e => roundF64 (acc + e.w)) a

/-- The weight of a path added up in float64 from its first edge on. -/
def weightF64 {K : Type} [LinearOrderedField K] [FloorRing K] (es : List (edge K)) : K :=
  weightFrom 0 es

/-- Invariant of the float64 maps of `bellmanFord` for a graph with positive weights whose
edges join vertices of `vertices`: as `Settled`, with every sum rounded; in addition every
distance is a float64, and where a vertex and its predecessor are at the same distance a
rank tells them apart. -/
structure SettledF64 {K : Type} [LinearOrderedField K] [FloorRing K] (start : String)
    (vertices : List String) (edges : List (edge K)) (m : pathMaps K) : Prop where
  le_init : ∀ v, m.distance v ≤ (initMaps start vertices).distance v
  nonneg : ∀ v, 0 ≤ m.distance v
  repr : ∀ v, roundF64 (m.distance v) = m.distance v
  untouched : ∀ v, m.distance v = (initMaps start vertices).distance v → m.predecessor v = ""
  pred_edge : ∀ v, m.distance v < (initMaps start vertices).distance v →
    ∃ e ∈ edges, e.v1 = m.predecessor v ∧ e.v2 = v ∧
      roundF64 (m.distance e.v1 + e.w) ≤ m.distance v
  realised : ∀ v, m.distance v < (initMaps start vertices).distance v →
    ∃ es, IsWalk edges start es v ∧ weightF64 es = m.distance v
  ranked : ∃ rank : String → Nat, ∀ v,
    m.distance v < (initMaps start vertices).distance v →
    m.distance (m.predecessor v) = m.distance v → rank (m.predecessor v) < rank v

/-- Number of vertices that come before `v` when ordered by distance and then by rank: it
drops at every step along the predecessors. -/
def rankMeasure {K : Type} [LinearOrderedField K] (vertices : List String) (m : pathMaps K)
    (rank : String → Nat) (v : String) : Nat :=
  vertices.countP fun x =>
    decide (m.distance x < m.distance v ∨ (m.distance x = m.distance v ∧ rank x < rank v))

/-- The graph `weakestSequence` builds from the trigrams "aba", "cab", "aca", "bac", each
with score `2.4000000000000004` (`Count` 3 at an average of 0.4 s, `3 * 0.8`), and "bab"
with score `0.8` (`Count` 1): the float64 weights `1 / Score` are
`0.41666666666666663 = 3752999689475413 / 2^53` and `1.25`. -/
def tieEdges : List (edge ℚ) :=
  [{ v1 := "ab", v2 := "ba", w := 3752999689475413 / 9007199254740992 },
    { v1 := "ca", v2 := "ab", w := 3752999689475413 / 9007199254740992 },
    { v1 := "ac", v2 := "ca", w := 3752999689475413 / 9007199254740992 },
    { v1 := "ba", v2 := "ac", w := 3752999689475413 / 9007199254740992 },
    { v1 := "ba", v2 := "ab", w := 5 / 4 }]

/-- The path from "ba" to "ab" through "ac" and "ca" in `tieEdges`. -/
def tieDetour : List (edge ℚ) :=
  [{ v1 := "ba", v2 := "ac", w := 3752999689475413 / 9007199254740992 },
    { v1 := "ac", v2 := "ca", w := 3752999689475413 / 9007199254740992 },
    { v1 := "ca", v2 := "ab", w := 3752999689475413 / 9007199254740992 }]

/-! # Lemmas -/

/-! ### Ring-buffer invariant -/

theorem Window.tracks_zero : Window.zero.Tracks [] := by
  refine ⟨by simp [Window.zero], by simp [Window.zero], by simp [Window.zero], ?_⟩
  intro i hi
  simp at hi

theorem Window.tracks_appendMillis (w : Window) (ms : List Int) (m : Int)
    (h : w.Tracks ms) : (w.AppendMillis m).Tracks (ms ++ [m]) := by
  obtain ⟨hsize, hindex, hlen, hslot⟩ := h
  have hidx : w.Index < w.Values.length := by
    rw [hsize, hindex]; exact Nat.mod_lt _ (by decide)
  refine ⟨by simp [Window.AppendMillis, hsize], ?_, ?_, ?_⟩
  · simp [Window.AppendMillis, hindex, Capacity]
  · simp only [Window.AppendMillis, hlen, List.length_append, List.length_singleton, Capacity]
    split_ifs with hc <;> omega
  · intro i hi hle
    simp only [List.length_append, List.length_singleton] at hi hle
    simp only [Window.AppendMillis]
    rcases Nat.lt_succ_iff_lt_or_eq.mp hi with hlt | heq
    · have hne : w.Index ≠ i % Capacity := by
        rw [hindex]; simp only [Capacity] at hle ⊢; omega
      have hlt' : i % Capacity < w.Values.length := by
        rw [hsize]; exact Nat.mod_lt _ (by decide)
      rw [List.getD_eq_getElem _ _ (by simpa using hlt'), List.getElem_set_ne hne]
      have := hslot i hlt (by omega)
      rw [List.getD_eq_getElem _ _ hlt'] at this
      rw [this, List.getD_eq_getElem _ _ hlt, List.getD_eq_getElem _ _ (by simpa using hi)]
      exact (List.getElem_append_left hlt).symm
    · subst heq
      rw [← hindex]
      rw [List.getD_eq_getElem _ _ (by simpa using hidx), List.getElem_set_self]
      simp

theorem Window.tracks_foldl (ms : List Int) :
    (ms.foldl Window.AppendMillis Window.zero).Tracks ms := by
  induction ms using List.reverseRecOn with
  | nil => exact Window.tracks_zero
  | append_singleton l a ih =>
    rw [List.foldl_append]
    exact Window.tracks_appendMillis _ _ _ ih

/-! ### Sums over the buffer -/

theorem sum_eq_sum_range_getD (l : List Int) :
    l.sum = ∑ i in Finset.range l.length, l.getD i 0 := by
  induction l with
  | nil => simp
  | cons a l ih =>
    rw [List.length_cons, Finset.sum_range_succ', List.sum_cons, ih, add_comm]
    simp

theorem sum_drop_eq_sum_range (l : List Int) (a : Nat) :
    (l.drop a).sum = ∑ i in Finset.range (l.length - a), l.getD (a + i) 0 := by
  rw [sum_eq_sum_range_getD, List.length_drop]
  refine Finset.sum_congr rfl fun i _ => ?_
  simp [List.getD_eq_getElem?_getD, List.getElem?_drop]

theorem sum_range_mod_shift (f : Nat → Int) (a : Nat) :
    ∑ i in Finset.range Capacity, f ((a + i) % Capacity) = ∑ j in Finset.range Capacity, f j := by
  have h : ∀ i, (a + i) % Capacity = (a % Capacity + i) % Capacity := fun i => by
    simp only [Capacity]; omega
  simp only [h]
  have hlt : a % Capacity < Capacity := Nat.mod_lt _ (by decide)
  generalize a % Capacity = r at hlt
  simp only [Capacity] at hlt ⊢
  interval_cases r <;> simp [Finset.sum_range_succ] <;> ring

/-- Sum of the occupied slots equals the sum of the last `min N Capacity` samples. -/
theorem Window.sum_slots (w : Window) (ms : List Int) (h : w.Tracks ms) :
    ∑ j in Finset.range w.Length, w.Values.getD j 0
      = (ms.drop (ms.length - min ms.length Capacity)).sum := by
  obtain ⟨_, _, hlen, hslot⟩ := h
  rw [sum_drop_eq_sum_range, hlen]
  rcases Nat.lt_or_ge ms.length Capacity with hlt | hge
  · rw [Nat.min_eq_left hlt.le, Nat.sub_self, Nat.sub_zero]
    refine Finset.sum_congr rfl fun i hi => ?_
    have hi' : i < ms.length := Finset.mem_range.mp hi
    have := hslot i hi' (by omega)
    rw [Nat.mod_eq_of_lt (by omega)] at this
    simpa using this
  · rw [Nat.min_eq_right hge, Nat.sub_sub_self hge]
    rw [← sum_range_mod_shift (fun j => w.Values.getD j 0) (ms.length - Capacity)]
    refine Finset.sum_congr rfl fun i hi => ?_
    have hi' : i < Capacity := Finset.mem_range.mp hi
    exact hslot _ (by omega) (by omega)

theorem foldl_add_div_eq {K : Type} [LinearOrderedField K] (f : Nat → Int) (n : Nat) :
    (List.range n).foldl (fun (sum : K) i => sum + ((f i : Int) : K) / 1000) 0
      = ((∑ j in Finset.range n, f j : Int) : K) / 1000 := by
  induction n with
  | zero => simp
  | succ n ih =>
    rw [List.range_succ, List.foldl_append, ih, Finset.sum_range_succ]
    simp only [List.foldl_cons, List.foldl_nil]
    push_cast
    ring

theorem foldl_append_eq_appendMillis {K : Type} [LinearOrderedField K] [FloorRing K]
    (xs : List K) (w : Window) :
    xs.foldl Window.Append w = (xs.map toMillis).foldl Window.AppendMillis w := by
  induction xs generalizing w with
  | nil => rfl
  | cons x xs ih => simp only [List.foldl_cons, List.map_cons]; rw [ih]; rfl

theorem sum_map_storedSample {K : Type} [LinearOrderedField K] [FloorRing K] (xs : List K) :
    (xs.map storedSample).sum = (((xs.map toMillis).sum : Int) : K) / 1000 := by
  induction xs with
  | nil => simp
  | cons x xs ih =>
    simp only [List.map_cons, List.sum_cons, ih, storedSample]
    push_cast
    ring

/-! ### Sorting and scores -/

theorem sortSlice_perm {α : Type} (less : α → α → Bool) (res : List α) :
    (sortSlice less res).Perm res :=
  List.perm_insertionSort _ res

theorem scoreOrder_sorted {K : Type} [LinearOrderedField K] (res : List (TrigramScore K)) :
    (sortSlice (fun a b => decide (a.Score > b.Score)) res).Pairwise
      (fun a b => a.Score ≥ b.Score) := by
  have htotal : IsTotal (TrigramScore K)
      (fun a b => (fun a b : TrigramScore K => decide (a.Score > b.Score)) b a = false) :=
    ⟨fun a b => by
      simp only [gt_iff_lt, decide_eq_false_iff_not, not_lt]
      exact le_total _ _⟩
  have htrans : IsTrans (TrigramScore K)
      (fun a b => (fun a b : TrigramScore K => decide (a.Score > b.Score)) b a = false) :=
    ⟨fun a b c => by
      simp only [gt_iff_lt, decide_eq_false_iff_not, not_lt]
      exact fun h1 h2 => le_trans h2 h1⟩
  have h := @List.sorted_insertionSort _ _ _ htotal htrans res
  unfold sortSlice
  refine List.Pairwise.imp ?_ h
  intro a b hab
  simpa using hab

theorem scoredTrigrams_keys {K : Type} [LinearOrderedField K] (sqrt : K → K) (s : stats K) :
    (s.scoredTrigrams sqrt).map TrigramScore.Trigram = s.Trigrams.keys := by
  simp [stats.scoredTrigrams, AList.keys, List.keys, Function.comp_def]

/-! ### Sessions -/

theorem addSessionStep_lookup {K : Type} [LinearOrderedField K] [FloorRing K]
    (text : List Char) (timeline : List K) (training : Bool) (s : stats K) (i : Nat)
    (t : String) :
    (addSessionStep text timeline training s i).Trigrams.lookup t =
      if trigramAt text i = t then
        some (recorded timeline training ((s.Trigrams.lookup t).getD trigramStat.zero) [i])
      else s.Trigrams.lookup t := by
  unfold addSessionStep
  by_cases h : trigramAt text i = t
  · subst h
    simp only [if_true, AList.lookup_insert, recorded]
    cases training <;> simp
  · rw [if_neg h]
    simp only
    rw [AList.lookup_insert_ne (Ne.symm h)]

theorem recorded_append {K : Type} [LinearOrderedField K] [FloorRing K] (timeline : List K)
    (training : Bool) (old : trigramStat) (i : Nat) (idxs : List Nat) :
    recorded timeline training (recorded timeline training old [i]) idxs
      = recorded timeline training old (i :: idxs) := by
  cases training
  · simp [recorded]; ring
  · simp [recorded]

theorem foldl_addSessionStep_lookup {K : Type} [LinearOrderedField K] [FloorRing K]
    (text : List Char) (timeline : List K) (training : Bool) (t : String) (is : List Nat)
    (s : stats K) :
    (is.foldl (addSessionStep text timeline training) s).Trigrams.lookup t =
      if is.filter (fun i => trigramAt text i = t) = [] then s.Trigrams.lookup t
      else some (recorded timeline training ((s.Trigrams.lookup t).getD trigramStat.zero)
        (is.filter (fun i => trigramAt text i = t))) := by
  induction is generalizing s with
  | nil => simp
  | cons i is ih =>
    rw [List.foldl_cons, ih, addSessionStep_lookup]
    by_cases h : trigramAt text i = t
    · simp only [h, if_true, List.filter_cons, decide_True, Option.getD_some]
      rw [if_neg (List.cons_ne_nil _ _)]
      split_ifs with hnil
      · rw [hnil]
      · rw [recorded_append]
    · simp only [h, if_false, List.filter_cons, decide_False]
      simp

theorem foldl_add_eq_sum {K : Type} [LinearOrderedField K] (g : Nat → K) (n : Nat) :
    (List.range n).foldl (fun sum i => sum + g i) 0 = ∑ i in Finset.range n, g i := by
  induction n with
  | zero => simp
  | succ n ih => rw [List.range_succ, List.foldl_append, ih, Finset.sum_range_succ]; rfl

theorem Window.average_eq {K : Type} [LinearOrderedField K] (w : Window) (a : K) :
    w.Average a = if w.Length = 0 then a else w.mean := by
  unfold Window.Average Window.mean
  rw [foldl_add_eq_sum]

theorem addSessionStep_trigrams {K : Type} [LinearOrderedField K] [FloorRing K]
    (text : List Char) (timeline : List K) (training : Bool) (s : stats K) (i : Nat) :
    (addSessionStep text timeline training s i).Trigrams =
      s.Trigrams.insert (trigramAt text i)
        (recorded timeline training
          ((s.Trigrams.lookup (trigramAt text i)).getD trigramStat.zero) [i]) := by
  unfold addSessionStep recorded
  cases training <;> simp

theorem abcabc_trigrams {K : Type} [LinearOrderedField K] [FloorRing K]
    (a b c d e f : K) :
    ((stats.fresh : stats K).addSession "abcabc".data [a, b, c, d, e, f] false).Trigrams =
      ((((∅ : AList (fun _ : String => trigramStat)).insert "abc"
          { Count := 1, Duration := Window.zero.Append (d - a) }).insert "bca"
          { Count := 1, Duration := Window.zero.Append (e - b) }).insert "cab"
          { Count := 1, Duration := Window.zero.Append (f - c) }) := by
  have hr : List.range ("abcabc".data.length - 3) = [0, 1, 2] := by decide
  have h0 : trigramAt "abcabc".data 0 = "abc" := by decide
  have h1 : trigramAt "abcabc".data 1 = "bca" := by decide
  have h2 : trigramAt "abcabc".data 2 = "cab" := by decide
  have n1 : ("abc" : String) ≠ "bca" := by decide
  have n2 : ("abc" : String) ≠ "cab" := by decide
  have n3 : ("bca" : String) ≠ "cab" := by decide
  unfold stats.addSession
  rw [hr]
  simp only [List.foldl_cons, List.foldl_nil]
  rw [addSessionStep_trigrams, addSessionStep_trigrams, addSessionStep_trigrams, h0, h1, h2]
  simp only [AList.lookup_insert_ne n2.symm, AList.lookup_insert_ne n1.symm,
    AList.lookup_insert_ne n3.symm, stats.fresh, AList.lookup_empty]
  simp [recorded, trigramStat.zero]

theorem abcabc_session {K : Type} [LinearOrderedField K] [FloorRing K]
    (timeline : List K) (hlen : timeline.length = 6) (hinc : timeline.Sorted (· < ·)) :
    ((stats.fresh : stats K).addSession "abcabc".data timeline false).Trigrams.keys.Perm
        ["abc", "bca", "cab"] ∧
    (∀ i, i < 3 →
      0 < timeline.getD (i + 3) 0 - timeline.getD i 0 ∧
      ((stats.fresh : stats K).addSession "abcabc".data timeline false).Trigrams.lookup
          (trigramAt "abcabc".data i) =
        some { Count := 1
               Duration := Window.zero.Append (timeline.getD (i + 3) 0 - timeline.getD i 0) }) := by
  match timeline, hlen, hinc with
  | [a, b, c, d, e, f], _, hinc =>
    simp only [List.Sorted, List.pairwise_cons, List.mem_cons, List.mem_singleton,
      forall_eq_or_imp, forall_eq] at hinc
    have n1 : ("abc" : String) ≠ "bca" := by decide
    have n2 : ("abc" : String) ≠ "cab" := by decide
    have n3 : ("bca" : String) ≠ "cab" := by decide
    rw [abcabc_trigrams]
    refine ⟨?_, ?_⟩
    · simp only [AList.keys_insert, AList.keys_empty]
      decide
    · intro i hi
      interval_cases i
      · refine ⟨by simpa using hinc.1.2.2.1, ?_⟩
        have h0 : trigramAt "abcabc".data 0 = "abc" := by decide
        rw [h0, AList.lookup_insert_ne n2, AList.lookup_insert_ne n1, AList.lookup_insert]
        simp
      · refine ⟨by simpa using hinc.2.1.2.2.1, ?_⟩
        have h1 : trigramAt "abcabc".data 1 = "bca" := by decide
        rw [h1, AList.lookup_insert_ne n3, AList.lookup_insert]
        simp
      · refine ⟨by simpa using hinc.2.2.1.2.2, ?_⟩
        have h2 : trigramAt "abcabc".data 2 = "cab" := by decide
        rw [h2, AList.lookup_insert]
        simp

theorem addSession_lookup {K : Type} [LinearOrderedField K] [FloorRing K]
    (s : stats K) (text : List Char) (timeline : List K) (training : Bool)
    (hn : 5 ≤ text.length) (hlen : timeline.length = text.length) (t : String) :
    let idxs := (List.range (text.length - 3)).filter (fun i => trigramAt text i = t)
    let old := (s.Trigrams.lookup t).getD trigramStat.zero
    (∀ i, i ∈ idxs ↔ (i ≤ text.length - 4 ∧ trigramAt text i = t)) ∧
    idxs.Sorted (· < ·) ∧
    (s.addSession text timeline training).Trigrams.lookup t =
      if idxs = [] then s.Trigrams.lookup t
      else some
        { Count := if training then old.Count else old.Count + idxs.length
          Duration :=
            idxs.foldl (fun w i => w.Append (timeline.getD (i + 3) 0 - timeline.getD i 0))
              old.Duration } := by
  intro idxs old
  refine ⟨?_, ?_, ?_⟩
  · intro i
    simp only [idxs, List.mem_filter, List.mem_range, decide_eq_true_eq]
    constructor
    · rintro ⟨h1, h2⟩; exact ⟨by omega, h2⟩
    · rintro ⟨h1, h2⟩; exact ⟨by omega, h2⟩
  · exact (List.sorted_lt_range _).filter _
  · unfold stats.addSession
    simp only
    rw [foldl_addSessionStep_lookup]
    rfl

/-! ### Relaxation invariants -/

theorem foldl_relax_induction {K : Type} [LinearOrderedField K] (edges : List (edge K))
    (P : pathMaps K → Prop) (hstep : ∀ m e, e ∈ edges → P m → P (relax m e))
    (l : List (edge K)) (hl : ∀ e ∈ l, e ∈ edges) (m : pathMaps K) (hm : P m) :
    P (l.foldl relax m) := by
  induction l generalizing m with
  | nil => exact hm
  | cons e l ih =>
    rw [List.foldl_cons]
    exact ih (fun x hx => hl x (List.mem_cons_of_mem _ hx)) _
      (hstep m e (hl e (List.mem_cons_self _ _)) hm)

theorem bellmanFordMaps_induction {K : Type} [LinearOrderedField K] (start : String)
    (vertices : List String) (edges : List (edge K)) (P : pathMaps K → Prop)
    (h0 : P (initMaps start vertices))
    (hstep : ∀ m e, e ∈ edges → P m → P (relax m e)) :
    P (bellmanFordMaps start vertices edges) := by
  unfold bellmanFordMaps
  generalize vertices.length - 1 = n
  induction n with
  | zero => exact h0
  | succ n ih =>
    rw [Function.iterate_succ_apply']
    exact foldl_relax_induction edges P hstep edges (fun _ h => h) _ ih

theorem relax_distance_le {K : Type} [LinearOrderedField K] (m : pathMaps K) (e : edge K)
    (v : String) : (relax m e).distance v ≤ m.distance v := by
  unfold relax
  split_ifs with h
  · by_cases hv : v = e.v2
    · subst hv; simpa using h.le
    · simp [Function.update_noteq hv]
  · exact le_rfl

theorem predEdge_relax {K : Type} [LinearOrderedField K] (edges : List (edge K))
    (hw : ∀ e ∈ edges, 0 < e.w) (m : pathMaps K) (e : edge K) (he : e ∈ edges)
    (hm : PredEdge edges m) : PredEdge edges (relax m e) := by
  intro v hv
  by_cases hr : m.distance e.v1 + e.w < m.distance e.v2
  · have hne : e.v1 ≠ e.v2 := by
      intro heq
      rw [heq] at hr
      have := hw e he
      linarith
    have hrel : relax m e =
        { distance := Function.update m.distance e.v2 (m.distance e.v1 + e.w)
          predecessor := Function.update m.predecessor e.v2 e.v1 } := by
      unfold relax; rw [if_pos hr]
    rw [hrel] at hv ⊢
    by_cases hve : v = e.v2
    · subst hve
      refine ⟨e, he, by simp, rfl, ?_⟩
      simp [Function.update_noteq hne]
    · simp only [Function.update_noteq hve] at hv ⊢
      obtain ⟨e0, he0, h1, h2, h3⟩ := hm v hv
      refine ⟨e0, he0, h1, h2, le_trans ?_ h3⟩
      have := relax_distance_le m e e0.v1
      rw [hrel] at this
      linarith
  · have hrel : relax m e = m := by unfold relax; rw [if_neg hr]
    rw [hrel] at hv ⊢
    exact hm v hv

theorem predEdge_bellmanFordMaps {K : Type} [LinearOrderedField K] (start : String)
    (vertices : List String) (edges : List (edge K)) (hw : ∀ e ∈ edges, 0 < e.w) :
    PredEdge edges (bellmanFordMaps start vertices edges) :=
  bellmanFordMaps_induction start vertices edges (PredEdge edges)
    (fun _ hv => absurd rfl hv) (fun m e he hm => predEdge_relax edges hw m e he hm)

/-! ### The tracing loop -/

theorem countP_lt_countP {α : Type} (l : List α) (p q : α → Bool)
    (himp : ∀ x ∈ l, p x = true → q x = true) (x : α) (hx : x ∈ l) (hq : q x = true)
    (hp : p x = false) : l.countP p < l.countP q := by
  induction l with
  | nil => simp at hx
  | cons a l ih =>
    have hmono : l.countP p ≤ l.countP q :=
      List.countP_mono_left fun y hy h => himp y (List.mem_cons_of_mem _ hy) h
    rcases List.mem_cons.mp hx with rfl | hxl
    · rw [List.countP_cons_of_neg _ _ (by simp [hp]), List.countP_cons_of_pos _ _ hq]
      omega
    · have := ih (fun y hy h => himp y (List.mem_cons_of_mem _ hy) h) hxl
      by_cases hpa : p a = true
      · rw [List.countP_cons_of_pos _ _ hpa,
          List.countP_cons_of_pos _ _ (himp a (List.mem_cons_self _ _) hpa)]
        omega
      · rw [List.countP_cons_of_neg _ _ hpa]
        by_cases hqa : q a = true
        · rw [List.countP_cons_of_pos _ _ hqa]; omega
        · rw [List.countP_cons_of_neg _ _ hqa]; exact this

theorem traceMeasure_le {K : Type} [LinearOrderedField K] (edges : List (edge K))
    (m : pathMaps K) (v : String) : traceMeasure edges m v ≤ edges.length :=
  List.countP_le_length _

theorem traceMeasure_pred_lt {K : Type} [LinearOrderedField K] (edges : List (edge K))
    (hw : ∀ e ∈ edges, 0 < e.w) (m : pathMaps K) (hm : PredEdge edges m) (v : String)
    (hv : m.predecessor v ≠ "") :
    traceMeasure edges m (m.predecessor v) < traceMeasure edges m v := by
  obtain ⟨e, he, h1, h2, h3⟩ := hm v hv
  have hlt : m.distance (m.predecessor v) < m.distance v := by
    have := hw e he
    rw [← h1]
    linarith
  unfold traceMeasure
  refine countP_lt_countP edges _ _ ?_ e he ?_ ?_
  · intro x _ hx
    simp only [decide_eq_true_eq] at hx ⊢
    exact le_trans hx hlt.le
  · simp [h2]
  · simp only [decide_eq_false_iff_not, not_le, h2]
    exact hlt

theorem tracePath_spec (start : String) (ways : String → String) (μ : String → Nat)
    (hdec : ∀ v, ways v ≠ "" → μ (ways v) < μ v) :
    ∀ (fuel : Nat) (step : String) (acc : List String), μ step < fuel →
      ∃ r, tracePath start ways fuel step acc = some r ∧
        (r = [] ∨ ∃ c, r = acc ++ c ∧ PredChain start ways step c ∧ c.length ≤ μ step + 1) := by
  intro fuel
  induction fuel with
  | zero => intro step acc h; omega
  | succ fuel ih =>
    intro step acc h
    unfold tracePath
    by_cases hs : step = start
    · rw [if_pos hs]
      refine ⟨_, rfl, Or.inr ⟨[step], rfl, ?_, by simp⟩⟩
      rw [hs]; exact PredChain.stop
    · rw [if_neg hs]
      by_cases hwz : ways step = ""
      · rw [if_pos hwz]; exact ⟨[], rfl, Or.inl rfl⟩
      · rw [if_neg hwz]
        have hlt := hdec step hwz
        obtain ⟨r, hr, hcase⟩ := ih (ways step) (acc ++ [step]) (by omega)
        refine ⟨r, hr, ?_⟩
        rcases hcase with h0 | ⟨c, hc, hchain, hlen⟩
        · exact Or.inl h0
        · refine Or.inr ⟨step :: c, by simp [hc], PredChain.step hs hwz hchain, ?_⟩
          simp only [List.length_cons]; omega

theorem predChain_start (start : String) (ways : String → String) (c : List String)
    (h : PredChain start ways start c) : c = [start] := by
  cases h with
  | stop => rfl
  | step hne _ _ => exact absurd rfl hne

theorem predChain_head (start : String) (ways : String → String) (v : String)
    (c : List String) (h : PredChain start ways v c) : ∃ c', c = v :: c' := by
  cases h with
  | stop => exact ⟨[], rfl⟩
  | step _ _ _ => exact ⟨_, rfl⟩

theorem predChain_tail (start : String) (ways : String → String) (v : String)
    (c : List String) (h : PredChain start ways v c) (hv : v ≠ start) :
    ∃ c' u, c = c' ++ [u, start] ∧ ways u = start ∧ ways u ≠ "" := by
  induction h with
  | stop => exact absurd rfl hv
  | @step v c hne hw hc ih =>
    by_cases hs : ways v = start
    · rw [hs] at hc
      have := predChain_start start ways c hc
      exact ⟨[], v, by simp [this], hs, hw⟩
    · obtain ⟨c', u, h1, h2, h3⟩ := ih hs
      exact ⟨v :: c', u, by simp [h1], h2, h3⟩

theorem isWalk_append_singleton {K : Type} (edges : List (edge K)) (es : List (edge K))
    (e : edge K) (u v : String) :
    IsWalk edges u (es ++ [e]) v ↔ IsWalk edges u es e.v1 ∧ e ∈ edges ∧ e.v2 = v := by
  induction es generalizing u with
  | nil =>
    simp only [List.nil_append, IsWalk]
    constructor
    · rintro ⟨h1, h2, h3⟩; exact ⟨h2.symm, h1, h3⟩
    · rintro ⟨h1, h2, h3⟩; exact ⟨h2, h1.symm, h3⟩
  | cons a es ih =>
    show (a ∈ edges ∧ a.v1 = u ∧ IsWalk edges a.v2 (es ++ [e]) v) ↔
      (a ∈ edges ∧ a.v1 = u ∧ IsWalk edges a.v2 es e.v1) ∧ e ∈ edges ∧ e.v2 = v
    rw [ih]
    tauto

theorem predChain_walk {K : Type} [LinearOrderedField K] (edges : List (edge K))
    (m : pathMaps K) (hm : PredEdge edges m) (start v : String) (c : List String)
    (h : PredChain start m.predecessor v c) :
    ∃ es, IsWalk edges start es v ∧ (∀ e ∈ es, m.predecessor e.v2 = e.v1) := by
  induction h with
  | stop => exact ⟨[], rfl, by simp⟩
  | @step v c _ hw _ ih =>
    obtain ⟨es, hes, hp⟩ := ih
    obtain ⟨e, he, h1, h2, _⟩ := hm v hw
    refine ⟨es ++ [e], ?_, ?_⟩
    · rw [isWalk_append_singleton]
      exact ⟨by rw [h1]; exact hes, he, h2⟩
    · intro x hx
      rcases List.mem_append.mp hx with hx | hx
      · exact hp x hx
      · rw [List.mem_singleton] at hx
        subst hx
        rw [h2, h1]

/-! ### The graph of `weakestSequence` -/

theorem foldl_buildGraph_edges {K : Type} [LinearOrderedField K]
    (trigrams : List (TrigramScore K)) (g : List (edge K) × List String) :
    (trigrams.foldl
      (fun g trigram =>
        if trigram.Score > 0 then
          (g.1 ++ [{ v1 := (headTail trigram.Trigram).1, v2 := (headTail trigram.Trigram).2,
                     w := 1 / trigram.Score }],
            (g.2.insert (headTail trigram.Trigram).1).insert (headTail trigram.Trigram).2)
        else g) g).1
      = g.1 ++ (trigrams.filter fun t => decide (t.Score > 0)).map trigramEdge := by
  induction trigrams generalizing g with
  | nil => simp
  | cons t ts ih =>
    rw [List.foldl_cons, ih]
    by_cases h : t.Score > 0
    · simp [h, trigramEdge]
    · simp [h]

theorem buildGraph_edges {K : Type} [LinearOrderedField K] (trigrams : List (TrigramScore K)) :
    (buildGraph trigrams).1 = (trigrams.filter fun t => decide (t.Score > 0)).map trigramEdge := by
  unfold buildGraph
  rw [foldl_buildGraph_edges]
  rfl

theorem buildGraph_edges_length {K : Type} [LinearOrderedField K]
    (trigrams : List (TrigramScore K)) : (buildGraph trigrams).1.length ≤ trigrams.length := by
  rw [buildGraph_edges, List.length_map]
  exact List.length_filter_le _ _

theorem buildGraph_edge_mem {K : Type} [LinearOrderedField K]
    (trigrams : List (TrigramScore K)) (e : edge K) (he : e ∈ (buildGraph trigrams).1) :
    ∃ t ∈ trigrams, 0 < t.Score ∧ e = trigramEdge t := by
  rw [buildGraph_edges, List.mem_map] at he
  obtain ⟨t, ht, rfl⟩ := he
  rw [List.mem_filter] at ht
  exact ⟨t, ht.1, by simpa using ht.2, rfl⟩

theorem buildGraph_weight_pos {K : Type} [LinearOrderedField K]
    (trigrams : List (TrigramScore K)) : ∀ e ∈ (buildGraph trigrams).1, 0 < e.w := by
  intro e he
  obtain ⟨t, _, hpos, rfl⟩ := buildGraph_edge_mem trigrams e he
  simpa [trigramEdge] using hpos

/-! ### `wrap` -/

theorem wrap_length (loop : List Char) (l : Nat) : (wrap loop l).length = l := by
  simp [wrap, String.length]

theorem wrap_getElem? (loop : List Char) (l : Nat) (hloop : loop ≠ []) (i : Nat) (hi : i < l) :
    (wrap loop l).data[i]? = loop[i % loop.length]? := by
  have hpos : 0 < loop.length := List.length_pos.mpr hloop
  have hlt : i % loop.length < loop.length := Nat.mod_lt _ hpos
  simp [wrap, List.getElem?_map, List.getElem?_range hi, List.getD_eq_getElem?_getD,
    List.getElem?_eq_getElem hlt]

/-! ### `weakestSequence` -/

theorem weakestSequence_eq {K : Type} [LinearOrderedField K] (fuel : Nat)
    (top : TrigramScore K) (rest : List (TrigramScore K)) (length : Nat)
    (hfuel : (top :: rest).length < fuel) :
    ∃ path : List String,
      (path = [] ∨
        (PredChain (headTail top.Trigram).2
            (bellmanFord (headTail top.Trigram).2 (buildGraph (top :: rest)).2
              (buildGraph (top :: rest)).1)
            (headTail top.Trigram).1 path
          ∧ path.length ≤ (top :: rest).length + 1)) ∧
      weakestSequence fuel (top :: rest) length =
        some (wrap (if path.length = 0 then top.Trigram.data else path.reverse.map firstRune)
          length) := by
  have hw := buildGraph_weight_pos (top :: rest)
  have hpe := predEdge_bellmanFordMaps (headTail top.Trigram).2 (buildGraph (top :: rest)).2
    (buildGraph (top :: rest)).1 hw
  have hlen := buildGraph_edges_length (top :: rest)
  obtain ⟨r, hr, hcase⟩ := tracePath_spec (headTail top.Trigram).2
    (bellmanFord (headTail top.Trigram).2 (buildGraph (top :: rest)).2
      (buildGraph (top :: rest)).1)
    (traceMeasure (buildGraph (top :: rest)).1
      (bellmanFordMaps (headTail top.Trigram).2 (buildGraph (top :: rest)).2
        (buildGraph (top :: rest)).1))
    (fun v hv => traceMeasure_pred_lt _ hw _ hpe v hv)
    fuel (headTail top.Trigram).1 []
    (lt_of_le_of_lt (le_trans (traceMeasure_le _ _ _) hlen) hfuel)
  refine ⟨r, ?_, ?_⟩
  · rcases hcase with h0 | ⟨c, hc, hchain, hclen⟩
    · exact Or.inl h0
    · rw [List.nil_append] at hc
      subst hc
      refine Or.inr ⟨hchain, ?_⟩
      have := traceMeasure_le (buildGraph (top :: rest)).1
        (bellmanFordMaps (headTail top.Trigram).2 (buildGraph (top :: rest)).2
          (buildGraph (top :: rest)).1) (headTail top.Trigram).1
      omega
  · unfold weakestSequence
    simp only [hr]

theorem headTail_of_three (t : String) (x y z : Char) (h : t.data = [x, y, z]) :
    headTail t = (String.mk [x, y], String.mk [y, z]) := by
  simp [headTail, h]

theorem exists_three (t : String) (h : t.length = 3) : ∃ x y z, t.data = [x, y, z] := by
  have h' : t.data.length = 3 := h
  match hd : t.data, h' with
  | [x, y, z], _ => exact ⟨x, y, z, rfl⟩

theorem isWalk_mem {K : Type} (edges : List (edge K)) (u v : String) (es : List (edge K))
    (h : IsWalk edges u es v) : ∀ e ∈ es, e ∈ edges := by
  induction es generalizing u with
  | nil => simp
  | cons a es ih =>
    obtain ⟨h1, _, h3⟩ := h
    intro e he
    rcases List.mem_cons.mp he with rfl | he
    · exact h1
    · exact ih _ h3 e he

/-- The tracing loop of `weakestSequence` yields the fallback loop whenever the head bigram
of the top trigram cannot be reached from its tail bigram. -/
theorem weakestSequence_fallback {K : Type} [LinearOrderedField K] (fuel : Nat)
    (top : TrigramScore K) (rest : List (TrigramScore K)) (length : Nat)
    (hfuel : (top :: rest).length < fuel)
    (hun : ¬ ∃ es, IsWalk (buildGraph (top :: rest)).1 (headTail top.Trigram).2 es
      (headTail top.Trigram).1) :
    weakestSequence fuel (top :: rest) length = some (wrap top.Trigram.data length) := by
  obtain ⟨path, hcase, heq⟩ := weakestSequence_eq fuel top rest length hfuel
  rcases hcase with h0 | ⟨hchain, _⟩
  · rw [heq, h0]; rfl
  · exfalso
    apply hun
    obtain ⟨es, hes, _⟩ := predChain_walk (buildGraph (top :: rest)).1 _
      (predEdge_bellmanFordMaps (headTail top.Trigram).2 (buildGraph (top :: rest)).2
        (buildGraph (top :: rest)).1 (buildGraph_weight_pos (top :: rest)))
      _ _ path hchain
    exact ⟨es, hes⟩
theorem wrap_infix (loop : List Char) (l k : Nat) (x y z : Char) (hl : k + 3 ≤ l)
    (hx : loop[k % loop.length]? = some x) (hy : loop[(k + 1) % loop.length]? = some y)
    (hz : loop[(k + 2) % loop.length]? = some z) : [x, y, z] <:+: (wrap loop l).data := by
  obtain ⟨m, rfl⟩ : ∃ m, l = k + (3 + m) := ⟨l - k - 3, by omega⟩
  refine ⟨(List.range k).map fun i => loop.getD (i % loop.length) default,
    (List.range m).map fun i => loop.getD ((k + (3 + i)) % loop.length) default, ?_⟩
  simp only [wrap, List.range_add, List.map_append, List.map_map]
  have h3 : List.range 3 = [0, 1, 2] := by decide
  simp [h3, List.getD_eq_getElem?_getD, hx, hy, hz, Function.comp_def]

/-! ### Shortest paths -/

theorem MaxFloat64_pos {K : Type} [LinearOrderedField K] : (0 : K) < MaxFloat64 := by
  unfold MaxFloat64
  have h : 0 < 2 ^ 1024 - 2 ^ 971 := by norm_num
  exact_mod_cast h

theorem initMaps_distance_start {K : Type} [LinearOrderedField K] (start : String)
    (vertices : List String) : (initMaps start vertices : pathMaps K).distance start = 0 := by
  simp [initMaps]

theorem initMaps_distance_of_ne {K : Type} [LinearOrderedField K] (start : String)
    (vertices : List String) (v : String) (hv : v ∈ vertices) (hne : v ≠ start) :
    (initMaps start vertices : pathMaps K).distance v = MaxFloat64 := by
  simp [initMaps, Function.update_noteq hne, hv]

theorem initMaps_distance_le {K : Type} [LinearOrderedField K] (start : String)
    (vertices : List String) (v : String) :
    (initMaps start vertices : pathMaps K).distance v ≤ MaxFloat64 := by
  unfold initMaps
  by_cases hs : v = start
  · subst hs; simpa using MaxFloat64_pos.le
  · simp only [Function.update_noteq hs]
    split_ifs
    · exact le_rfl
    · exact MaxFloat64_pos.le

theorem initMaps_distance_nonneg {K : Type} [LinearOrderedField K] (start : String)
    (vertices : List String) (v : String) :
    0 ≤ (initMaps start vertices : pathMaps K).distance v := by
  unfold initMaps
  by_cases hs : v = start
  · subst hs; simp
  · simp only [Function.update_noteq hs]
    split_ifs
    · exact MaxFloat64_pos.le
    · exact le_rfl

theorem weight_append_singleton {K : Type} [LinearOrderedField K] (es : List (edge K))
    (e : edge K) : weight (es ++ [e]) = weight es + e.w := by
  simp [weight]

theorem settled_init {K : Type} [LinearOrderedField K] (start : String)
    (vertices : List String) (edges : List (edge K)) :
    Settled start vertices edges (initMaps start vertices) where
  le_init := fun _ => le_rfl
  nonneg := initMaps_distance_nonneg start vertices
  untouched := fun _ _ => rfl
  pred_edge := fun _ h => absurd h (lt_irrefl _)
  realised := fun _ h => absurd h (lt_irrefl _)

theorem settled_relax {K : Type} [LinearOrderedField K] (start : String)
    (vertices : List String) (edges : List (edge K)) (hw : ∀ e ∈ edges, 0 < e.w)
    (hV : ∀ e ∈ edges, e.v1 ∈ vertices ∧ e.v2 ∈ vertices)
    (m : pathMaps K) (e : edge K) (he : e ∈ edges) (hm : Settled start vertices edges m) :
    Settled start vertices edges (relax m e) := by
  by_cases hr : m.distance e.v1 + e.w < m.distance e.v2
  · have hpos := hw e he
    have hne : e.v1 ≠ e.v2 := by
      intro heq
      rw [heq] at hr
      linarith
    have hrel : relax m e =
        { distance := Function.update m.distance e.v2 (m.distance e.v1 + e.w)
          predecessor := Function.update m.predecessor e.v2 e.v1 } := by
      unfold relax; rw [if_pos hr]
    have hdle : ∀ v, (relax m e).distance v ≤ m.distance v := relax_distance_le m e
    have hlt2 : (relax m e).distance e.v2 < (initMaps start vertices).distance e.v2 := by
      rw [hrel]
      simp only [Function.update_same]
      exact lt_of_lt_of_le hr (hm.le_init _)
    have hother : ∀ v, v ≠ e.v2 → (relax m e).distance v = m.distance v ∧
        (relax m e).predecessor v = m.predecessor v := by
      intro v hv
      rw [hrel]
      simp [Function.update_noteq hv]
    have hat : (relax m e).distance e.v2 = m.distance e.v1 + e.w ∧
        (relax m e).predecessor e.v2 = e.v1 := by
      rw [hrel]; simp
    refine ⟨fun v => le_trans (hdle v) (hm.le_init v), ?_, ?_, ?_, ?_⟩
    · intro v
      by_cases hv : v = e.v2
      · subst hv
        rw [hat.1]
        have := hm.nonneg e.v1
        linarith
      · rw [(hother v hv).1]; exact hm.nonneg v
    · intro v hv
      by_cases hve : v = e.v2
      · subst hve
        exact absurd hv (ne_of_lt hlt2)
      · rw [(hother v hve).2]
        rw [(hother v hve).1] at hv
        exact hm.untouched v hv
    · intro v hv
      by_cases hve : v = e.v2
      · subst hve
        refine ⟨e, he, hat.2.symm, rfl, ?_⟩
        rw [hat.1, (hother e.v1 hne).1]
      · rw [(hother v hve).1] at hv
        obtain ⟨e0, he0, h1, h2, h3⟩ := hm.pred_edge v hv
        refine ⟨e0, he0, by rw [(hother v hve).2]; exact h1, h2, ?_⟩
        rw [(hother v hve).1]
        exact le_trans (add_le_add_right (hdle e0.v1) _) h3
    · intro v hv
      by_cases hve : v = e.v2
      · subst hve
        rw [hat.1]
        rcases lt_or_eq_of_le (hm.le_init e.v1) with hlt | heq
        · obtain ⟨es, hes, hwt⟩ := hm.realised e.v1 hlt
          refine ⟨es ++ [e], ?_, ?_⟩
          · rw [isWalk_append_singleton]; exact ⟨hes, he, rfl⟩
          · rw [weight_append_singleton, hwt]
        · by_cases hs : e.v1 = start
          · refine ⟨[e], ⟨he, hs, rfl⟩, ?_⟩
            have h0 : m.distance e.v1 = 0 := by
              rw [heq, hs]; exact initMaps_distance_start start vertices
            simp [weight, h0]
          · exfalso
            rw [initMaps_distance_of_ne start vertices e.v1 (hV e he).1 hs] at heq
            have h2 := le_trans (hm.le_init e.v2) (initMaps_distance_le start vertices e.v2)
            rw [heq] at hr
            linarith
      · rw [(hother v hve).1] at hv ⊢
        exact hm.realised v hv
  · have hrel : relax m e = m := by unfold relax; rw [if_neg hr]
    rw [hrel]
    exact hm

theorem settled_bellmanFordMaps {K : Type} [LinearOrderedField K] (start : String)
    (vertices : List String) (edges : List (edge K)) (hw : ∀ e ∈ edges, 0 < e.w)
    (hV : ∀ e ∈ edges, e.v1 ∈ vertices ∧ e.v2 ∈ vertices) :
    Settled start vertices edges (bellmanFordMaps start vertices edges) :=
  bellmanFordMaps_induction start vertices edges (Settled start vertices edges)
    (settled_init start vertices edges)
    (fun m e he hm => settled_relax start vertices edges hw hV m e he hm)
theorem foldl_relax_distance_le {K : Type} [LinearOrderedField K] (l : List (edge K))
    (m : pathMaps K) (v : String) : (l.foldl relax m).distance v ≤ m.distance v := by
  induction l generalizing m with
  | nil => exact le_rfl
  | cons e l ih =>
    rw [List.foldl_cons]
    exact le_trans (ih _) (relax_distance_le m e v)

theorem relax_target_le {K : Type} [LinearOrderedField K] (m : pathMaps K) (e : edge K) :
    (relax m e).distance e.v2 ≤ m.distance e.v1 + e.w := by
  unfold relax
  split_ifs with h
  · simp
  · exact not_lt.mp h

theorem foldl_relax_target_le {K : Type} [LinearOrderedField K] (l : List (edge K))
    (m : pathMaps K) (e : edge K) (he : e ∈ l) :
    (l.foldl relax m).distance e.v2 ≤ m.distance e.v1 + e.w := by
  induction l generalizing m with
  | nil => simp at he
  | cons a l ih =>
    rw [List.foldl_cons]
    rcases List.mem_cons.mp he with rfl | hl
    · exact le_trans (foldl_relax_distance_le l _ _) (relax_target_le m e)
    · exact le_trans (ih _ hl) (add_le_add_right (relax_distance_le m a e.v1) _)

/-- After `k` rounds the distance of `v` is at most the weight of any walk of at most `k`
edges from `start` to `v`. -/
theorem iterate_walk_le {K : Type} [LinearOrderedField K] (start : String)
    (vertices : List String) (edges : List (edge K)) (k : Nat) :
    ∀ (es : List (edge K)) (v : String), es.length ≤ k → IsWalk edges start es v →
      ((fun m => edges.foldl relax m)^[k] (initMaps start vertices)).distance v ≤ weight es := by
  induction k with
  | zero =>
    intro es v hlen hwalk
    have hnil : es = [] := List.length_eq_zero.mp (Nat.le_zero.mp hlen)
    subst hnil
    have hv : start = v := hwalk
    subst hv
    simp [initMaps, weight]
  | succ k ih =>
    intro es v hlen hwalk
    rw [Function.iterate_succ_apply']
    rcases List.eq_nil_or_concat es with hnil | ⟨es', e, hes⟩
    · subst hnil
      exact le_trans (foldl_relax_distance_le _ _ _) (ih [] v (Nat.zero_le _) hwalk)
    · rw [List.concat_eq_append] at hes
      subst hes
      rw [isWalk_append_singleton] at hwalk
      obtain ⟨h1, h2, h3⟩ := hwalk
      have hlen' : es'.length ≤ k := by
        simp only [List.length_append, List.length_singleton] at hlen; omega
      rw [weight_append_singleton, ← h3]
      exact le_trans (foldl_relax_target_le edges _ e h2) (add_le_add_right (ih es' e.v1 hlen' h1) _)

theorem weight_cons {K : Type} [LinearOrderedField K] (e : edge K) (es : List (edge K)) :
    weight (e :: es) = e.w + weight es := by
  simp [weight]

theorem walk_suffix {K : Type} [LinearOrderedField K] (edges : List (edge K))
    (hw : ∀ e ∈ edges, 0 < e.w) (es : List (edge K)) :
    ∀ (u v s : String), IsWalk edges u es v → s ∈ u :: es.map (fun e => e.v2) →
      ∃ es', IsWalk edges s es' v ∧ weight es' ≤ weight es ∧
        (s :: es'.map fun e => e.v2).Sublist (u :: es.map fun e => e.v2) := by
  induction es with
  | nil =>
    intro u v s hwalk hs
    simp only [List.map_nil, List.mem_singleton] at hs
    subst hs
    exact ⟨[], hwalk, le_rfl, List.Sublist.refl _⟩
  | cons e es ih =>
    intro u v s hwalk hs
    obtain ⟨he, hv1, hrest⟩ := hwalk
    rcases List.mem_cons.mp hs with rfl | hs'
    · exact ⟨e :: es, ⟨he, hv1, hrest⟩, le_rfl, List.Sublist.refl _⟩
    · obtain ⟨es', h1, h2, h3⟩ := ih e.v2 v s hrest (by simpa using hs')
      refine ⟨es', h1, ?_, ?_⟩
      · rw [weight_cons]
        have := hw e he
        linarith
      · simpa using h3.cons u

theorem walk_simple {K : Type} [LinearOrderedField K] (edges : List (edge K))
    (hw : ∀ e ∈ edges, 0 < e.w) (es : List (edge K)) :
    ∀ (u v : String), IsWalk edges u es v →
      ∃ es', IsWalk edges u es' v ∧ weight es' ≤ weight es ∧
        (u :: es'.map fun e => e.v2).Nodup := by
  induction es with
  | nil =>
    intro u v hwalk
    exact ⟨[], hwalk, le_rfl, by simp⟩
  | cons e es ih =>
    intro u v hwalk
    obtain ⟨he, hv1, hrest⟩ := hwalk
    obtain ⟨es1, h1, h2, h3⟩ := ih e.v2 v hrest
    by_cases hu : u ∈ e.v2 :: es1.map fun e => e.v2
    · obtain ⟨es2, g1, g2, g3⟩ := walk_suffix edges hw es1 e.v2 v u h1 hu
      refine ⟨es2, g1, ?_, g3.nodup h3⟩
      rw [weight_cons]
      have := hw e he
      linarith
    · refine ⟨e :: es1, ⟨he, hv1, h1⟩, ?_, ?_⟩
      · rw [weight_cons, weight_cons]; linarith
      · simp only [List.map_cons]
        exact List.nodup_cons.mpr ⟨hu, h3⟩

theorem walk_vertices_mem {K : Type} (edges : List (edge K)) (vertices : List String)
    (hV : ∀ e ∈ edges, e.v1 ∈ vertices ∧ e.v2 ∈ vertices) (u v : String)
    (es : List (edge K)) (hu : u ∈ vertices) (hwalk : IsWalk edges u es v) :
    ∀ x ∈ u :: es.map (fun e => e.v2), x ∈ vertices := by
  intro x hx
  rcases List.mem_cons.mp hx with rfl | hx
  · exact hu
  · obtain ⟨e, he, rfl⟩ := List.mem_map.mp hx
    exact (hV e (isWalk_mem edges u v es hwalk e he)).2

/-- After all rounds the distance of `v` is at most the weight of every walk from `start`
to `v`. -/
theorem bellmanFordMaps_le_walk {K : Type} [LinearOrderedField K] (start : String)
    (vertices : List String) (edges : List (edge K)) (hw : ∀ e ∈ edges, 0 < e.w)
    (hV : ∀ e ∈ edges, e.v1 ∈ vertices ∧ e.v2 ∈ vertices) (hstart : start ∈ vertices)
    (es : List (edge K)) (v : String) (hwalk : IsWalk edges start es v) :
    (bellmanFordMaps start vertices edges).distance v ≤ weight es := by
  obtain ⟨es', h1, h2, h3⟩ := walk_simple edges hw es start v hwalk
  have hsub : (start :: es'.map fun e => e.v2) ⊆ vertices :=
    fun x hx => walk_vertices_mem edges vertices hV start v es' hstart h1 x hx
  have hlen := (List.subperm_of_subset h3 hsub).length_le
  simp only [List.length_cons, List.length_map] at hlen
  exact le_trans (iterate_walk_le start vertices edges _ es' v (by omega) h1) h2

theorem traceMeasure_lt {K : Type} [LinearOrderedField K] (edges : List (edge K))
    (m : pathMaps K) (u v : String) (e : edge K) (he : e ∈ edges) (he2 : e.v2 = v)
    (hlt : m.distance u < m.distance v) :
    traceMeasure edges m u < traceMeasure edges m v := by
  unfold traceMeasure
  refine countP_lt_countP edges _ _ ?_ e he ?_ ?_
  · intro x _ hx
    simp only [decide_eq_true_eq] at hx ⊢
    exact le_trans hx hlt.le
  · simp [he2]
  · simp only [decide_eq_false_iff_not, not_le, he2]
    exact hlt

/-- From a vertex whose distance dropped, the predecessors lead back to `start` along edges
whose total weight is at most the distance of the vertex. -/
theorem settled_chain {K : Type} [LinearOrderedField K] (start : String)
    (vertices : List String) (edges : List (edge K)) (hw : ∀ e ∈ edges, 0 < e.w)
    (hV : ∀ e ∈ edges, e.v1 ∈ vertices ∧ e.v2 ∈ vertices)
    (m : pathMaps K) (hm : Settled start vertices edges m) :
    ∀ (n : Nat) (v : String), traceMeasure edges m v < n →
      m.distance v < (initMaps start vertices).distance v →
      ∃ es, IsWalk edges start es v ∧ (∀ e ∈ es, m.predecessor e.v2 = e.v1) ∧
        weight es ≤ m.distance v := by
  intro n
  induction n with
  | zero => intro v h; omega
  | succ n ih =>
    intro v hn hv
    obtain ⟨e, he, h1, h2, h3⟩ := hm.pred_edge v hv
    have hpos := hw e he
    rcases lt_or_eq_of_le (hm.le_init e.v1) with hlt | heq
    · have hmeas := traceMeasure_lt edges m e.v1 v e he h2 (by linarith)
      obtain ⟨es, hes, hp, hwt⟩ := ih e.v1 (by omega) hlt
      refine ⟨es ++ [e], ?_, ?_, ?_⟩
      · rw [isWalk_append_singleton]; exact ⟨hes, he, h2⟩
      · intro x hx
        rcases List.mem_append.mp hx with hx | hx
        · exact hp x hx
        · rw [List.mem_singleton] at hx
          subst hx
          rw [h2, h1]
      · rw [weight_append_singleton]; linarith
    · by_cases hs : e.v1 = start
      · refine ⟨[e], ⟨he, hs, h2⟩, ?_, ?_⟩
        · intro x hx
          rw [List.mem_singleton] at hx
          subst hx
          rw [h2, h1]
        · have h0 : m.distance e.v1 = 0 := by
            rw [heq, hs]; exact initMaps_distance_start start vertices
          rw [h0] at h3
          simpa [weight] using h3
      · exfalso
        rw [initMaps_distance_of_ne start vertices e.v1 (hV e he).1 hs] at heq
        have h4 := le_trans (hm.le_init v) (initMaps_distance_le start vertices v)
        rw [heq] at h3
        linarith
theorem isWalk_end_mem {K : Type} (edges : List (edge K)) (es : List (edge K)) :
    ∀ (u v : String), IsWalk edges u es v → v ∈ u :: es.map (fun e => e.v2) := by
  induction es with
  | nil => intro u v h; simp [show u = v from h]
  | cons e es ih =>
    intro u v h
    obtain ⟨_, _, h3⟩ := h
    have := ih e.v2 v h3
    simp only [List.map_cons]
    exact List.mem_cons_of_mem _ this

/-! ### The Markov-chain generator -/

theorem pickRune_some {K : Type} [LinearOrderedField K] (choice : K) (l : List (Char × K)) :
    ∀ total : K, l ≠ [] → choice ≤ total + (l.map fun p => p.2).sum →
      ∃ r, pickRune choice l total = some r := by
  induction l with
  | nil => intro total h; exact absurd rfl h
  | cons p rest ih =>
    intro total _ hsum
    obtain ⟨r, sc⟩ := p
    unfold pickRune
    by_cases hc : choice ≤ total + sc
    · exact ⟨r, by rw [if_pos hc]⟩
    · rw [if_neg hc]
      have hrest : rest ≠ [] := by
        intro hnil
        subst hnil
        simp at hsum
        exact hc hsum
      apply ih (total + sc) hrest
      simp only [List.map_cons, List.sum_cons] at hsum
      linarith

theorem foldl_total_eq_sum {K : Type} [LinearOrderedField K] (links : List (Char × K))
    (a : K) : links.foldl (fun total l => total + l.2) a = a + (links.map fun p => p.2).sum := by
  induction links generalizing a with
  | nil => simp
  | cons p rest ih => simp [List.foldl_cons, ih, add_assoc]

theorem normalizeLinks_sum {K : Type} [LinearOrderedField K] (links : List (Char × K))
    (hne : links ≠ []) (hpos : ∀ l ∈ links, 0 < l.2) :
    ((normalizeLinks links).map fun p => p.2).sum = 1 := by
  have htotal : 0 < (links.map fun p => p.2).sum := by
    match links, hne, hpos with
    | p :: rest, _, hpos =>
      simp only [List.map_cons, List.sum_cons]
      have h1 := hpos p (List.mem_cons_self _ _)
      have h2 : 0 ≤ (rest.map fun p => p.2).sum :=
        List.sum_nonneg fun x hx => by
          obtain ⟨q, hq, rfl⟩ := List.mem_map.mp hx
          exact (hpos q (List.mem_cons_of_mem _ hq)).le
      linarith
  unfold normalizeLinks
  simp only [foldl_total_eq_sum, zero_add, List.map_map]
  have : ((fun p : Char × K => p.2) ∘ fun l : Char × K =>
      (l.1, l.2 / (links.map fun p => p.2).sum))
      = fun l => l.2 / (links.map fun p => p.2).sum := rfl
  rw [this]
  have hdiv : ∀ (c : K) (l : List (Char × K)),
      (l.map fun p => p.2 / c).sum = (l.map fun p => p.2).sum / c := by
    intro c l
    induction l with
    | nil => simp
    | cons p rest ih => simp [ih, add_div]
  rw [hdiv]
  exact div_self htotal.ne'

theorem normalizeLinks_ne_nil {K : Type} [LinearOrderedField K] (links : List (Char × K))
    (hne : links ≠ []) : normalizeLinks links ≠ [] := by
  unfold normalizeLinks
  simpa using hne

theorem getKey_normalizeChain {K : Type} [LinearOrderedField K] (chain : markovChain K)
    (b : String) : getKey b (normalizeChain chain) = (getKey b chain).map normalizeLinks := by
  induction chain with
  | nil => rfl
  | cons c rest ih =>
    obtain ⟨k, links⟩ := c
    show getKey b ((k, normalizeLinks links) :: normalizeChain rest) = _
    unfold getKey
    by_cases h : k = b
    · simp [h]
    · simp only [if_neg h]
      exact ih

theorem getKey_mem {α β : Type} [DecidableEq α] (k : α) (v : β) (l : List (α × β))
    (h : getKey k l = some v) : (k, v) ∈ l := by
  induction l with
  | nil => simp [getKey] at h
  | cons p rest ih =>
    obtain ⟨k', v'⟩ := p
    unfold getKey at h
    by_cases hk : k' = k
    · rw [if_pos hk] at h
      cases h
      rw [hk]
      exact List.mem_cons_self _ _
    · rw [if_neg hk] at h
      exact List.mem_cons_of_mem _ (ih h)

theorem mem_setKey {α β : Type} [DecidableEq α] (k : α) (v : β) (l : List (α × β))
    (x : α × β) (h : x ∈ setKey k v l) : x = (k, v) ∨ x ∈ l := by
  induction l with
  | nil => simpa [setKey] using h
  | cons p rest ih =>
    obtain ⟨k', v'⟩ := p
    unfold setKey at h
    by_cases hk : k' = k
    · rw [if_pos hk] at h
      rcases List.mem_cons.mp h with h | h
      · exact Or.inl h
      · exact Or.inr (List.mem_cons_of_mem _ h)
    · rw [if_neg hk] at h
      rcases List.mem_cons.mp h with h | h
      · exact Or.inr (h ▸ List.mem_cons_self _ _)
      · rcases ih h with h | h
        · exact Or.inl h
        · exact Or.inr (List.mem_cons_of_mem _ h)

theorem setKey_ne_nil {α β : Type} [DecidableEq α] (k : α) (v : β) (l : List (α × β)) :
    setKey k v l ≠ [] := by
  cases l with
  | nil => simp [setKey]
  | cons p rest =>
    obtain ⟨k', v'⟩ := p
    unfold setKey
    split_ifs <;> simp

theorem goodChain_buildChain {K : Type} [LinearOrderedField K]
    (trigrams : List (TrigramScore K)) (hs : ∀ t ∈ trigrams, 0 ≤ t.Score) :
    GoodChain (buildChain trigrams) := by
  unfold buildChain
  have hgen : ∀ (l : List (TrigramScore K)) (chain : markovChain K),
      (∀ t ∈ l, 0 ≤ t.Score) → GoodChain chain →
      GoodChain (l.foldl
        (fun chain ts =>
          let t := ts.Trigram.data
          let bigram := String.mk (t.take 2)
          let score := if ts.Score = 0 then 1 / 100000000 else ts.Score
          setKey bigram (setKey (t.getD 2 default) score (chainLinks chain bigram)) chain)
        chain) := by
    intro l
    induction l with
    | nil => intro chain _ h; exact h
    | cons ts rest ih =>
      intro chain hl hgood
      rw [List.foldl_cons]
      apply ih _ (fun t ht => hl t (List.mem_cons_of_mem _ ht))
      intro c hc
      rcases mem_setKey _ _ _ c hc with rfl | hc
      · refine ⟨setKey_ne_nil _ _ _, ?_⟩
        intro l hl'
        rcases mem_setKey _ _ _ l hl' with rfl | hl'
        · have h0 := hl ts (List.mem_cons_self _ _)
          show 0 < (if ts.Score = 0 then 1 / 100000000 else ts.Score)
          split_ifs with hz
          · norm_num
          · exact lt_of_le_of_ne h0 (Ne.symm hz)
        · unfold chainLinks at hl'
          cases hg : getKey (String.mk (ts.Trigram.data.take 2)) chain with
          | none => rw [hg] at hl'; simp at hl'
          | some links =>
            rw [hg] at hl'
            exact (hgood _ (getKey_mem _ _ _ hg)).2 l hl'
      · exact hgood c hc
  exact hgen trigrams [] hs (fun c hc => by simp at hc)

/-- An inner map of the normalised chain is absent, or has entries whose weights sum to 1. -/
theorem chainLinks_normalized {K : Type} [LinearOrderedField K]
    (trigrams : List (TrigramScore K)) (hs : ∀ t ∈ trigrams, 0 ≤ t.Score) (b : String) :
    chainLinks (normalizeChain (buildChain trigrams)) b = [] ∨
      (chainLinks (normalizeChain (buildChain trigrams)) b ≠ [] ∧
        ((chainLinks (normalizeChain (buildChain trigrams)) b).map fun p => p.2).sum = 1) := by
  unfold chainLinks
  rw [getKey_normalizeChain]
  cases hg : getKey b (buildChain trigrams) with
  | none => exact Or.inl rfl
  | some links =>
    have hgood := goodChain_buildChain trigrams hs _ (getKey_mem _ _ _ hg)
    exact Or.inr ⟨normalizeLinks_ne_nil _ hgood.1, normalizeLinks_sum _ hgood.1 hgood.2⟩
theorem markovStep_append {K : Type} [LinearOrderedField K] (chain : markovChain K)
    (order : Nat → List (Char × K) → List (Char × K)) (choices : Nat → K)
    (hlinks : ∀ b, chainLinks chain b = [] ∨
      (chainLinks chain b ≠ [] ∧ ((chainLinks chain b).map fun p => p.2).sum = 1))
    (horder : ∀ n l, (order n l).Perm l) (hchoice : ∀ n, choices n < 1) (n : Nat)
    (text : List Char) : ∃ r : Char, markovStep chain order choices n text = text ++ [r] := by
  unfold markovStep
  simp only
  rcases hlinks (String.mk (text.drop (text.length - 2))) with hnil | ⟨hne, hsum⟩
  · have ho : order n [] = [] := (horder n []).eq_nil
    rw [hnil, ho]
    exact ⟨text.getD (text.length % 3) default, by simp [pickRune]⟩
  · have hperm := horder n (chainLinks chain (String.mk (text.drop (text.length - 2))))
    have hne' : order n (chainLinks chain (String.mk (text.drop (text.length - 2)))) ≠ [] := by
      intro h0
      rw [h0] at hperm
      exact hne hperm.symm.eq_nil
    have hsum' : ((order n (chainLinks chain
        (String.mk (text.drop (text.length - 2))))).map fun p => p.2).sum = 1 := by
      rw [(hperm.map _).sum_eq, hsum]
    obtain ⟨r, hr⟩ := pickRune_some (choices n) _ 0 hne' (by
      rw [hsum']; have := hchoice n; linarith)
    have hlen0 : ¬ (chainLinks chain (String.mk (text.drop (text.length - 2)))).length = 0 := by
      rw [List.length_eq_zero]; exact hne
    rw [hr, if_neg hlen0]
    exact ⟨r, rfl⟩

theorem markovLoop_spec {K : Type} [LinearOrderedField K] (chain : markovChain K)
    (order : Nat → List (Char × K) → List (Char × K)) (choices : Nat → K) (length : Nat)
    (hlinks : ∀ b, chainLinks chain b = [] ∨
      (chainLinks chain b ≠ [] ∧ ((chainLinks chain b).map fun p => p.2).sum = 1))
    (horder : ∀ n l, (order n l).Perm l) (hchoice : ∀ n, choices n < 1) :
    ∀ (fuel n : Nat) (text : List Char), length - text.length ≤ fuel →
      ∃ out, markovLoop chain order choices length fuel n text = some out ∧
        out.length = max text.length length := by
  intro fuel
  induction fuel with
  | zero =>
    intro n text h
    have hge : ¬ text.length < length := by omega
    refine ⟨text, ?_, by omega⟩
    rw [markovLoop, if_neg hge]
  | succ fuel ih =>
    intro n text h
    by_cases hlt : text.length < length
    · rw [markovLoop, if_pos hlt]
      obtain ⟨r, hr⟩ := markovStep_append chain order choices hlinks horder hchoice n text
      rw [hr]
      obtain ⟨out, hout, hlen⟩ := ih (n + 1) (text ++ [r]) (by
        simp only [List.length_append, List.length_singleton]; omega)
      refine ⟨out, hout, ?_⟩
      rw [hlen]
      simp only [List.length_append, List.length_singleton]
      omega
    · refine ⟨text, ?_, by omega⟩
      rw [markovLoop, if_neg hlt]

/-! ### The effort curve -/

theorem effortResult_of_slow {K : Type} [LinearOrderedField K] (sqrt : K → K) (d : K)
    (hd : 36 / 150 ≤ d) :
    effortResult sqrt d = sqrt (1 - 36 / d / 150 * (36 / d / 150)) ∧
      0 ≤ 1 - 36 / d / 150 * (36 / d / 150) := by
  have hpos : 0 < d := lt_of_lt_of_le (by norm_num) hd
  have hq0 : 0 ≤ 36 / d / 150 := by positivity
  have hq1 : 36 / d / 150 ≤ 1 := by
    rw [div_div, div_le_one (by positivity)]
    have := mul_le_mul_of_nonneg_right hd (by norm_num : (0 : K) ≤ 150)
    linarith
  have hsq : 36 / d / 150 * (36 / d / 150) ≤ 1 := by nlinarith
  refine ⟨?_, by linarith⟩
  simp only [effortResult, time2wpm, wpmPer1secTrigramTime, speedOfLight]
  rw [if_neg (not_lt.mpr hsq)]

theorem effortResult_of_fast {K : Type} [LinearOrderedField K] (sqrt : K → K) (d : K)
    (hpos : 0 < d) (hd : d < 36 / 150) : effortResult sqrt d = 0 := by
  have hq1 : 1 < 36 / d / 150 := by
    rw [div_div, one_lt_div (by positivity)]
    have := mul_lt_mul_of_pos_right hd (by norm_num : (0 : K) < 150)
    linarith
  have hsq : 1 < 36 / d / 150 * (36 / d / 150) := by nlinarith
  simp only [effortResult, time2wpm, wpmPer1secTrigramTime, speedOfLight]
  rw [if_pos hsq]

theorem effortResult_strictMono {K : Type} [LinearOrderedField K] (sqrt : K → K)
    (hsqrt : ∀ x y, 0 ≤ x → x < y → sqrt x < sqrt y) (d1 d2 : K) (h1 : 36 / 150 ≤ d1)
    (h12 : d1 < d2) : effortResult sqrt d1 < effortResult sqrt d2 := by
  obtain ⟨e1, n1⟩ := effortResult_of_slow sqrt d1 h1
  obtain ⟨e2, _⟩ := effortResult_of_slow sqrt d2 (le_trans h1 h12.le)
  rw [e1, e2]
  apply hsqrt _ _ n1
  have hpos1 : 0 < d1 := lt_of_lt_of_le (by norm_num) h1
  have hpos2 : 0 < d2 := lt_trans hpos1 h12
  have hq : 36 / d2 / 150 < 36 / d1 / 150 := by
    apply div_lt_div_of_pos_right _ (by norm_num)
    exact div_lt_div_of_pos_left (by norm_num) hpos1 h12
  have hq0 : 0 < 36 / d2 / 150 := by positivity
  nlinarith

/-! ### Averages of few samples -/

theorem Window.average_foldl {K : Type} [LinearOrderedField K] [FloorRing K]
    (xs : List K) (d : K) :
    (xs.foldl Window.Append Window.zero).Average d =
      if xs.length = 0 then d
      else ((xs.drop (xs.length - min xs.length Capacity)).map storedSample).sum
            / ((min xs.length Capacity : Nat) : K) := by
  have ht := Window.tracks_foldl (xs.map toMillis)
  rw [foldl_append_eq_appendMillis]
  set w := (xs.map toMillis).foldl Window.AppendMillis Window.zero with hw
  have hlen : w.Length = min xs.length Capacity := by simpa using ht.length
  unfold Window.Average
  by_cases h0 : xs.length = 0
  · have : w.Length = 0 := by rw [hlen, h0]; simp
    simp [this, h0]
  · have hne : w.Length ≠ 0 := by
      rw [hlen]; simp only [Capacity]; omega
    rw [if_neg hne, if_neg h0, foldl_add_div_eq, Window.sum_slots w _ ht,
      sum_map_storedSample, hlen]
    simp [List.map_drop]

theorem mathRound_intCast {K : Type} [LinearOrderedField K] [FloorRing K] (m : Int) :
    mathRound (m : K) = m := by
  have hhalf : ⌊(1 / 2 : K)⌋ = 0 := by
    rw [Int.floor_eq_iff]; constructor <;> norm_num
  unfold mathRound
  split_ifs with h
  · rw [Int.floor_int_add, hhalf, add_zero]
  · have : (-(m : K) + 1 / 2) = ((-m : Int) : K) + 1 / 2 := by push_cast; ring
    rw [this, Int.floor_int_add, hhalf, add_zero, neg_neg]

theorem storedSample_of_millis {K : Type} [LinearOrderedField K] [FloorRing K] (m : Int) :
    storedSample ((m : K) / 1000) = (m : K) / 1000 := by
  unfold storedSample toMillis
  rw [div_mul_cancel₀ _ (by norm_num : (1000 : K) ≠ 0), mathRound_intCast]

theorem average_few {K : Type} [LinearOrderedField K] [FloorRing K] (xs : List K) (d : K)
    (h1 : 1 ≤ xs.length) (h10 : xs.length ≤ Capacity) :
    (xs.foldl Window.Append Window.zero).Average d =
      (xs.map storedSample).sum / (xs.length : K) := by
  rw [Window.average_foldl, if_neg (by omega), Nat.min_eq_left h10, Nat.sub_self, List.drop_zero]

theorem effortResult_real_bounds (d : ℝ) (hd : 0 < d) :
    0 ≤ effortResult Real.sqrt d ∧ effortResult Real.sqrt d ≤ 1 := by
  rcases lt_or_le d (36 / 150) with hfast | hslow
  · rw [effortResult_of_fast Real.sqrt d hd hfast]
    exact ⟨le_rfl, zero_le_one⟩
  · obtain ⟨heq, _⟩ := effortResult_of_slow Real.sqrt d hslow
    rw [heq]
    refine ⟨Real.sqrt_nonneg _, Real.sqrt_le_one.mpr ?_⟩
    have := mul_self_nonneg (36 / d / 150)
    linarith

/-! ### The report -/

theorem trigramsToTrain_length {K : Type} [LinearOrderedField K] (sqrt : K → K)
    (s : stats K) : (s.trigramsToTrain sqrt).length = s.Trigrams.entries.length := by
  have h := (sortSlice_perm (fun a b : TrigramScore K => decide (a.Score > b.Score))
    (s.scoredTrigrams sqrt)).length_eq
  unfold stats.trigramsToTrain
  rw [h]
  simp [stats.scoredTrigrams]

/-- With fewer than 20 known trigrams, and at least one, the table of `GetReport` is not
printed: the slice expression is out of range. -/
theorem reportTable_few {K : Type} [LinearOrderedField K] (sqrt : K → K) (s : stats K)
    (h1 : 1 ≤ s.Trigrams.entries.length) (h20 : s.Trigrams.entries.length < 20) :
    reportTable sqrt s = none := by
  have hlen := trigramsToTrain_length sqrt s
  unfold reportTable sliceTo
  simp only [hlen]
  rw [if_pos (by omega), if_neg (by omega)]

/-- With 20 known trigrams or more the table of `GetReport` has 20 rows. -/
theorem reportTable_many {K : Type} [LinearOrderedField K] (sqrt : K → K) (s : stats K)
    (h20 : 20 ≤ s.Trigrams.entries.length) :
    ∃ rows, reportTable sqrt s = some rows ∧ rows.length = 20 := by
  have hlen := trigramsToTrain_length sqrt s
  unfold reportTable sliceTo
  simp only [hlen]
  rw [if_pos (by omega), if_pos h20]
  refine ⟨_, rfl, ?_⟩
  simp only [List.length_map, List.length_take, hlen]
  omega

/-- The interval chosen by `GetReport`: 10 minutes up to 2 hours of training, 30 minutes
beyond, also beyond 10 hours. -/
theorem progressInterval_eq {K : Type} [LinearOrderedField K] (t : K) (h : 600 ≤ t) :
    progressInterval t = some (if t ≤ 2 * 3600 then timeMinute * 10 else timeMinute * 30) := by
  unfold progressInterval
  rw [if_neg (not_lt.mpr h)]
  by_cases h2 : t ≤ 2 * 3600
  · have h10 : ¬ t > 10 * 3600 := by
      intro h10
      have : (2 : K) * 3600 < 10 * 3600 := by norm_num
      exact absurd (lt_of_lt_of_le (lt_trans this h10) h2) (lt_irrefl _)
    simp only [if_pos h2, if_neg (not_lt.mpr h2), if_neg h10, gt_iff_lt]
  · have h2' : t > 2 * 3600 := not_le.mp h2
    simp only [if_neg h2, if_pos h2', ite_self]

theorem average_single {K : Type} [LinearOrderedField K] [FloorRing K] (x d : K) :
    (Window.zero.Append x).Average d = storedSample x := by
  have h := average_few [x] d (by simp) (by simp [Capacity])
  simpa using h

/-! ### Sessions and generator requests -/

theorem score_fastOnce (sqrt : ℚ → ℚ) (a : ℚ) : fastOnce.Score sqrt a = 0 := by
  have havg : (Window.zero.Append (1 / 10 : ℚ)).Average a = 1 / 10 := by
    rw [average_single]
    have := storedSample_of_millis (K := ℚ) 100
    norm_num at this
    norm_num
    exact this
  unfold trigramStat.Score fastOnce
  simp only [havg]
  rw [effortResult_of_fast sqrt (1 / 10) (by norm_num) (by norm_num)]
  norm_num

theorem tenMastered_entries :
    tenMastered.Trigrams.entries =
      ["abc", "bcd", "cda", "dab", "abd", "bda", "dac", "acb", "cba", "bad"].map
        fun t => (⟨t, fastOnce⟩ : Sigma fun _ : String => trigramStat) := by
  rfl

theorem tenMastered_scores (sqrt : ℚ → ℚ) :
    ∀ t ∈ tenMastered.trigramsToTrain sqrt, t.Score = 0 := by
  intro t ht
  have hperm : (tenMastered.trigramsToTrain sqrt).Perm (tenMastered.scoredTrigrams sqrt) :=
    sortSlice_perm _ _
  have hmem := hperm.subset ht
  unfold stats.scoredTrigrams at hmem
  rw [tenMastered_entries, List.map_map] at hmem
  obtain ⟨k, _, rfl⟩ := List.mem_map.mp hmem
  exact score_fastOnce sqrt _

theorem getTrigrams_of_loaded {K : Type} [LinearOrderedField K] (sqrt : K → K) (w : world K)
    (s : stats K) (hload : (loadStats w).1 = Except.ok s) :
    (getTrigrams sqrt w).1 =
      if s.Trigrams.entries.length < NWeakest then Except.error statsError.notEnoughStats
      else Except.ok (s.trigramsToTrain sqrt) := by
  unfold getTrigrams
  rcases hl : loadStats w with ⟨r, w1⟩
  rw [hl] at hload
  simp only at hload
  subst hload
  simp only [trigramsToTrain_length]
  split_ifs <;> rfl

theorem weakestTraining_of_error {K : Type} [LinearOrderedField K] (sqrt : K → K)
    (fuel : Nat) (w : world K) (length : Nat) (e : statsError)
    (h : (getTrigrams sqrt w).1 = Except.error e) :
    (WeakestTraining sqrt fuel w length).1 = Except.error e := by
  unfold WeakestTraining
  rcases hg : getTrigrams sqrt w with ⟨r, w1⟩
  rw [hg] at h
  simp only at h
  subst h
  rfl

theorem randomTraining_of_error {K : Type} [LinearOrderedField K] (sqrt : K → K)
    (fuel seed : Nat) (order : Nat → List (Char × K) → List (Char × K)) (choices : Nat → K)
    (w : world K) (length : Nat) (e : statsError)
    (h : (getTrigrams sqrt w).1 = Except.error e) :
    (RandomTraining sqrt fuel seed order choices w length).1 = Except.error e := by
  unfold RandomTraining
  rcases hg : getTrigrams sqrt w with ⟨r, w1⟩
  rw [hg] at h
  simp only at h
  subst h
  rfl

/-! ### Termination of the tracing loop -/

theorem foldl_buildGraph_vertices {K : Type} [LinearOrderedField K]
    (trigrams : List (TrigramScore K)) :
    ∀ g : List (edge K) × List String, (∀ e ∈ g.1, e.v1 ∈ g.2 ∧ e.v2 ∈ g.2) →
      ∀ e ∈ (trigrams.foldl
        (fun g trigram =>
          if trigram.Score > 0 then
            (g.1 ++ [{ v1 := (headTail trigram.Trigram).1, v2 := (headTail trigram.Trigram).2,
                       w := 1 / trigram.Score }],
              (g.2.insert (headTail trigram.Trigram).1).insert (headTail trigram.Trigram).2)
          else g) g).1,
        e.v1 ∈ (trigrams.foldl
          (fun g trigram =>
            if trigram.Score > 0 then
              (g.1 ++ [{ v1 := (headTail trigram.Trigram).1, v2 := (headTail trigram.Trigram).2,
                         w := 1 / trigram.Score }],
                (g.2.insert (headTail trigram.Trigram).1).insert (headTail trigram.Trigram).2)
            else g) g).2 ∧
        e.v2 ∈ (trigrams.foldl
          (fun g trigram =>
            if trigram.Score > 0 then
              (g.1 ++ [{ v1 := (headTail trigram.Trigram).1, v2 := (headTail trigram.Trigram).2,
                         w := 1 / trigram.Score }],
                (g.2.insert (headTail trigram.Trigram).1).insert (headTail trigram.Trigram).2)
            else g) g).2 := by
  induction trigrams with
  | nil => intro g hg; exact hg
  | cons t ts ih =>
    intro g hg
    rw [List.foldl_cons]
    apply ih
    by_cases hpos : t.Score > 0
    · rw [if_pos hpos]
      intro e he
      simp only [List.mem_append, List.mem_singleton] at he
      rcases he with he | rfl
      · obtain ⟨h1, h2⟩ := hg e he
        exact ⟨List.mem_insert_of_mem (List.mem_insert_of_mem h1),
          List.mem_insert_of_mem (List.mem_insert_of_mem h2)⟩
      · exact ⟨List.mem_insert_of_mem (List.mem_insert_self _ _), List.mem_insert_self _ _⟩
    · rw [if_neg hpos]
      exact hg

theorem buildGraph_vertices {K : Type} [LinearOrderedField K]
    (trigrams : List (TrigramScore K)) :
    ∀ e ∈ (buildGraph trigrams).1,
      e.v1 ∈ (buildGraph trigrams).2 ∧ e.v2 ∈ (buildGraph trigrams).2 := by
  unfold buildGraph
  exact foldl_buildGraph_vertices trigrams ([], []) (fun e he => by simp at he)

theorem vertexMeasure_le {K : Type} [LinearOrderedField K] (vertices : List String)
    (m : pathMaps K) (v : String) : vertexMeasure vertices m v ≤ vertices.length :=
  List.countP_le_length _

theorem vertexMeasure_pred_lt {K : Type} [LinearOrderedField K] (vertices : List String)
    (edges : List (edge K)) (hw : ∀ e ∈ edges, 0 < e.w)
    (hV : ∀ e ∈ edges, e.v1 ∈ vertices ∧ e.v2 ∈ vertices) (m : pathMaps K)
    (hm : PredEdge edges m) (v : String) (hv : m.predecessor v ≠ "") :
    vertexMeasure vertices m (m.predecessor v) < vertexMeasure vertices m v := by
  obtain ⟨e, he, h1, h2, h3⟩ := hm v hv
  have hlt : m.distance (m.predecessor v) < m.distance v := by
    have := hw e he
    rw [← h1]
    linarith
  have hmem : m.predecessor v ∈ vertices := by rw [← h1]; exact (hV e he).1
  unfold vertexMeasure
  refine countP_lt_countP vertices _ _ ?_ (m.predecessor v) hmem ?_ ?_
  · intro x _ hx
    simp only [decide_eq_true_eq] at hx ⊢
    exact lt_trans hx hlt
  · simpa using hlt
  · simp

theorem steps_bound (start : String) (ways : String → String) (μ : String → Nat)
    (hdec : ∀ v, ways v ≠ "" → μ (ways v) < μ v) :
    ∀ (n : Nat) (v : String), μ v ≤ n →
      ∃ k, k ≤ n ∧ (ways^[k] v = start ∨ ways (ways^[k] v) = "") ∧
        ∀ j, j < k → ways^[j] v ≠ start ∧ ways (ways^[j] v) ≠ "" := by
  intro n
  induction n with
  | zero =>
    intro v hv
    refine ⟨0, le_rfl, ?_, fun j hj => absurd hj (Nat.not_lt_zero _)⟩
    by_cases hw : ways v = ""
    · exact Or.inr hw
    · have := hdec v hw
      omega
  | succ n ih =>
    intro v hv
    by_cases hs : v = start
    · exact ⟨0, Nat.zero_le _, Or.inl hs, fun j hj => absurd hj (Nat.not_lt_zero _)⟩
    · by_cases hw : ways v = ""
      · exact ⟨0, Nat.zero_le _, Or.inr hw, fun j hj => absurd hj (Nat.not_lt_zero _)⟩
      · have hlt := hdec v hw
        obtain ⟨k, hk, hend, hbefore⟩ := ih (ways v) (by omega)
        refine ⟨k + 1, by omega, ?_, ?_⟩
        · simpa [Function.iterate_succ_apply] using hend
        · intro j hj
          cases j with
          | zero => exact ⟨hs, hw⟩
          | succ j =>
            have := hbefore j (by omega)
            simpa [Function.iterate_succ_apply] using this

theorem iterate_pred_distance_lt {K : Type} [LinearOrderedField K] (edges : List (edge K))
    (hw : ∀ e ∈ edges, 0 < e.w) (m : pathMaps K) (hm : PredEdge edges m) (v : String) :
    ∀ k, 0 < k → (∀ j, j < k → m.predecessor (m.predecessor^[j] v) ≠ "") →
      m.distance (m.predecessor^[k] v) < m.distance v := by
  intro k
  induction k with
  | zero => intro h; exact absurd h (Nat.lt_irrefl _)
  | succ k ih =>
    intro _ hall
    rw [Function.iterate_succ_apply']
    obtain ⟨e, he, h1, h2, h3⟩ := hm (m.predecessor^[k] v) (hall k (Nat.lt_succ_self _))
    have hstep : m.distance (m.predecessor (m.predecessor^[k] v))
        < m.distance (m.predecessor^[k] v) := by
      have := hw e he
      rw [← h1]
      linarith
    by_cases hk : 0 < k
    · exact lt_trans hstep (ih hk fun j hj => hall j (Nat.lt_succ_of_lt hj))
    · have : k = 0 := by omega
      subst this
      simpa using hstep

/-! ### The sample a fresh window stores -/

theorem zero_append {K : Type} [LinearOrderedField K] [FloorRing K] (x : K) :
    Window.zero.Append x =
      { Length := 1, Index := 1, Values := toMillis x :: List.replicate 9 0 } := by
  simp [Window.Append, Window.AppendMillis, Window.zero, Capacity, List.replicate]

theorem toMillis_pos_iff {K : Type} [LinearOrderedField K] [FloorRing K] (x : K)
    (hx : 0 ≤ x) : 0 < toMillis x ↔ 1 / 2000 ≤ x := by
  unfold toMillis mathRound
  rw [if_pos (by positivity), Int.floor_pos]
  constructor <;> intro h <;> linarith

/-! ### float64 rounding -/

theorem roundHalfEven_ge_floor {K : Type} [LinearOrderedField K] [FloorRing K] (x : K) :
    ⌊x⌋ ≤ roundHalfEven x := by
  unfold roundHalfEven
  simp only
  split_ifs <;> omega

theorem roundHalfEven_le_floor_succ {K : Type} [LinearOrderedField K] [FloorRing K] (x : K) :
    roundHalfEven x ≤ ⌊x⌋ + 1 := by
  unfold roundHalfEven
  simp only
  split_ifs <;> omega

theorem roundHalfEven_intCast {K : Type} [LinearOrderedField K] [FloorRing K] (n : Int) :
    roundHalfEven (n : K) = n := by
  unfold roundHalfEven
  simp

theorem roundHalfEven_mono {K : Type} [LinearOrderedField K] [FloorRing K] {x y : K}
    (h : x ≤ y) : roundHalfEven x ≤ roundHalfEven y := by
  have hf : ⌊x⌋ ≤ ⌊y⌋ := Int.floor_mono h
  rcases hf.lt_or_eq with hlt | heq
  · calc roundHalfEven x ≤ ⌊x⌋ + 1 := roundHalfEven_le_floor_succ x
      _ ≤ ⌊y⌋ := hlt
      _ ≤ roundHalfEven y := roundHalfEven_ge_floor y
  · unfold roundHalfEven
    simp only
    rw [heq]
    have hxy : x - (⌊y⌋ : K) ≤ y - (⌊y⌋ : K) := by linarith
    split_ifs <;> first | omega | (exfalso; linarith)

theorem roundHalfEven_near {K : Type} [LinearOrderedField K] [FloorRing K] (x : K) (n : Int)
    (h1 : (n : K) - 1 / 2 < x) (h2 : x < n + 1 / 2) : roundHalfEven x = n := by
  unfold roundHalfEven
  simp only
  by_cases hx : (n : K) ≤ x
  · have hf : ⌊x⌋ = n := Int.floor_eq_iff.2 ⟨hx, by linarith⟩
    rw [hf, if_pos (by linarith)]
  · have hx' : x < n := lt_of_not_le hx
    have hf : ⌊x⌋ = n - 1 := Int.floor_eq_iff.2 ⟨by push_cast; linarith, by push_cast; linarith⟩
    rw [hf]
    push_cast
    rw [if_neg (by linarith), if_pos (by linarith)]
    ring

theorem roundHalfEven_tie_odd {K : Type} [LinearOrderedField K] [FloorRing K] (x : K) (n : Int)
    (hx : x = n + 1 / 2) (hn : n % 2 = 1) : roundHalfEven x = n + 1 := by
  unfold roundHalfEven
  simp only
  have hf : ⌊x⌋ = n := Int.floor_eq_iff.2 ⟨by linarith, by linarith⟩
  rw [hf, if_neg (by linarith), if_neg (by linarith), if_neg (by omega)]

/-- The exponent `roundF64` works at. -/
theorem f64_exponent_spec {K : Type} [LinearOrderedField K] [FloorRing K] (x : K) (hx : 0 < x) :
    x < 2 ^ (max (Int.log 2 x) (-1022) + 1) ∧
    (-1022 ≤ Int.log 2 x → (2 : K) ^ (max (Int.log 2 x) (-1022)) ≤ x) := by
  constructor
  · calc x < 2 ^ (Int.log 2 x + 1) := by
          have := Int.lt_zpow_succ_log_self (b := 2) (by norm_num) x
          exact_mod_cast this
      _ ≤ 2 ^ (max (Int.log 2 x) (-1022) + 1) :=
          zpow_le_zpow_right₀ (by norm_num) (by omega)
  · intro h
    rw [max_eq_left h]
    have := Int.zpow_log_le_self (b := 2) (r := x) (by norm_num) hx
    exact_mod_cast this

theorem two_pow53_mul {K : Type} [LinearOrderedField K] (e : Int) :
    ((2 ^ 53 : Int) : K) * 2 ^ (e - 52) = 2 ^ (e + 1) := by
  have h : ((2 ^ 53 : Int) : K) = (2 : K) ^ (53 : Int) := by norm_num
  rw [h, ← zpow_add₀ (by norm_num : (2 : K) ≠ 0)]
  congr 1
  ring

theorem two_pow52_mul {K : Type} [LinearOrderedField K] (e : Int) :
    ((2 ^ 52 : Int) : K) * 2 ^ (e - 52) = 2 ^ e := by
  have h : ((2 ^ 52 : Int) : K) = (2 : K) ^ (52 : Int) := by norm_num
  rw [h, ← zpow_add₀ (by norm_num : (2 : K) ≠ 0)]
  congr 1
  ring

theorem roundF64_zero {K : Type} [LinearOrderedField K] [FloorRing K] :
    roundF64 (0 : K) = 0 := by
  unfold roundF64
  simp [roundHalfEven]

theorem roundF64_nonneg {K : Type} [LinearOrderedField K] [FloorRing K] (x : K)
    (hx : 0 ≤ x) : 0 ≤ roundF64 x := by
  unfold roundF64
  simp only
  have h : (0 : Int) ≤ roundHalfEven (x / 2 ^ (max (Int.log 2 |x|) (-1022) - 52)) := by
    have := roundHalfEven_mono (K := K)
      (show ((0 : Int) : K) ≤ x / 2 ^ (max (Int.log 2 |x|) (-1022) - 52) by
        push_cast; positivity)
    rwa [roundHalfEven_intCast] at this
  have h' : (0 : K) ≤ (roundHalfEven (x / 2 ^ (max (Int.log 2 |x|) (-1022) - 52)) : K) := by
    exact_mod_cast h
  positivity

/-- A value on the float64 grid is its own rounding. -/
theorem roundF64_of_repr {K : Type} [LinearOrderedField K] [FloorRing K] (n e : Int)
    (hn0 : 0 ≤ n) (hn : n < 2 ^ 53) (he : -1022 ≤ e) :
    roundF64 ((n : K) * 2 ^ (e - 52)) = (n : K) * 2 ^ (e - 52) := by
  rcases hn0.lt_or_eq with hpos | hz
  · have hnK : (0 : K) < n := by exact_mod_cast hpos
    have hx : (0 : K) < (n : K) * 2 ^ (e - 52) := by positivity
    have hlt : (n : K) * 2 ^ (e - 52) < 2 ^ (e + 1) := by
      have h53 : (n : K) < ((2 ^ 53 : Int) : K) := by exact_mod_cast hn
      calc (n : K) * 2 ^ (e - 52) < ((2 ^ 53 : Int) : K) * 2 ^ (e - 52) := by
            apply mul_lt_mul_of_pos_right h53 (by positivity)
        _ = 2 ^ (e + 1) := two_pow53_mul e
    have hlog : Int.log 2 ((n : K) * 2 ^ (e - 52)) < e + 1 := by
      rw [← Int.lt_zpow_iff_log_lt (by norm_num) hx]
      exact_mod_cast hlt
    unfold roundF64
    simp only
    rw [abs_of_pos hx]
    set e' := max (Int.log 2 ((n : K) * 2 ^ (e - 52))) (-1022) with he'
    have hle : e' ≤ e := by omega
    obtain ⟨k, hk⟩ : ∃ k : ℕ, e - e' = k := ⟨(e - e').toNat, by omega⟩
    have hdiv : (n : K) * 2 ^ (e - 52) / 2 ^ (e' - 52) = ((n * 2 ^ k : Int) : K) := by
      rw [mul_div_assoc, ← zpow_sub₀ (by norm_num : (2 : K) ≠ 0)]
      have : e - 52 - (e' - 52) = (k : Int) := by omega
      rw [this]
      push_cast
      rw [zpow_natCast]
    rw [hdiv, roundHalfEven_intCast, ← hdiv]
    field_simp
  · subst hz
    simp [roundF64_zero]

/-- Rounding stays within the binade: at exponent `e` the rounded significand is at most
`2 ^ 53`, and at least `2 ^ 52` when the value is normal. -/
theorem roundF64_significand {K : Type} [LinearOrderedField K] [FloorRing K] (x : K)
    (hx : 0 < x) :
    roundHalfEven (x / 2 ^ (max (Int.log 2 x) (-1022) - 52)) ≤ 2 ^ 53 ∧
    (-1022 ≤ Int.log 2 x →
      2 ^ 52 ≤ roundHalfEven (x / 2 ^ (max (Int.log 2 x) (-1022) - 52))) := by
  obtain ⟨hhi, hlo⟩ := f64_exponent_spec x hx
  set e := max (Int.log 2 x) (-1022) with he
  constructor
  · have h : x / 2 ^ (e - 52) ≤ ((2 ^ 53 : Int) : K) := by
      rw [div_le_iff₀ (by positivity), two_pow53_mul]
      exact hhi.le
    have := roundHalfEven_mono h
    rwa [roundHalfEven_intCast] at this
  · intro hn
    have h : ((2 ^ 52 : Int) : K) ≤ x / 2 ^ (e - 52) := by
      rw [le_div_iff₀ (by positivity), two_pow52_mul]
      exact hlo hn
    have := roundHalfEven_mono h
    rwa [roundHalfEven_intCast] at this

theorem roundF64_mono {K : Type} [LinearOrderedField K] [FloorRing K] {x y : K}
    (hx : 0 ≤ x) (hxy : x ≤ y) : roundF64 x ≤ roundF64 y := by
  rcases hx.lt_or_eq with hpos | hz
  · have hy : 0 < y := lt_of_lt_of_le hpos hxy
    have hlog : Int.log 2 x ≤ Int.log 2 y := Int.log_mono_right hpos hxy
    obtain ⟨hxhi, -⟩ := roundF64_significand x hpos
    obtain ⟨-, hylo⟩ := roundF64_significand y hy
    unfold roundF64
    simp only
    rw [abs_of_pos hpos, abs_of_pos hy]
    set ex := max (Int.log 2 x) (-1022) with hex
    set ey := max (Int.log 2 y) (-1022) with hey
    have hle : ex ≤ ey := by omega
    rcases hle.lt_or_eq with hlt | heq
    · have hny : -1022 ≤ Int.log 2 y := by omega
      have heyl : ey = Int.log 2 y := by omega
      have h1 : (roundHalfEven (x / 2 ^ (ex - 52)) : K) ≤ ((2 ^ 53 : Int) : K) := by
        exact_mod_cast hxhi
      have h2 : ((2 ^ 52 : Int) : K) ≤ (roundHalfEven (y / 2 ^ (ey - 52)) : K) := by
        exact_mod_cast hylo hny
      calc (roundHalfEven (x / 2 ^ (ex - 52)) : K) * 2 ^ (ex - 52)
          ≤ ((2 ^ 53 : Int) : K) * 2 ^ (ex - 52) :=
            mul_le_mul_of_nonneg_right h1 (by positivity)
        _ = 2 ^ (ex + 1) := two_pow53_mul ex
        _ ≤ 2 ^ ey := zpow_le_zpow_right₀ (by norm_num) (by omega)
        _ = ((2 ^ 52 : Int) : K) * 2 ^ (ey - 52) := (two_pow52_mul ey).symm
        _ ≤ (roundHalfEven (y / 2 ^ (ey - 52)) : K) * 2 ^ (ey - 52) :=
            mul_le_mul_of_nonneg_right h2 (by positivity)
    · rw [← heq]
      have h : roundHalfEven (x / 2 ^ (ex - 52)) ≤ roundHalfEven (y / 2 ^ (ex - 52)) :=
        roundHalfEven_mono (div_le_div_of_nonneg_right hxy (by positivity))
      have h' : (roundHalfEven (x / 2 ^ (ex - 52)) : K) ≤
          (roundHalfEven (y / 2 ^ (ex - 52)) : K) := by exact_mod_cast h
      exact mul_le_mul_of_nonneg_right h' (by positivity)
  · subst hz
    rw [roundF64_zero]
    exact roundF64_nonneg y hxy

theorem roundF64_idem {K : Type} [LinearOrderedField K] [FloorRing K] (x : K) (hx : 0 ≤ x) :
    roundF64 (roundF64 x) = roundF64 x := by
  rcases hx.lt_or_eq with hpos | hz
  · obtain ⟨hhi, -⟩ := roundF64_significand x hpos
    have h0 : (0 : Int) ≤ roundHalfEven (x / 2 ^ (max (Int.log 2 x) (-1022) - 52)) := by
      have := roundHalfEven_mono (K := K)
        (show ((0 : Int) : K) ≤ x / 2 ^ (max (Int.log 2 x) (-1022) - 52) by
          push_cast; positivity)
      rwa [roundHalfEven_intCast] at this
    have hr : roundF64 x = (roundHalfEven (x / 2 ^ (max (Int.log 2 x) (-1022) - 52)) : K) *
        2 ^ (max (Int.log 2 x) (-1022) - 52) := by
      unfold roundF64
      simp only
      rw [abs_of_pos hpos]
    set e := max (Int.log 2 x) (-1022) with he
    set n := roundHalfEven (x / 2 ^ (e - 52)) with hn
    rw [hr]
    rcases hhi.lt_or_eq with hlt | heq
    · exact roundF64_of_repr n e h0 hlt (by omega)
    · have : (n : K) * 2 ^ (e - 52) = ((2 ^ 52 : Int) : K) * 2 ^ (e + 1 - 52) := by
        rw [heq, two_pow53_mul, two_pow52_mul]
      rw [this]
      exact roundF64_of_repr (2 ^ 52) (e + 1) (by norm_num) (by norm_num) (by omega)
  · subst hz
    rw [roundF64_zero, roundF64_zero]

theorem roundF64_two_zpow {K : Type} [LinearOrderedField K] [FloorRing K] (k : Int)
    (hk : -1022 ≤ k) : roundF64 ((2 : K) ^ k) = 2 ^ k := by
  have h := roundF64_of_repr (K := K) (2 ^ 52) k (by norm_num) (by norm_num) hk
  rwa [two_pow52_mul] at h

theorem roundF64_one {K : Type} [LinearOrderedField K] [FloorRing K] :
    roundF64 (1 : K) = 1 := by
  simpa using roundF64_two_zpow (K := K) 0 (by norm_num)

theorem roundF64_speedOfLight {K : Type} [LinearOrderedField K] [FloorRing K] :
    roundF64 (150 : K) = 150 := by
  have h := roundF64_of_repr (K := K) (150 * 2 ^ 45) 7 (by norm_num) (by norm_num)
    (by norm_num)
  have e : (((150 * 2 ^ 45 : Int)) : K) * 2 ^ ((7 : Int) - 52) = 150 := by
    have h2 : (2 : K) ^ ((7 : Int) - 52) = 1 / 2 ^ 45 := by
      rw [show ((7 : Int) - 52) = -(45 : ℕ) by norm_num, zpow_neg, zpow_natCast, one_div]
    rw [h2]
    push_cast
    field_simp
    norm_num
  rwa [e] at h

/-- Just below one, within a quarter of the spacing, rounds to one. -/
theorem roundF64_near_one {K : Type} [LinearOrderedField K] [FloorRing K] (x : K)
    (h1 : 1 - 2 ^ (-62 : Int) ≤ x) (h2 : x ≤ 1) : roundF64 x = 1 := by
  have hlo : roundF64 (1 - 2 ^ (-62 : Int) : K) = 1 := by
    have hpos : (0 : K) < 1 - 2 ^ (-62 : Int) := by
      have : (2 : K) ^ (-62 : Int) < 1 := zpow_lt_one_of_neg₀ (by norm_num) (by norm_num)
      linarith
    have hlt : (1 - 2 ^ (-62 : Int) : K) < 1 := by
      have : (0 : K) < 2 ^ (-62 : Int) := by positivity
      linarith
    have hge : (2 : K) ^ (-1 : Int) ≤ 1 - 2 ^ (-62 : Int) := by
      have a : (2 : K) ^ (-62 : Int) ≤ 2 ^ (-1 : Int) :=
        zpow_le_zpow_right₀ (by norm_num) (by norm_num)
      have b : (2 : K) ^ (-1 : Int) = 1 / 2 := by
        rw [zpow_neg, zpow_one, one_div]
      rw [b] at a ⊢
      linarith
    have hlog : Int.log 2 (1 - 2 ^ (-62 : Int) : K) = -1 := by
      apply le_antisymm
      · have : Int.log 2 (1 - 2 ^ (-62 : Int) : K) < 0 := by
          rw [← Int.lt_zpow_iff_log_lt (by norm_num) hpos]
          simpa using hlt
        omega
      · rw [← Int.zpow_le_iff_le_log (by norm_num) hpos]
        exact_mod_cast hge
    unfold roundF64
    simp only
    rw [abs_of_pos hpos, hlog]
    have hmax : max (-1 : Int) (-1022) = -1 := by norm_num
    rw [hmax]
    have hr : roundHalfEven ((1 - 2 ^ (-62 : Int) : K) / 2 ^ ((-1 : Int) - 52)) = 2 ^ 53 := by
      apply roundHalfEven_near
      · have e1 : (1 - 2 ^ (-62 : Int) : K) / 2 ^ ((-1 : Int) - 52) =
            ((2 ^ 53 : Int) : K) - 2 ^ (-9 : Int) := by
          have a : (2 : K) ^ ((-1 : Int) - 52) = 1 / 2 ^ 53 := by
            rw [show ((-1 : Int) - 52) = -(53 : ℕ) by norm_num, zpow_neg, zpow_natCast, one_div]
          have b : (2 : K) ^ (-62 : Int) = 1 / 2 ^ 62 := by
            rw [show (-62 : Int) = -(62 : ℕ) by norm_num, zpow_neg, zpow_natCast, one_div]
          have c : (2 : K) ^ (-9 : Int) = 1 / 2 ^ 9 := by
            rw [show (-9 : Int) = -(9 : ℕ) by norm_num, zpow_neg, zpow_natCast, one_div]
          rw [a, b, c]
          push_cast
          field_simp
          ring
        rw [e1]
        have c : (2 : K) ^ (-9 : Int) < 1 / 2 := by
          rw [show (-9 : Int) = -(9 : ℕ) by norm_num, zpow_neg, zpow_natCast]
          norm_num
        linarith
      · have : (1 - 2 ^ (-62 : Int) : K) / 2 ^ ((-1 : Int) - 52) <
            1 / 2 ^ ((-1 : Int) - 52) :=
          div_lt_div_of_pos_right hlt (by positivity)
        have a : (1 : K) / 2 ^ ((-1 : Int) - 52) = ((2 ^ 53 : Int) : K) := by
          rw [show ((-1 : Int) - 52) = -(53 : ℕ) by norm_num, zpow_neg, zpow_natCast]
          push_cast
          field_simp
          norm_num
        rw [a] at this
        linarith
    rw [hr]
    have := two_pow53_mul (K := K) (-1)
    simpa using this
  have hx0 : (0 : K) ≤ 1 - 2 ^ (-62 : Int) := by
    have : (2 : K) ^ (-62 : Int) < 1 := zpow_lt_one_of_neg₀ (by norm_num) (by norm_num)
    linarith
  apply le_antisymm
  · have := roundF64_mono (le_trans hx0 h1) h2
    rwa [roundF64_one] at this
  · have := roundF64_mono hx0 h1
    rwa [hlo] at this

/-! ### effortResult in float64 -/

/-- At or above the ceiling duration the rounded ratio stays within `[0, 1]` and the
result is the rounded root. -/
theorem effortResultF64_of_slow {K : Type} [LinearOrderedField K] [FloorRing K]
    (sqrt : K → K) (d : K) (hd : 36 / 150 ≤ d) :
    0 ≤ roundF64 (time2wpmF64 d / speedOfLight) ∧
    roundF64 (roundF64 (time2wpmF64 d / speedOfLight) *
      roundF64 (time2wpmF64 d / speedOfLight)) ≤ 1 ∧
    effortResultF64 sqrt d =
      roundF64 (sqrt (roundF64 (1 - roundF64 (roundF64 (time2wpmF64 d / speedOfLight) *
        roundF64 (time2wpmF64 d / speedOfLight))))) := by
  have hpos : 0 < d := lt_of_lt_of_le (by norm_num) hd
  have hs0 : (0 : K) ≤ 36 / d := by positivity
  have hs1 : (36 : K) / d ≤ 150 := by
    rw [div_le_iff₀ hpos]
    linarith
  have hspeed0 : 0 ≤ time2wpmF64 d := roundF64_nonneg _ hs0
  have hspeed1 : time2wpmF64 d ≤ 150 := by
    have := roundF64_mono hs0 hs1
    rwa [roundF64_speedOfLight] at this
  have hq0 : 0 ≤ roundF64 (time2wpmF64 d / speedOfLight) :=
    roundF64_nonneg _ (div_nonneg hspeed0 (by norm_num [speedOfLight]))
  have hq1 : roundF64 (time2wpmF64 d / speedOfLight) ≤ 1 := by
    have h : time2wpmF64 d / speedOfLight ≤ 1 := by
      rw [speedOfLight, div_le_iff₀ (by norm_num)]
      linarith
    have := roundF64_mono (div_nonneg hspeed0 (by norm_num [speedOfLight])) h
    rwa [roundF64_one] at this
  have hqq : roundF64 (roundF64 (time2wpmF64 d / speedOfLight) *
      roundF64 (time2wpmF64 d / speedOfLight)) ≤ 1 := by
    have h : roundF64 (time2wpmF64 d / speedOfLight) *
        roundF64 (time2wpmF64 d / speedOfLight) ≤ 1 := by nlinarith
    have := roundF64_mono (mul_nonneg hq0 hq0) h
    rwa [roundF64_one] at this
  refine ⟨hq0, hqq, ?_⟩
  unfold effortResultF64
  simp only
  rw [if_neg (not_lt.2 hqq)]

theorem effortResultF64_mono {K : Type} [LinearOrderedField K] [FloorRing K]
    (sqrt : K → K) (hsqrt : ∀ x y, 0 ≤ x → x ≤ y → sqrt x ≤ sqrt y)
    (hsqrt0 : ∀ x, 0 ≤ x → 0 ≤ sqrt x) (d1 d2 : K) (h1 : 36 / 150 ≤ d1) (h12 : d1 ≤ d2) :
    effortResultF64 sqrt d1 ≤ effortResultF64 sqrt d2 := by
  obtain ⟨p1, q1, e1⟩ := effortResultF64_of_slow sqrt d1 h1
  obtain ⟨p2, q2, e2⟩ := effortResultF64_of_slow sqrt d2 (le_trans h1 h12)
  have hpos1 : 0 < d1 := lt_of_lt_of_le (by norm_num) h1
  have hpos2 : 0 < d2 := lt_of_lt_of_le hpos1 h12
  have hspeed : time2wpmF64 d2 ≤ time2wpmF64 d1 := by
    apply roundF64_mono (by unfold wpmPer1secTrigramTime; positivity)
    unfold wpmPer1secTrigramTime
    exact div_le_div_of_nonneg_left (by norm_num) hpos1 h12
  have hspeed0 : 0 ≤ time2wpmF64 d2 :=
    roundF64_nonneg _ (by unfold wpmPer1secTrigramTime; positivity)
  have hq : roundF64 (time2wpmF64 d2 / speedOfLight) ≤
      roundF64 (time2wpmF64 d1 / speedOfLight) := by
    apply roundF64_mono (div_nonneg hspeed0 (by norm_num [speedOfLight]))
    exact div_le_div_of_nonneg_right hspeed (by norm_num [speedOfLight])
  have hqq : roundF64 (roundF64 (time2wpmF64 d2 / speedOfLight) *
        roundF64 (time2wpmF64 d2 / speedOfLight)) ≤
      roundF64 (roundF64 (time2wpmF64 d1 / speedOfLight) *
        roundF64 (time2wpmF64 d1 / speedOfLight)) := by
    apply roundF64_mono (mul_nonneg p2 p2)
    exact mul_le_mul hq hq p2 p1
  rw [e1, e2]
  have hr : roundF64 (1 - roundF64 (roundF64 (time2wpmF64 d1 / speedOfLight) *
        roundF64 (time2wpmF64 d1 / speedOfLight))) ≤
      roundF64 (1 - roundF64 (roundF64 (time2wpmF64 d2 / speedOfLight) *
        roundF64 (time2wpmF64 d2 / speedOfLight))) :=
    roundF64_mono (by linarith) (by linarith)
  have hr0 := roundF64_nonneg (1 - roundF64 (roundF64 (time2wpmF64 d1 / speedOfLight) *
        roundF64 (time2wpmF64 d1 / speedOfLight))) (by linarith)
  exact roundF64_mono (hsqrt0 _ hr0) (hsqrt _ _ hr0 hr)

theorem effortResultF64_of_fast {K : Type} [LinearOrderedField K] [FloorRing K]
    (sqrt : K → K) (hsqrt : sqrt 0 = 0) (d : K) (hpos : 0 < d) (hd : d < 36 / 150) :
    effortResultF64 sqrt d = 0 := by
  have hs : (150 : K) ≤ 36 / d := by
    rw [le_div_iff₀ hpos]
    linarith
  have hspeed : 150 ≤ time2wpmF64 d := by
    have := roundF64_mono (by norm_num) hs
    rwa [roundF64_speedOfLight] at this
  have hq : 1 ≤ roundF64 (time2wpmF64 d / speedOfLight) := by
    have h : 1 ≤ time2wpmF64 d / speedOfLight := by
      rw [speedOfLight, le_div_iff₀ (by norm_num)]
      linarith
    have := roundF64_mono (by norm_num) h
    rwa [roundF64_one] at this
  have hqq : 1 ≤ roundF64 (roundF64 (time2wpmF64 d / speedOfLight) *
      roundF64 (time2wpmF64 d / speedOfLight)) := by
    have h : 1 ≤ roundF64 (time2wpmF64 d / speedOfLight) *
        roundF64 (time2wpmF64 d / speedOfLight) := by nlinarith
    have := roundF64_mono (by norm_num) h
    rwa [roundF64_one] at this
  unfold effortResultF64
  simp only
  rcases hqq.lt_or_eq with hlt | heq
  · rw [if_pos hlt]
  · rw [← heq, if_neg (lt_irrefl _), sub_self, roundF64_zero, hsqrt, roundF64_zero]

/-- From about 6e8 seconds on, every duration gives exactly one. -/
theorem effortResultF64_of_very_slow {K : Type} [LinearOrderedField K] [FloorRing K]
    (sqrt : K → K) (hsqrt : sqrt 1 = 1) (d : K) (hd : 36 * 2 ^ 24 ≤ d) :
    effortResultF64 sqrt d = 1 := by
  have hpos : 0 < d := lt_of_lt_of_le (by norm_num) hd
  obtain ⟨p, q, e⟩ := effortResultF64_of_slow sqrt d (le_trans (by norm_num) hd)
  have hs : (36 : K) / d ≤ 2 ^ (-24 : Int) := by
    rw [div_le_iff₀ hpos, show (-24 : Int) = -(24 : ℕ) by norm_num, zpow_neg, zpow_natCast]
    have : (0 : K) < 2 ^ 24 := by positivity
    rw [inv_mul_eq_div, le_div_iff₀ this]
    linarith
  have hspeed0 : 0 ≤ time2wpmF64 d :=
    roundF64_nonneg _ (by unfold wpmPer1secTrigramTime; positivity)
  have hspeed : time2wpmF64 d ≤ 2 ^ (-24 : Int) := by
    have := roundF64_mono (by positivity) hs
    rwa [roundF64_two_zpow _ (by norm_num)] at this
  have hq : roundF64 (time2wpmF64 d / speedOfLight) ≤ 2 ^ (-31 : Int) := by
    have h : time2wpmF64 d / speedOfLight ≤ 2 ^ (-31 : Int) := by
      rw [speedOfLight, div_le_iff₀ (by norm_num)]
      have : (2 : K) ^ (-24 : Int) = 2 ^ (-31 : Int) * 128 := by
        rw [show (-24 : Int) = -31 + 7 by norm_num, zpow_add₀ (by norm_num)]
        norm_num
      have h31 : (0 : K) < 2 ^ (-31 : Int) := by positivity
      nlinarith
    have := roundF64_mono (div_nonneg hspeed0 (by norm_num [speedOfLight])) h
    rwa [roundF64_two_zpow _ (by norm_num)] at this
  have hqq : roundF64 (roundF64 (time2wpmF64 d / speedOfLight) *
      roundF64 (time2wpmF64 d / speedOfLight)) ≤ 2 ^ (-62 : Int) := by
    have h : roundF64 (time2wpmF64 d / speedOfLight) *
        roundF64 (time2wpmF64 d / speedOfLight) ≤ 2 ^ (-62 : Int) := by
      have : (2 : K) ^ (-62 : Int) = 2 ^ (-31 : Int) * 2 ^ (-31 : Int) := by
        rw [← zpow_add₀ (by norm_num)]
        norm_num
      rw [this]
      exact mul_le_mul hq hq p (by positivity)
    have := roundF64_mono (mul_nonneg p p) h
    rwa [roundF64_two_zpow _ (by norm_num)] at this
  have hqq0 := roundF64_nonneg _ (mul_nonneg p p)
  have hone : roundF64 (1 - roundF64 (roundF64 (time2wpmF64 d / speedOfLight) *
      roundF64 (time2wpmF64 d / speedOfLight))) = 1 :=
    roundF64_near_one _ (by linarith) (by linarith)
  rw [e, hone, hsqrt, roundF64_one]

/-! ### Shortest paths in float64 -/

theorem roundF64_MaxFloat64 {K : Type} [LinearOrderedField K] [FloorRing K] :
    roundF64 (MaxFloat64 : K) = MaxFloat64 := by
  have h := roundF64_of_repr (K := K) (2 ^ 53 - 1) 1023 (by norm_num) (by norm_num)
    (by norm_num)
  have e : (((2 ^ 53 - 1 : Int)) : K) * 2 ^ ((1023 : Int) - 52) = MaxFloat64 := by
    unfold MaxFloat64
    rw [show ((1023 : Int) - 52) = ((971 : ℕ) : Int) by norm_num, zpow_natCast]
    have hle : (2 : ℕ) ^ 971 ≤ 2 ^ 1024 := by
      apply Nat.pow_le_pow_right <;> decide
    rw [Nat.cast_sub hle, Nat.cast_pow,
      Nat.cast_pow, Nat.cast_ofNat, Int.cast_sub, Int.cast_pow, Int.cast_ofNat, Int.cast_one,
      sub_mul, one_mul, ← pow_add]
  rwa [e] at h

theorem le_roundF64_add {K : Type} [LinearOrderedField K] [FloorRing K] (a w : K)
    (ha : 0 ≤ a) (hr : roundF64 a = a) (hw : 0 ≤ w) : a ≤ roundF64 (a + w) := by
  have := roundF64_mono ha (show a ≤ a + w by linarith)
  rwa [hr] at this

theorem weightFrom_cons {K : Type} [LinearOrderedField K] [FloorRing K] (a : K) (e : edge K)
    (es : List (edge K)) : weightFrom a (e :: es) = weightFrom (roundF64 (a + e.w)) es :=
  rfl

theorem weightFrom_append_singleton {K : Type} [LinearOrderedField K] [FloorRing K] (a : K)
    (es : List (edge K)) (e : edge K) :
    weightFrom a (es ++ [e]) = roundF64 (weightFrom a es + e.w) := by
  simp [weightFrom, List.foldl_append]

theorem weightFrom_nonneg {K : Type} [LinearOrderedField K] [FloorRing K]
    (es : List (edge K)) (hw : ∀ e ∈ es, 0 ≤ e.w) :
    ∀ a : K, 0 ≤ a → 0 ≤ weightFrom a es := by
  induction es with
  | nil => intro a ha; exact ha
  | cons e es ih =>
    intro a ha
    rw [weightFrom_cons]
    exact ih (fun x hx => hw x (List.mem_cons_of_mem _ hx)) _
      (roundF64_nonneg _ (add_nonneg ha (hw e (List.mem_cons_self _ _))))

theorem weightFrom_mono {K : Type} [LinearOrderedField K] [FloorRing K]
    (es : List (edge K)) (hw : ∀ e ∈ es, 0 ≤ e.w) :
    ∀ a b : K, 0 ≤ a → a ≤ b → weightFrom a es ≤ weightFrom b es := by
  induction es with
  | nil => intro a b _ hab; exact hab
  | cons e es ih =>
    intro a b ha hab
    rw [weightFrom_cons, weightFrom_cons]
    have hwe := hw e (List.mem_cons_self _ _)
    exact ih (fun x hx => hw x (List.mem_cons_of_mem _ hx)) _ _
      (roundF64_nonneg _ (add_nonneg ha hwe))
      (roundF64_mono (add_nonneg ha hwe) (by linarith))

theorem relaxF64_distance_le {K : Type} [LinearOrderedField K] [FloorRing K]
    (m : pathMaps K) (e : edge K) (v : String) :
    (relaxF64 m e).distance v ≤ m.distance v := by
  unfold relaxF64
  split_ifs with h
  · by_cases hv : v = e.v2
    · subst hv; simpa using h.le
    · simp [Function.update_noteq hv]
  · exact le_rfl

theorem relaxF64_nonneg {K : Type} [LinearOrderedField K] [FloorRing K]
    (m : pathMaps K) (e : edge K) (hw : 0 ≤ e.w) (hm : ∀ v, 0 ≤ m.distance v) (v : String) :
    0 ≤ (relaxF64 m e).distance v := by
  unfold relaxF64
  split_ifs with h
  · by_cases hv : v = e.v2
    · subst hv
      simpa using roundF64_nonneg _ (add_nonneg (hm e.v1) hw)
    · simpa [Function.update_noteq hv] using hm v
  · exact hm v

theorem foldl_relaxF64_induction {K : Type} [LinearOrderedField K] [FloorRing K]
    (edges : List (edge K)) (P : pathMaps K → Prop)
    (hstep : ∀ m e, e ∈ edges → P m → P (relaxF64 m e))
    (l : List (edge K)) (hl : ∀ e ∈ l, e ∈ edges) (m : pathMaps K) (hm : P m) :
    P (l.foldl relaxF64 m) := by
  induction l generalizing m with
  | nil => exact hm
  | cons e l ih =>
    rw [List.foldl_cons]
    exact ih (fun x hx => hl x (List.mem_cons_of_mem _ hx)) _
      (hstep m e (hl e (List.mem_cons_self _ _)) hm)

theorem bellmanFordMapsF64_induction {K : Type} [LinearOrderedField K] [FloorRing K]
    (start : String) (vertices : List String) (edges : List (edge K)) (P : pathMaps K → Prop)
    (h0 : P (initMaps start vertices))
    (hstep : ∀ m e, e ∈ edges → P m → P (relaxF64 m e)) :
    P (bellmanFordMapsF64 start vertices edges) := by
  unfold bellmanFordMapsF64
  generalize vertices.length - 1 = n
  induction n with
  | zero => exact h0
  | succ n ih =>
    rw [Function.iterate_succ_apply']
    exact foldl_relaxF64_induction edges P hstep edges (fun _ h => h) _ ih

theorem settledF64_init {K : Type} [LinearOrderedField K] [FloorRing K] (start : String)
    (vertices : List String) (edges : List (edge K)) :
    SettledF64 start vertices edges (initMaps start vertices) where
  le_init := fun _ => le_rfl
  nonneg := initMaps_distance_nonneg start vertices
  repr := by
    intro v
    unfold initMaps
    by_cases hs : v = start
    · subst hs; simp [roundF64_zero]
    · simp only [Function.update_noteq hs]
      split_ifs
      · exact roundF64_MaxFloat64
      · exact roundF64_zero
  untouched := fun _ _ => rfl
  pred_edge := fun _ h => absurd h (lt_irrefl _)
  realised := fun _ h => absurd h (lt_irrefl _)
  ranked := ⟨fun _ => 0, fun _ h => absurd h (lt_irrefl _)⟩

theorem settledF64_relax {K : Type} [LinearOrderedField K] [FloorRing K] (start : String)
    (vertices : List String) (edges : List (edge K)) (hw : ∀ e ∈ edges, 0 < e.w)
    (hV : ∀ e ∈ edges, e.v1 ∈ vertices ∧ e.v2 ∈ vertices)
    (m : pathMaps K) (e : edge K) (he : e ∈ edges) (hm : SettledF64 start vertices edges m) :
    SettledF64 start vertices edges (relaxF64 m e) := by
  by_cases hr : roundF64 (m.distance e.v1 + e.w) < m.distance e.v2
  · have hpos := hw e he
    have hsum0 : 0 ≤ m.distance e.v1 + e.w := add_nonneg (hm.nonneg _) hpos.le
    have hgrow : ∀ (x : String) (w : K), 0 ≤ w → m.distance x ≤ roundF64 (m.distance x + w) :=
      fun x w h => le_roundF64_add _ _ (hm.nonneg x) (hm.repr x) h
    have hne : e.v1 ≠ e.v2 := by
      intro heq
      rw [← heq] at hr
      exact absurd hr (not_lt.2 (hgrow e.v1 e.w hpos.le))
    have hrel : relaxF64 m e =
        { distance := Function.update m.distance e.v2 (roundF64 (m.distance e.v1 + e.w))
          predecessor := Function.update m.predecessor e.v2 e.v1 } := by
      unfold relaxF64; rw [if_pos hr]
    have hdle : ∀ v, (relaxF64 m e).distance v ≤ m.distance v := relaxF64_distance_le m e
    have hlt2 : (relaxF64 m e).distance e.v2 < (initMaps start vertices).distance e.v2 := by
      rw [hrel]
      simp only [Function.update_same]
      exact lt_of_lt_of_le hr (hm.le_init _)
    have hother : ∀ v, v ≠ e.v2 → (relaxF64 m e).distance v = m.distance v ∧
        (relaxF64 m e).predecessor v = m.predecessor v := by
      intro v hv
      rw [hrel]
      simp [Function.update_noteq hv]
    have hat : (relaxF64 m e).distance e.v2 = roundF64 (m.distance e.v1 + e.w) ∧
        (relaxF64 m e).predecessor e.v2 = e.v1 := by
      rw [hrel]; simp
    have hpredle : ∀ v, m.distance v < (initMaps start vertices).distance v →
        m.distance (m.predecessor v) ≤ m.distance v := by
      intro v hv
      obtain ⟨e0, he0, h1, h2, h3⟩ := hm.pred_edge v hv
      rw [← h1]
      exact le_trans (hgrow e0.v1 e0.w (hw e0 he0).le) h3
    refine ⟨fun v => le_trans (hdle v) (hm.le_init v),
      relaxF64_nonneg m e hpos.le hm.nonneg, ?_, ?_, ?_, ?_, ?_⟩
    · intro v
      by_cases hv : v = e.v2
      · subst hv
        rw [hat.1]
        exact roundF64_idem _ hsum0
      · rw [(hother v hv).1]; exact hm.repr v
    · intro v hv
      by_cases hve : v = e.v2
      · subst hve
        exact absurd hv (ne_of_lt hlt2)
      · rw [(hother v hve).2]
        rw [(hother v hve).1] at hv
        exact hm.untouched v hv
    · intro v hv
      by_cases hve : v = e.v2
      · subst hve
        refine ⟨e, he, hat.2.symm, rfl, ?_⟩
        rw [hat.1, (hother e.v1 hne).1]
      · rw [(hother v hve).1] at hv
        obtain ⟨e0, he0, h1, h2, h3⟩ := hm.pred_edge v hv
        refine ⟨e0, he0, by rw [(hother v hve).2]; exact h1, h2, ?_⟩
        rw [(hother v hve).1]
        refine le_trans (roundF64_mono ?_ (add_le_add_right (hdle e0.v1) _)) h3
        exact add_nonneg (relaxF64_nonneg m e hpos.le hm.nonneg _) (hw e0 he0).le
    · intro v hv
      by_cases hve : v = e.v2
      · subst hve
        rw [hat.1]
        rcases lt_or_eq_of_le (hm.le_init e.v1) with hlt | heq
        · obtain ⟨es, hes, hwt⟩ := hm.realised e.v1 hlt
          refine ⟨es ++ [e], ?_, ?_⟩
          · rw [isWalk_append_singleton]; exact ⟨hes, he, rfl⟩
          · rw [weightF64, weightFrom_append_singleton, ← weightF64, hwt]
        · by_cases hs : e.v1 = start
          · refine ⟨[e], ⟨he, hs, rfl⟩, ?_⟩
            have h0 : m.distance e.v1 = 0 := by
              rw [heq, hs]; exact initMaps_distance_start start vertices
            rw [h0]
            rfl
          · exfalso
            rw [initMaps_distance_of_ne start vertices e.v1 (hV e he).1 hs] at heq
            have h2 := le_trans (hm.le_init e.v2) (initMaps_distance_le start vertices e.v2)
            have h3 := hgrow e.v1 e.w hpos.le
            rw [heq] at h3 hr
            linarith
      · rw [(hother v hve).1] at hv ⊢
        exact hm.realised v hv
    · obtain ⟨rank, hrank⟩ := hm.ranked
      refine ⟨Function.update rank e.v2 (rank e.v1 + 1), ?_⟩
      intro v hv htie
      by_cases hve : v = e.v2
      · subst hve
        rw [hat.2, Function.update_same, Function.update_noteq hne]
        exact Nat.lt_succ_self _
      · rw [(hother v hve).1] at hv
        rw [(hother v hve).2, (hother v hve).1] at htie
        rw [(hother v hve).2, Function.update_noteq hve]
        by_cases hp : m.predecessor v = e.v2
        · exfalso
          rw [hp, hat.1] at htie
          have h1 := hpredle v hv
          rw [hp] at h1
          linarith
        · rw [(hother _ hp).1] at htie
          rw [Function.update_noteq hp]
          exact hrank v hv htie
  · have hrel : relaxF64 m e = m := by unfold relaxF64; rw [if_neg hr]
    rw [hrel]
    exact hm

theorem settledF64_bellmanFordMaps {K : Type} [LinearOrderedField K] [FloorRing K]
    (start : String) (vertices : List String) (edges : List (edge K))
    (hw : ∀ e ∈ edges, 0 < e.w) (hV : ∀ e ∈ edges, e.v1 ∈ vertices ∧ e.v2 ∈ vertices) :
    SettledF64 start vertices edges (bellmanFordMapsF64 start vertices edges) :=
  bellmanFordMapsF64_induction start vertices edges (SettledF64 start vertices edges)
    (settledF64_init start vertices edges)
    (fun m e he hm => settledF64_relax start vertices edges hw hV m e he hm)

theorem foldl_relaxF64_distance_le {K : Type} [LinearOrderedField K] [FloorRing K]
    (l : List (edge K)) (m : pathMaps K) (v : String) :
    (l.foldl relaxF64 m).distance v ≤ m.distance v := by
  induction l generalizing m with
  | nil => exact le_rfl
  | cons e l ih =>
    rw [List.foldl_cons]
    exact le_trans (ih _) (relaxF64_distance_le m e v)

theorem foldl_relaxF64_nonneg {K : Type} [LinearOrderedField K] [FloorRing K]
    (l : List (edge K)) (hw : ∀ e ∈ l, 0 ≤ e.w) (m : pathMaps K)
    (hm : ∀ v, 0 ≤ m.distance v) (v : String) : 0 ≤ (l.foldl relaxF64 m).distance v := by
  induction l generalizing m with
  | nil => exact hm v
  | cons e l ih =>
    rw [List.foldl_cons]
    exact ih (fun x hx => hw x (List.mem_cons_of_mem _ hx)) _
      (relaxF64_nonneg m e (hw e (List.mem_cons_self _ _)) hm)

theorem relaxF64_target_le {K : Type} [LinearOrderedField K] [FloorRing K]
    (m : pathMaps K) (e : edge K) :
    (relaxF64 m e).distance e.v2 ≤ roundF64 (m.distance e.v1 + e.w) := by
  unfold relaxF64
  split_ifs with h
  · simp
  · exact not_lt.mp h

theorem foldl_relaxF64_target_le {K : Type} [LinearOrderedField K] [FloorRing K]
    (l : List (edge K)) (hw : ∀ e ∈ l, 0 ≤ e.w) (m : pathMaps K)
    (hm : ∀ v, 0 ≤ m.distance v) (e : edge K) (he : e ∈ l) :
    (l.foldl relaxF64 m).distance e.v2 ≤ roundF64 (m.distance e.v1 + e.w) := by
  induction l generalizing m with
  | nil => simp at he
  | cons a l ih =>
    rw [List.foldl_cons]
    have hwa := hw a (List.mem_cons_self _ _)
    have hwl : ∀ x ∈ l, 0 ≤ x.w := fun x hx => hw x (List.mem_cons_of_mem _ hx)
    have hm' := relaxF64_nonneg m a hwa hm
    rcases List.mem_cons.mp he with rfl | hl
    · exact le_trans (foldl_relaxF64_distance_le l _ _) (relaxF64_target_le m e)
    · refine le_trans (ih hwl _ hm' hl) (roundF64_mono ?_ ?_)
      · exact add_nonneg (hm' _) (hw e he)
      · exact add_le_add_right (relaxF64_distance_le m a e.v1) _

/-- After `k` rounds the distance of `v` is at most the float64 weight of any walk of at
most `k` edges from `start` to `v`. -/
theorem iterateF64_walk_le {K : Type} [LinearOrderedField K] [FloorRing K] (start : String)
    (vertices : List String) (edges : List (edge K)) (hw : ∀ e ∈ edges, 0 < e.w) (k : Nat) :
    (∀ v, 0 ≤ ((fun m => edges.foldl relaxF64 m)^[k] (initMaps start vertices)).distance v) ∧
    ∀ (es : List (edge K)) (v : String), es.length ≤ k → IsWalk edges start es v →
      ((fun m => edges.foldl relaxF64 m)^[k] (initMaps start vertices)).distance v ≤
        weightF64 es := by
  have hw0 : ∀ e ∈ edges, 0 ≤ e.w := fun e he => (hw e he).le
  induction k with
  | zero =>
    refine ⟨initMaps_distance_nonneg start vertices, ?_⟩
    intro es v hlen hwalk
    have hnil : es = [] := List.length_eq_zero.mp (Nat.le_zero.mp hlen)
    subst hnil
    have hv : start = v := hwalk
    subst hv
    simp [initMaps, weightF64, weightFrom]
  | succ k ih =>
    obtain ⟨ih0, ih⟩ := ih
    rw [Function.iterate_succ_apply']
    refine ⟨foldl_relaxF64_nonneg edges hw0 _ ih0, ?_⟩
    intro es v hlen hwalk
    rcases List.eq_nil_or_concat es with hnil | ⟨es', e, hes⟩
    · subst hnil
      exact le_trans (foldl_relaxF64_distance_le _ _ _) (ih [] v (Nat.zero_le _) hwalk)
    · rw [List.concat_eq_append] at hes
      subst hes
      rw [isWalk_append_singleton] at hwalk
      obtain ⟨h1, h2, h3⟩ := hwalk
      have hlen' : es'.length ≤ k := by
        simp only [List.length_append, List.length_singleton] at hlen; omega
      rw [weightF64, weightFrom_append_singleton, ← weightF64, ← h3]
      refine le_trans (foldl_relaxF64_target_le edges hw0 _ ih0 e h2) (roundF64_mono ?_ ?_)
      · exact add_nonneg (ih0 _) (hw0 e h2)
      · exact add_le_add_right (ih es' e.v1 hlen' h1) _

theorem walkF64_suffix {K : Type} [LinearOrderedField K] [FloorRing K] (edges : List (edge K))
    (hw : ∀ e ∈ edges, 0 < e.w) (es : List (edge K)) :
    ∀ (u v s : String), IsWalk edges u es v → s ∈ u :: es.map (fun e => e.v2) →
      ∃ es', IsWalk edges s es' v ∧
        (∀ a : K, 0 ≤ a → roundF64 a = a → weightFrom a es' ≤ weightFrom a es) ∧
        (s :: es'.map fun e => e.v2).Sublist (u :: es.map fun e => e.v2) := by
  induction es with
  | nil =>
    intro u v s hwalk hs
    simp only [List.map_nil, List.mem_singleton] at hs
    subst hs
    exact ⟨[], hwalk, fun _ _ _ => le_rfl, List.Sublist.refl _⟩
  | cons e es ih =>
    intro u v s hwalk hs
    obtain ⟨he, hv1, hrest⟩ := hwalk
    rcases List.mem_cons.mp hs with rfl | hs'
    · exact ⟨e :: es, ⟨he, hv1, hrest⟩, fun _ _ _ => le_rfl, List.Sublist.refl _⟩
    · obtain ⟨es', h1, h2, h3⟩ := ih e.v2 v s hrest (by simpa using hs')
      refine ⟨es', h1, ?_, ?_⟩
      · intro a ha hr
        have hpos := (hw e he).le
        have ha' : 0 ≤ roundF64 (a + e.w) := roundF64_nonneg _ (add_nonneg ha hpos)
        rw [weightFrom_cons]
        refine le_trans ?_ (h2 _ ha' (roundF64_idem _ (add_nonneg ha hpos)))
        exact weightFrom_mono es' (fun x hx => (hw x (isWalk_mem edges s v es' h1 x hx)).le)
          _ _ ha (le_roundF64_add a e.w ha hr hpos)
      · simpa using h3.cons u

theorem walkF64_simple {K : Type} [LinearOrderedField K] [FloorRing K] (edges : List (edge K))
    (hw : ∀ e ∈ edges, 0 < e.w) (es : List (edge K)) :
    ∀ (u v : String), IsWalk edges u es v →
      ∃ es', IsWalk edges u es' v ∧
        (∀ a : K, 0 ≤ a → roundF64 a = a → weightFrom a es' ≤ weightFrom a es) ∧
        (u :: es'.map fun e => e.v2).Nodup := by
  induction es with
  | nil =>
    intro u v hwalk
    exact ⟨[], hwalk, fun _ _ _ => le_rfl, by simp⟩
  | cons e es ih =>
    intro u v hwalk
    obtain ⟨he, hv1, hrest⟩ := hwalk
    obtain ⟨es1, h1, h2, h3⟩ := ih e.v2 v hrest
    have hpos := (hw e he).le
    by_cases hu : u ∈ e.v2 :: es1.map fun e => e.v2
    · obtain ⟨es2, g1, g2, g3⟩ := walkF64_suffix edges hw es1 e.v2 v u h1 hu
      refine ⟨es2, g1, ?_, g3.nodup h3⟩
      intro a ha hr
      have ha' : 0 ≤ roundF64 (a + e.w) := roundF64_nonneg _ (add_nonneg ha hpos)
      have hid := roundF64_idem _ (add_nonneg ha hpos)
      rw [weightFrom_cons]
      calc weightFrom a es2 ≤ weightFrom (roundF64 (a + e.w)) es2 :=
            weightFrom_mono es2 (fun x hx => (hw x (isWalk_mem edges u v es2 g1 x hx)).le)
              _ _ ha (le_roundF64_add a e.w ha hr hpos)
        _ ≤ weightFrom (roundF64 (a + e.w)) es1 := g2 _ ha' hid
        _ ≤ weightFrom (roundF64 (a + e.w)) es := h2 _ ha' hid
    · refine ⟨e :: es1, ⟨he, hv1, h1⟩, ?_, ?_⟩
      · intro a ha hr
        rw [weightFrom_cons, weightFrom_cons]
        exact h2 _ (roundF64_nonneg _ (add_nonneg ha hpos))
          (roundF64_idem _ (add_nonneg ha hpos))
      · simp only [List.map_cons]
        exact List.nodup_cons.mpr ⟨hu, h3⟩

/-- After all rounds the distance of `v` is at most the float64 weight of every walk from
`start` to `v`. -/
theorem bellmanFordMapsF64_le_walk {K : Type} [LinearOrderedField K] [FloorRing K]
    (start : String) (vertices : List String) (edges : List (edge K))
    (hw : ∀ e ∈ edges, 0 < e.w)
    (hV : ∀ e ∈ edges, e.v1 ∈ vertices ∧ e.v2 ∈ vertices) (hstart : start ∈ vertices)
    (es : List (edge K)) (v : String) (hwalk : IsWalk edges start es v) :
    (bellmanFordMapsF64 start vertices edges).distance v ≤ weightF64 es := by
  obtain ⟨es', h1, h2, h3⟩ := walkF64_simple edges hw es start v hwalk
  have hsub : (start :: es'.map fun e => e.v2) ⊆ vertices :=
    fun x hx => walk_vertices_mem edges vertices hV start v es' hstart h1 x hx
  have hlen := (List.subperm_of_subset h3 hsub).length_le
  simp only [List.length_cons, List.length_map] at hlen
  exact le_trans ((iterateF64_walk_le start vertices edges hw _).2 es' v (by omega) h1)
    (h2 0 le_rfl roundF64_zero)

theorem rankMeasure_lt {K : Type} [LinearOrderedField K] (vertices : List String)
    (m : pathMaps K) (rank : String → Nat) (u v : String) (hu : u ∈ vertices)
    (hlt : m.distance u < m.distance v ∨ (m.distance u = m.distance v ∧ rank u < rank v)) :
    rankMeasure vertices m rank u < rankMeasure vertices m rank v := by
  unfold rankMeasure
  refine countP_lt_countP vertices _ _ ?_ u hu ?_ ?_
  · intro x _ hx
    simp only [decide_eq_true_eq] at hx ⊢
    rcases hx with hx | ⟨hx1, hx2⟩ <;> rcases hlt with hl | ⟨hl1, hl2⟩
    · exact Or.inl (lt_trans hx hl)
    · exact Or.inl (hl1 ▸ hx)
    · exact Or.inl (hx1 ▸ hl)
    · exact Or.inr ⟨hx1.trans hl1, lt_trans hx2 hl2⟩
  · simpa using hlt
  · simp

/-- From a vertex whose distance dropped, the predecessors lead back to `start` along edges
whose float64 weight is at most the distance of the vertex. -/
theorem settledF64_chain {K : Type} [LinearOrderedField K] [FloorRing K] (start : String)
    (vertices : List String) (edges : List (edge K)) (hw : ∀ e ∈ edges, 0 < e.w)
    (hV : ∀ e ∈ edges, e.v1 ∈ vertices ∧ e.v2 ∈ vertices)
    (m : pathMaps K) (hm : SettledF64 start vertices edges m) (v : String)
    (hv : m.distance v < (initMaps start vertices).distance v) :
    ∃ es, IsWalk edges start es v ∧ (∀ e ∈ es, m.predecessor e.v2 = e.v1) ∧
      weightF64 es ≤ m.distance v := by
  obtain ⟨rank, hrank⟩ := hm.ranked
  suffices h : ∀ (n : Nat) (v : String), rankMeasure vertices m rank v < n →
      m.distance v < (initMaps start vertices).distance v →
      ∃ es, IsWalk edges start es v ∧ (∀ e ∈ es, m.predecessor e.v2 = e.v1) ∧
        weightF64 es ≤ m.distance v from h _ v (Nat.lt_succ_self _) hv
  intro n
  induction n with
  | zero => intro v h; omega
  | succ n ih =>
    intro v hn hv
    obtain ⟨e, he, h1, h2, h3⟩ := hm.pred_edge v hv
    have hpos := (hw e he).le
    have hgrow : m.distance e.v1 ≤ roundF64 (m.distance e.v1 + e.w) :=
      le_roundF64_add _ _ (hm.nonneg _) (hm.repr _) hpos
    rcases lt_or_eq_of_le (hm.le_init e.v1) with hlt | heq
    · have hmeas : rankMeasure vertices m rank e.v1 < rankMeasure vertices m rank v := by
        apply rankMeasure_lt vertices m rank e.v1 v (hV e he).1
        rcases lt_or_eq_of_le (le_trans hgrow h3) with hl | hq
        · exact Or.inl hl
        · refine Or.inr ⟨hq, ?_⟩
          have := hrank v hv (by rw [← h1]; exact hq)
          rwa [← h1] at this
      obtain ⟨es, hes, hp, hwt⟩ := ih e.v1 (by omega) hlt
      refine ⟨es ++ [e], ?_, ?_, ?_⟩
      · rw [isWalk_append_singleton]; exact ⟨hes, he, h2⟩
      · intro x hx
        rcases List.mem_append.mp hx with hx | hx
        · exact hp x hx
        · rw [List.mem_singleton] at hx
          subst hx
          rw [h2, h1]
      · rw [weightF64, weightFrom_append_singleton, ← weightF64]
        refine le_trans (roundF64_mono ?_ (add_le_add_right hwt _)) h3
        exact add_nonneg (weightFrom_nonneg es
          (fun x hx => (hw x (isWalk_mem edges start e.v1 es hes x hx)).le) 0 le_rfl) hpos
    · by_cases hs : e.v1 = start
      · refine ⟨[e], ⟨he, hs, h2⟩, ?_, ?_⟩
        · intro x hx
          rw [List.mem_singleton] at hx
          subst hx
          rw [h2, h1]
        · have h0 : m.distance e.v1 = 0 := by
            rw [heq, hs]; exact initMaps_distance_start start vertices
          rw [h0] at h3
          exact h3
      · exfalso
        rw [initMaps_distance_of_ne start vertices e.v1 (hV e he).1 hs] at heq
        have h4 := lt_of_lt_of_le hv (initMaps_distance_le start vertices v)
        rw [heq] at hgrow h3
        linarith

theorem relaxF64_skip {K : Type} [LinearOrderedField K] [FloorRing K] (m : pathMaps K)
    (v1 v2 : String) (w : K) (h : m.distance v2 ≤ roundF64 (m.distance v1 + w)) :
    relaxF64 m { v1 := v1, v2 := v2, w := w } = m := by
  unfold relaxF64
  rw [if_neg (not_lt.2 h)]

theorem relaxF64_take {K : Type} [LinearOrderedField K] [FloorRing K] (m : pathMaps K)
    (v1 v2 : String) (w x : K) (hx : roundF64 (m.distance v1 + w) = x)
    (h : x < m.distance v2) :
    relaxF64 m { v1 := v1, v2 := v2, w := w } =
      { distance := Function.update m.distance v2 x
        predecessor := Function.update m.predecessor v2 v1 } := by
  unfold relaxF64
  simp only
  rw [hx, if_pos h]

/-- Rounding inside a binade: for `2 ^ e ≤ x < 2 ^ (e + 1)` in the normal range the
significand is `x / 2 ^ (e - 52)` rounded to an integer. -/
theorem roundF64_of_binade {K : Type} [LinearOrderedField K] [FloorRing K] (x : K) (e : Int)
    (he : -1022 ≤ e) (hlo : 2 ^ e ≤ x) (hhi : x < 2 ^ (e + 1)) :
    roundF64 x = (roundHalfEven (x / 2 ^ (e - 52)) : K) * 2 ^ (e - 52) := by
  have hpos : 0 < x := lt_of_lt_of_le (by positivity) hlo
  have hlog : Int.log 2 x = e := by
    apply le_antisymm
    · have : Int.log 2 x < e + 1 := by
        rw [← Int.lt_zpow_iff_log_lt (by norm_num) hpos]
        exact_mod_cast hhi
      omega
    · rw [← Int.zpow_le_iff_le_log (by norm_num) hpos]
      exact_mod_cast hlo
  unfold roundF64
  simp only
  rw [abs_of_pos hpos, hlog, max_eq_left he]

theorem roundF64_tie_weight :
    roundF64 ((3752999689475413 / 9007199254740992 : ℚ)) =
      3752999689475413 / 9007199254740992 ∧
    roundF64 ((5 / 4 : ℚ)) = 5 / 4 ∧
    roundF64 ((3752999689475413 / 9007199254740992 : ℚ) + 3752999689475413 / 9007199254740992)
      = 3752999689475413 / 4503599627370496 ∧
    roundF64 ((3752999689475413 / 4503599627370496 : ℚ) + 3752999689475413 / 9007199254740992)
      = 5 / 4 := by
  refine ⟨?_, ?_, ?_, ?_⟩
  · have h := roundF64_of_repr (K := ℚ) 7505999378950826 (-2) (by norm_num) (by norm_num)
      (by norm_num)
    have e : ((7505999378950826 : Int) : ℚ) * 2 ^ ((-2 : Int) - 52) =
        3752999689475413 / 9007199254740992 := by
      rw [show ((-2 : Int) - 52) = -(54 : ℕ) by norm_num, zpow_neg, zpow_natCast]
      norm_num
    rwa [e] at h
  · have h := roundF64_of_repr (K := ℚ) 5629499534213120 0 (by norm_num) (by norm_num)
      (by norm_num)
    have e : ((5629499534213120 : Int) : ℚ) * 2 ^ ((0 : Int) - 52) = 5 / 4 := by
      rw [show ((0 : Int) - 52) = -(52 : ℕ) by norm_num, zpow_neg, zpow_natCast]
      norm_num
    rwa [e] at h
  · have h := roundF64_of_repr (K := ℚ) 7505999378950826 (-1) (by norm_num) (by norm_num)
      (by norm_num)
    have e : ((7505999378950826 : Int) : ℚ) * 2 ^ ((-1 : Int) - 52) =
        3752999689475413 / 9007199254740992 + 3752999689475413 / 9007199254740992 := by
      rw [show ((-1 : Int) - 52) = -(53 : ℕ) by norm_num, zpow_neg, zpow_natCast]
      norm_num
    rw [e] at h
    rw [h]
    norm_num
  · rw [roundF64_of_binade _ 0 (by norm_num) (by norm_num) (by norm_num)]
    have ht : roundHalfEven (((3752999689475413 / 4503599627370496 : ℚ) +
        3752999689475413 / 9007199254740992) / 2 ^ ((0 : Int) - 52)) = 5629499534213119 + 1 := by
      apply roundHalfEven_tie_odd
      · rw [show ((0 : Int) - 52) = -(52 : ℕ) by norm_num, zpow_neg, zpow_natCast]
        norm_num
      · norm_num
    rw [ht, show ((0 : Int) - 52) = -(52 : ℕ) by norm_num, zpow_neg, zpow_natCast]
    norm_num

theorem bellmanFordF64_eq {K : Type} [LinearOrderedField K] [FloorRing K] (start : String)
    (vertices : List String) (edges : List (edge K)) :
    bellmanFordF64 start vertices edges =
      (bellmanFordMapsF64 start vertices edges).predecessor :=
  rfl

/-- The run of float64 `bellmanFord` on `tieEdges` from "ba": the direct edge to "ab" is
taken in the first round, the path through "ac" and "ca" adds up to the same float64 in the
third round and the strict test leaves the direct edge in place. -/
theorem bellmanFordF64_tieEdges :
    bellmanFordF64 "ba" ["ab", "ba", "ca", "ac"] tieEdges "ab" = "ba" := by
  obtain ⟨rw3, r54, r2, r3⟩ := roundF64_tie_weight
  obtain ⟨w, hw⟩ : ∃ w : ℚ, w = 3752999689475413 / 9007199254740992 := ⟨_, rfl⟩
  have hw0 : (0 : ℚ) ≤ w := by rw [hw]; norm_num
  have hM : (5 : ℚ) < MaxFloat64 := by
    unfold MaxFloat64
    have : (5 : ℕ) < 2 ^ 1024 - 2 ^ 971 := by norm_num
    exact_mod_cast this
  have hMge : ∀ x : ℚ, 0 ≤ x → MaxFloat64 ≤ roundF64 (MaxFloat64 + x) :=
    fun x hx => le_roundF64_add _ _ MaxFloat64_pos.le roundF64_MaxFloat64 hx
  have q1 : roundF64 ((0 : ℚ) + w) = w := by rw [zero_add, hw]; exact rw3
  have q2 : roundF64 ((0 : ℚ) + 5 / 4) = 5 / 4 := by rw [zero_add]; exact r54
  have q3 : roundF64 (w + w) = 3752999689475413 / 4503599627370496 := by rw [hw]; exact r2
  have q4 : roundF64 ((3752999689475413 / 4503599627370496 : ℚ) + w) = 5 / 4 := by
    rw [hw]; exact r3
  have hwM : w < MaxFloat64 := by rw [hw]; linarith
  have hedges : tieEdges = [⟨"ab", "ba", w⟩, ⟨"ca", "ab", w⟩, ⟨"ac", "ca", w⟩,
      ⟨"ba", "ac", w⟩, ⟨"ba", "ab", 5 / 4⟩] := by rw [hw]; rfl
  obtain ⟨m0, hm0⟩ : ∃ m : pathMaps ℚ, m = initMaps "ba" ["ab", "ba", "ca", "ac"] := ⟨_, rfl⟩
  have d0ab : m0.distance "ab" = MaxFloat64 := by
    rw [hm0]; exact initMaps_distance_of_ne _ _ _ (by decide) (by decide)
  have d0ba : m0.distance "ba" = 0 := by rw [hm0]; exact initMaps_distance_start _ _
  have d0ca : m0.distance "ca" = MaxFloat64 := by
    rw [hm0]; exact initMaps_distance_of_ne _ _ _ (by decide) (by decide)
  have d0ac : m0.distance "ac" = MaxFloat64 := by
    rw [hm0]; exact initMaps_distance_of_ne _ _ _ (by decide) (by decide)
  obtain ⟨m1, hm1⟩ : ∃ m : pathMaps ℚ, m =
      { distance := Function.update m0.distance "ac" w
        predecessor := Function.update m0.predecessor "ac" "ba" } := ⟨_, rfl⟩
  have d1ab : m1.distance "ab" = MaxFloat64 := by
    rw [hm1]; simp only [Function.update_noteq (show ("ab" : String) ≠ "ac" by decide)]
    exact d0ab
  have d1ba : m1.distance "ba" = 0 := by
    rw [hm1]; simp only [Function.update_noteq (show ("ba" : String) ≠ "ac" by decide)]
    exact d0ba
  obtain ⟨m2, hm2⟩ : ∃ m : pathMaps ℚ, m =
      { distance := Function.update m1.distance "ab" (5 / 4)
        predecessor := Function.update m1.predecessor "ab" "ba" } := ⟨_, rfl⟩
  have d2ab : m2.distance "ab" = 5 / 4 := by rw [hm2]; simp
  have d2ba : m2.distance "ba" = 0 := by
    rw [hm2]; simp only [Function.update_noteq (show ("ba" : String) ≠ "ab" by decide)]
    exact d1ba
  have d2ca : m2.distance "ca" = MaxFloat64 := by
    rw [hm2, hm1]
    simp only [Function.update_noteq (show ("ca" : String) ≠ "ab" by decide),
      Function.update_noteq (show ("ca" : String) ≠ "ac" by decide)]
    exact d0ca
  have d2ac : m2.distance "ac" = w := by
    rw [hm2, hm1]
    simp only [Function.update_noteq (show ("ac" : String) ≠ "ab" by decide),
      Function.update_same]
  obtain ⟨m3, hm3⟩ : ∃ m : pathMaps ℚ, m =
      { distance := Function.update m2.distance "ca" (3752999689475413 / 4503599627370496)
        predecessor := Function.update m2.predecessor "ca" "ac" } := ⟨_, rfl⟩
  have d3ab : m3.distance "ab" = 5 / 4 := by
    rw [hm3]; simp only [Function.update_noteq (show ("ab" : String) ≠ "ca" by decide)]
    exact d2ab
  have d3ba : m3.distance "ba" = 0 := by
    rw [hm3]; simp only [Function.update_noteq (show ("ba" : String) ≠ "ca" by decide)]
    exact d2ba
  have d3ca : m3.distance "ca" = 3752999689475413 / 4503599627370496 := by
    rw [hm3]; simp
  have d3ac : m3.distance "ac" = w := by
    rw [hm3]; simp only [Function.update_noteq (show ("ac" : String) ≠ "ca" by decide)]
    exact d2ac
  -- first round
  have a1 : relaxF64 m0 ⟨"ab", "ba", w⟩ = m0 :=
    relaxF64_skip _ _ _ _ (by rw [d0ba]; exact roundF64_nonneg _ (by rw [d0ab]; linarith))
  have a2 : relaxF64 m0 ⟨"ca", "ab", w⟩ = m0 :=
    relaxF64_skip _ _ _ _ (by rw [d0ab, d0ca]; exact hMge w hw0)
  have a3 : relaxF64 m0 ⟨"ac", "ca", w⟩ = m0 :=
    relaxF64_skip _ _ _ _ (by rw [d0ca, d0ac]; exact hMge w hw0)
  have a4 : relaxF64 m0 ⟨"ba", "ac", w⟩ = m1 := by
    rw [hm1]
    exact relaxF64_take _ _ _ _ _ (by rw [d0ba]; exact q1) (by rw [d0ac]; exact hwM)
  have a5 : relaxF64 m1 ⟨"ba", "ab", 5 / 4⟩ = m2 := by
    rw [hm2]
    exact relaxF64_take _ _ _ _ _ (by rw [d1ba]; exact q2) (by rw [d1ab]; linarith)
  -- second round
  have b1 : relaxF64 m2 ⟨"ab", "ba", w⟩ = m2 :=
    relaxF64_skip _ _ _ _ (by rw [d2ba]; exact roundF64_nonneg _ (by rw [d2ab]; linarith))
  have b2 : relaxF64 m2 ⟨"ca", "ab", w⟩ = m2 :=
    relaxF64_skip _ _ _ _ (by rw [d2ab, d2ca]; exact le_trans (by linarith) (hMge w hw0))
  have b3 : relaxF64 m2 ⟨"ac", "ca", w⟩ = m3 := by
    rw [hm3]
    exact relaxF64_take _ _ _ _ _ (by rw [d2ac]; exact q3) (by rw [d2ca]; linarith)
  have b4 : relaxF64 m3 ⟨"ba", "ac", w⟩ = m3 :=
    relaxF64_skip _ _ _ _ (by rw [d3ac, d3ba, q1])
  have b5 : relaxF64 m3 ⟨"ba", "ab", 5 / 4⟩ = m3 :=
    relaxF64_skip _ _ _ _ (by rw [d3ab, d3ba, q2])
  -- third round
  have c1 : relaxF64 m3 ⟨"ab", "ba", w⟩ = m3 :=
    relaxF64_skip _ _ _ _ (by rw [d3ba]; exact roundF64_nonneg _ (by rw [d3ab]; linarith))
  have c2 : relaxF64 m3 ⟨"ca", "ab", w⟩ = m3 :=
    relaxF64_skip _ _ _ _ (by rw [d3ab, d3ca, q4])
  have c3 : relaxF64 m3 ⟨"ac", "ca", w⟩ = m3 :=
    relaxF64_skip _ _ _ _ (by rw [d3ca, d3ac, q3])
  have hR1 : List.foldl relaxF64 m0 [⟨"ab", "ba", w⟩, ⟨"ca", "ab", w⟩, ⟨"ac", "ca", w⟩,
      ⟨"ba", "ac", w⟩, ⟨"ba", "ab", 5 / 4⟩] = m2 := by
    simp only [List.foldl_cons, List.foldl_nil]
    rw [a1, a2, a3, a4, a5]
  have hR2 : List.foldl relaxF64 m2 [⟨"ab", "ba", w⟩, ⟨"ca", "ab", w⟩, ⟨"ac", "ca", w⟩,
      ⟨"ba", "ac", w⟩, ⟨"ba", "ab", 5 / 4⟩] = m3 := by
    simp only [List.foldl_cons, List.foldl_nil]
    rw [b1, b2, b3, b4, b5]
  have hR3 : List.foldl relaxF64 m3 [⟨"ab", "ba", w⟩, ⟨"ca", "ab", w⟩, ⟨"ac", "ca", w⟩,
      ⟨"ba", "ac", w⟩, ⟨"ba", "ab", 5 / 4⟩] = m3 := by
    simp only [List.foldl_cons, List.foldl_nil]
    rw [c1, c2, c3, b4, b5]
  have hmaps : bellmanFordMapsF64 "ba" ["ab", "ba", "ca", "ac"] tieEdges = m3 := by
    unfold bellmanFordMapsF64
    rw [hedges, ← hm0]
    have h3 : (["ab", "ba", "ca", "ac"] : List String).length - 1 = 3 := rfl
    rw [h3, Function.iterate_succ_apply, Function.iterate_succ_apply,
      Function.iterate_succ_apply, Function.iterate_zero_apply, hR1, hR2, hR3]
  have hp : m3.predecessor "ab" = "ba" := by
    rw [hm3, hm2]
    simp only [Function.update_noteq (show ("ab" : String) ≠ "ca" by decide),
      Function.update_same]
  rw [bellmanFordF64_eq, hmaps]
  exact hp

theorem weight_nonneg_of_walk {K : Type} [LinearOrderedField K] (edges : List (edge K))
    (hw : ∀ e ∈ edges, 0 < e.w) (u v : String) (es : List (edge K))
    (h : IsWalk edges u es v) : 0 ≤ weight es := by
  unfold weight
  apply List.sum_nonneg
  intro x hx
  obtain ⟨e, he, rfl⟩ := List.mem_map.mp hx
  exact (hw e (isWalk_mem edges u v es h e he)).le

/-- The weights of `tieEdges` are the float64 quotients `1 / Score` of the scores
`3 * 0.8` and `0.8`, where `0.8` is the float64 `3602879701896397 / 2^52`. -/
theorem tieEdges_weights :
    roundF64 (1 / roundF64 (3 * (3602879701896397 / 4503599627370496 : ℚ))) =
      3752999689475413 / 9007199254740992 ∧
    roundF64 (1 / (3602879701896397 / 4503599627370496 : ℚ)) = 5 / 4 := by
  have hs : roundF64 (3 * (3602879701896397 / 4503599627370496 : ℚ)) =
      1351079888211149 / 562949953421312 := by
    rw [roundF64_of_binade _ 1 (by norm_num) (by norm_num) (by norm_num)]
    have ht : roundHalfEven ((3 * (3602879701896397 / 4503599627370496 : ℚ)) /
        2 ^ ((1 : Int) - 52)) = 5404319552844595 + 1 := by
      apply roundHalfEven_tie_odd
      · rw [show ((1 : Int) - 52) = -(51 : ℕ) by norm_num, zpow_neg, zpow_natCast]
        norm_num
      · norm_num
    rw [ht, show ((1 : Int) - 52) = -(51 : ℕ) by norm_num, zpow_neg, zpow_natCast]
    norm_num
  constructor
  · rw [hs, roundF64_of_binade _ (-2) (by norm_num) (by norm_num) (by norm_num)]
    have ht : roundHalfEven ((1 / (1351079888211149 / 562949953421312 : ℚ)) /
        2 ^ ((-2 : Int) - 52)) = 7505999378950826 := by
      apply roundHalfEven_near
      · rw [show ((-2 : Int) - 52) = -(54 : ℕ) by norm_num, zpow_neg, zpow_natCast]
        norm_num
      · rw [show ((-2 : Int) - 52) = -(54 : ℕ) by norm_num, zpow_neg, zpow_natCast]
        norm_num
    rw [ht, show ((-2 : Int) - 52) = -(54 : ℕ) by norm_num, zpow_neg, zpow_natCast]
    norm_num
  · rw [roundF64_of_binade _ 0 (by norm_num) (by norm_num) (by norm_num)]
    have ht : roundHalfEven ((1 / (3602879701896397 / 4503599627370496 : ℚ)) /
        2 ^ ((0 : Int) - 52)) = 5629499534213120 := by
      apply roundHalfEven_near
      · rw [show ((0 : Int) - 52) = -(52 : ℕ) by norm_num, zpow_neg, zpow_natCast]
        norm_num
      · rw [show ((0 : Int) - 52) = -(52 : ℕ) by norm_num, zpow_neg, zpow_natCast]
        norm_num
    rw [ht, show ((0 : Int) - 52) = -(52 : ℕ) by norm_num, zpow_neg, zpow_natCast]
    norm_num

/-- Rounding inside a binade to the integer significand within half a unit. -/
theorem roundF64_near {K : Type} [LinearOrderedField K] [FloorRing K] (x : K) (e n : Int)
    (he : -1022 ≤ e) (hlo : 2 ^ e ≤ x) (hhi : x < 2 ^ (e + 1))
    (h1 : ((n : K) - 1 / 2) * 2 ^ (e - 52) < x) (h2 : x < ((n : K) + 1 / 2) * 2 ^ (e - 52)) :
    roundF64 x = (n : K) * 2 ^ (e - 52) := by
  rw [roundF64_of_binade x e he hlo hhi, roundHalfEven_near _ n]
  · rw [lt_div_iff₀ (by positivity)]
    exact h1
  · rw [div_lt_iff₀ (by positivity)]
    exact h2

/-- The float64 run of `effortResult` on the duration `0.4`: the result is the float64
`0.8`. -/
theorem effortResultF64_tie_duration :
    effortResultF64 Real.sqrt (3602879701896397 / 9007199254740992) =
      3602879701896397 / 4503599627370496 := by
  have z46 : (2 : ℝ) ^ ((6 : Int) - 52) = 1 / 2 ^ 46 := by
    rw [show ((6 : Int) - 52) = -(46 : ℕ) by norm_num, zpow_neg, zpow_natCast, one_div]
  have z53 : (2 : ℝ) ^ ((-1 : Int) - 52) = 1 / 2 ^ 53 := by
    rw [show ((-1 : Int) - 52) = -(53 : ℕ) by norm_num, zpow_neg, zpow_natCast, one_div]
  have z54 : (2 : ℝ) ^ ((-2 : Int) - 52) = 1 / 2 ^ 54 := by
    rw [show ((-2 : Int) - 52) = -(54 : ℕ) by norm_num, zpow_neg, zpow_natCast, one_div]
  have h1 : time2wpmF64 (3602879701896397 / 9007199254740992 : ℝ) = 90 := by
    unfold time2wpmF64 wpmPer1secTrigramTime
    rw [roundF64_near _ 6 6333186975989760 (by norm_num) (by norm_num) (by norm_num)
      (by rw [z46]; norm_num) (by rw [z46]; norm_num), z46]
    norm_num
  have h2 : roundF64 ((90 : ℝ) / speedOfLight) = 5404319552844595 / 9007199254740992 := by
    unfold speedOfLight
    rw [roundF64_near _ (-1) 5404319552844595 (by norm_num) (by norm_num) (by norm_num)
      (by rw [z53]; norm_num) (by rw [z53]; norm_num), z53]
    norm_num
  have h3 : roundF64 ((5404319552844595 / 9007199254740992 : ℝ) *
      (5404319552844595 / 9007199254740992)) = 3242591731706757 / 9007199254740992 := by
    rw [roundF64_near _ (-2) 6485183463413514 (by norm_num) (by norm_num) (by norm_num)
      (by rw [z54]; norm_num) (by rw [z54]; norm_num), z54]
    norm_num
  have h4 : roundF64 ((1 : ℝ) - 3242591731706757 / 9007199254740992) =
      5764607523034235 / 9007199254740992 := by
    rw [roundF64_near _ (-1) 5764607523034235 (by norm_num) (by norm_num) (by norm_num)
      (by rw [z53]; norm_num) (by rw [z53]; norm_num), z53]
    norm_num
  have h5 : roundF64 (Real.sqrt (5764607523034235 / 9007199254740992)) =
      3602879701896397 / 4503599627370496 := by
    rw [roundF64_near _ (-1) 7205759403792794 (by norm_num)
      (by
        rw [show ((2 : ℝ) ^ (-1 : Int)) = 1 / 2 by norm_num]
        apply Real.le_sqrt_of_sq_le
        norm_num)
      (by
        rw [show ((2 : ℝ) ^ ((-1 : Int) + 1)) = 1 by norm_num]
        rw [Real.sqrt_lt' (by norm_num)]
        norm_num)
      (by
        rw [z53, Real.lt_sqrt (by norm_num)]
        norm_num)
      (by
        rw [z53, Real.sqrt_lt' (by norm_num)]
        norm_num), z53]
    norm_num
  unfold effortResultF64
  simp only
  rw [h1, h2, h3, if_neg (by norm_num), h4, h5]

/-! # Claims -/

/-- C1: after appending the values `xs` (in order) to a zero-valued `Window`,
`Average d` is `d` when nothing was appended, and otherwise the arithmetic mean of the
`min N 10` most recently appended samples, each at its stored millisecond precision
(`round(value*1000)/1000`); samples older than the last 10 do not occur in the result. -/
theorem C1_average_is_mean_of_recent {K : Type} [LinearOrderedField K] [FloorRing K]
    (xs : List K) (d : K) :
    (xs.foldl Window.Append Window.zero).Average d =
      if xs.length = 0 then d
      else ((xs.drop (xs.length - min xs.length Capacity)).map storedSample).sum
            / ((min xs.length Capacity : Nat) : K) := by
  have ht := Window.tracks_foldl (xs.map toMillis)
  rw [foldl_append_eq_appendMillis]
  set w := (xs.map toMillis).foldl Window.AppendMillis Window.zero with hw
  have hlen : w.Length = min xs.length Capacity := by simpa using ht.length
  unfold Window.Average
  by_cases h0 : xs.length = 0
  · have : w.Length = 0 := by rw [hlen, h0]; simp
    simp [this, h0]
  · have hne : w.Length ≠ 0 := by
      rw [hlen]; simp only [Capacity]; omega
    rw [if_neg hne, if_neg h0, foldl_add_div_eq, Window.sum_slots w _ ht,
      sum_map_storedSample, hlen]
    simp [List.map_drop]

/-- C2: `trigramsToTrain` is a rearrangement of one `(key, Score)` pair per
key of `s.Trigrams`, the score being that trigram's `Score(3 * AverageCharDuration)`; so its
trigram column lists every key exactly once; and it is ordered by non-increasing score. -/
theorem C2_trigramsToTrain_sorted_scores {K : Type} [LinearOrderedField K] (sqrt : K → K)
    (s : stats K) :
    (s.trigramsToTrain sqrt).Perm
        (s.Trigrams.entries.map fun e =>
          { Trigram := e.1, Score := e.2.Score sqrt (3 * s.AverageCharDuration) })
      ∧ ((s.trigramsToTrain sqrt).map TrigramScore.Trigram).Perm s.Trigrams.keys
      ∧ ((s.trigramsToTrain sqrt).map TrigramScore.Trigram).Nodup
      ∧ (s.trigramsToTrain sqrt).Pairwise (fun a b => a.Score ≥ b.Score) := by
  have hperm : (s.trigramsToTrain sqrt).Perm (s.scoredTrigrams sqrt) := sortSlice_perm _ _
  have hkeys : ((s.trigramsToTrain sqrt).map TrigramScore.Trigram).Perm s.Trigrams.keys := by
    rw [← scoredTrigrams_keys sqrt s]
    exact hperm.map _
  refine ⟨?_, hkeys, hkeys.nodup_iff.mpr s.Trigrams.keys_nodup, scoreOrder_sorted _⟩
  simpa [stats.scoredTrigrams, mul_comm] using hperm

/-- C3: for a text of `n ≥ 5` characters with a timeline of the same length,
`addSession` changes the trigram map as follows. For a trigram `t`, let `idxs` be the
indices `0 ≤ i ≤ n-4`, in increasing order, with `text[i:i+3] = t`. If there is none,
the entry of `t` is left as it was (present or absent). Otherwise the entry of `t` has
`Count` grown by the number of such indices when `training` is false and unchanged when
it is true, and its `Duration` window has received, in that order, one `Append` of
`timeline[i+3] - timeline[i]` per index.
Scenario: on freshly initialised statistics, the text "abcabc" with a strictly increasing
timeline in a non-training session yields exactly the keys "abc", "bca", "cab", each with
`Count` 1 and a window of length 1 whose one sample is the span
`timeline[i+3] - timeline[i]` as `Append` stores it, in whole milliseconds
(`round(1000 * span)`). The span itself is positive; the stored sample is never negative,
and it is positive exactly when the span is at least half a millisecond. -/
theorem C3_addSession_trigrams {K : Type} [LinearOrderedField K] [FloorRing K] :
    (∀ (s : stats K) (text : List Char) (timeline : List K) (training : Bool),
      5 ≤ text.length → timeline.length = text.length → ∀ t : String,
      let idxs := (List.range (text.length - 3)).filter (fun i => trigramAt text i = t)
      let old := (s.Trigrams.lookup t).getD trigramStat.zero
      (∀ i, i ∈ idxs ↔ (i ≤ text.length - 4 ∧ trigramAt text i = t)) ∧
      idxs.Sorted (· < ·) ∧
      (s.addSession text timeline training).Trigrams.lookup t =
        if idxs = [] then s.Trigrams.lookup t
        else some
          { Count := if training then old.Count else old.Count + idxs.length
            Duration :=
              idxs.foldl (fun w i => w.Append (timeline.getD (i + 3) 0 - timeline.getD i 0))
                old.Duration })
    ∧ (∀ timeline : List K, timeline.length = 6 → timeline.Sorted (· < ·) →
        ((stats.fresh : stats K).addSession "abcabc".data timeline false).Trigrams.keys.Perm
            ["abc", "bca", "cab"] ∧
        (∀ i, i < 3 →
          0 < timeline.getD (i + 3) 0 - timeline.getD i 0 ∧
          ((stats.fresh : stats K).addSession "abcabc".data timeline false).Trigrams.lookup
              (trigramAt "abcabc".data i) =
            some { Count := 1
                   Duration :=
                    { Length := 1
                      Index := 1
                      Values := toMillis (timeline.getD (i + 3) 0 - timeline.getD i 0) ::
                        List.replicate 9 0 } } ∧
          0 ≤ toMillis (timeline.getD (i + 3) 0 - timeline.getD i 0) ∧
          (0 < toMillis (timeline.getD (i + 3) 0 - timeline.getD i 0) ↔
            1 / 2000 ≤ timeline.getD (i + 3) 0 - timeline.getD i 0))) := by
  refine ⟨fun s text timeline training hn hlen t =>
    addSession_lookup s text timeline training hn hlen t, ?_⟩
  intro timeline hlen hinc
  obtain ⟨hkeys, hent⟩ := abcabc_session timeline hlen hinc
  refine ⟨hkeys, fun i hi => ?_⟩
  obtain ⟨hpos, hlook⟩ := hent i hi
  refine ⟨hpos, ?_, ?_, toMillis_pos_iff _ hpos.le⟩
  · rw [hlook, zero_append]
  · unfold toMillis mathRound
    rw [if_pos (by positivity)]
    exact Int.floor_nonneg.2 (by positivity)

/-- C3 at a concrete session over `ℚ`: "abcabc" typed at seconds 1 to 6. -/
theorem C3_addSession_trigrams_witness :
    5 ≤ "abcabc".data.length ∧ ([1, 2, 3, 4, 5, 6] : List ℚ).length = "abcabc".data.length ∧
    ((stats.fresh : stats ℚ).addSession "abcabc".data [1, 2, 3, 4, 5, 6] false).Trigrams.lookup
        "bca" =
      some { Count := 1
             Duration := { Length := 1, Index := 1, Values := [3000, 0, 0, 0, 0, 0, 0, 0, 0, 0] } } := by
  have h := ((C3_addSession_trigrams (K := ℚ)).1 stats.fresh "abcabc".data [1, 2, 3, 4, 5, 6]
    false (by decide) (by decide) "bca").2.2
  have hidx : (List.range ("abcabc".data.length - 3)).filter
      (fun i => trigramAt "abcabc".data i = "bca") = [1] := by decide
  rw [hidx] at h
  refine ⟨by decide, by decide, ?_⟩
  rw [h]
  norm_num [stats.fresh, trigramStat.zero, Window.Append, Window.AppendMillis, Window.zero,
    toMillis, mathRound, Capacity]
  rfl

/-- C3, the scenario as the spec words it ("one positive duration sample") fails: "abcabc"
typed with a strictly increasing timeline whose keys are 0.1 ms apart. Every span
`timeline[i+3] - timeline[i]` is 0.3 ms, which is positive, but `Append` stores
`round(1000 * 0.0003) = 0` milliseconds: the one sample in each window is zero. -/
theorem C3_counterexample :
    ([0, 1 / 10000, 2 / 10000, 3 / 10000, 4 / 10000, 5 / 10000] : List ℚ).Sorted (· < ·) ∧
    (∀ t ∈ ["abc", "bca", "cab"],
      ((stats.fresh : stats ℚ).addSession "abcabc".data
          [0, 1 / 10000, 2 / 10000, 3 / 10000, 4 / 10000, 5 / 10000] false).Trigrams.lookup t =
        some { Count := 1
               Duration :=
                { Length := 1, Index := 1, Values := [0, 0, 0, 0, 0, 0, 0, 0, 0, 0] } }) ∧
    ¬ ∃ t st, ((stats.fresh : stats ℚ).addSession "abcabc".data
          [0, 1 / 10000, 2 / 10000, 3 / 10000, 4 / 10000, 5 / 10000] false).Trigrams.lookup t =
        some st ∧ ∃ v ∈ st.Duration.Values, 0 < v := by
  have n1 : ("abc" : String) ≠ "bca" := by decide
  have n2 : ("abc" : String) ≠ "cab" := by decide
  have n3 : ("bca" : String) ≠ "cab" := by decide
  have hm : toMillis (3 / 10000 : ℚ) = 0 := by
    norm_num [toMillis, mathRound]
  have hw : ∀ x : ℚ, x = 3 / 10000 → (Window.zero.Append x) =
      { Length := 1, Index := 1, Values := [0, 0, 0, 0, 0, 0, 0, 0, 0, 0] } := by
    intro x hx
    rw [zero_append, hx, hm]
    rfl
  have ha := hw (3 / 10000 - 0) (by norm_num)
  have hb := hw (4 / 10000 - 1 / 10000) (by norm_num)
  have hc := hw (5 / 10000 - 2 / 10000) (by norm_num)
  rw [abcabc_trigrams, ha, hb, hc]
  refine ⟨by norm_num [List.Sorted], ?_, ?_⟩
  · intro t ht
    simp only [List.mem_cons, List.mem_singleton, List.not_mem_nil, or_false] at ht
    rcases ht with rfl | rfl | rfl
    · rw [AList.lookup_insert_ne n2, AList.lookup_insert_ne n1, AList.lookup_insert]
    · rw [AList.lookup_insert_ne n3, AList.lookup_insert]
    · rw [AList.lookup_insert]
  · rintro ⟨t, st, hst, v, hv, hpos⟩
    by_cases h3 : t = "cab"
    · subst h3
      rw [AList.lookup_insert] at hst
      cases hst
      simp at hv
      omega
    · rw [AList.lookup_insert_ne h3] at hst
      by_cases h2 : t = "bca"
      · subst h2
        rw [AList.lookup_insert] at hst
        cases hst
        simp at hv
        omega
      · rw [AList.lookup_insert_ne h2] at hst
        by_cases h1 : t = "abc"
        · subst h1
          rw [AList.lookup_insert] at hst
          cases hst
          simp at hv
          omega
        · rw [AList.lookup_insert_ne h1] at hst
          simp at hst

/-- C4: `Score(a)` is `Count * effortResult(D)`, where `D` is the window's own mean
duration when the window holds at least one sample and the fallback `a` when it holds
none; and `trigramsToTrain` scores every trigram with the fallback
`3 * (TotalSessionsDuration / TotalCharsTyped)`, three times the global average character
duration. -/
theorem C4_score_uses_window_or_fallback {K : Type} [LinearOrderedField K] (sqrt : K → K) :
    (∀ (ts : trigramStat) (a : K),
      ts.Score sqrt a =
        (ts.Count : K) * effortResult sqrt (if ts.Duration.Length = 0 then a else ts.Duration.mean))
    ∧ (∀ s : stats K,
        (s.trigramsToTrain sqrt).Perm
          (s.Trigrams.entries.map fun e =>
            { Trigram := e.1
              Score := (e.2.Count : K) * effortResult sqrt
                (if e.2.Duration.Length = 0
                  then 3 * (s.TotalSessionsDuration / (s.TotalCharsTyped : K))
                  else e.2.Duration.mean) })) := by
  have h1 : ∀ (ts : trigramStat) (a : K),
      ts.Score sqrt a =
        (ts.Count : K) * effortResult sqrt (if ts.Duration.Length = 0 then a else ts.Duration.mean) := by
    intro ts a
    unfold trigramStat.Score
    simp only [Window.average_eq]
  refine ⟨h1, fun s => ?_⟩
  have hperm : (s.trigramsToTrain sqrt).Perm (s.scoredTrigrams sqrt) :=
    List.perm_insertionSort _ _
  refine hperm.trans (List.Perm.of_eq ?_)
  unfold stats.scoredTrigrams stats.AverageCharDuration
  refine List.map_congr_left fun e _ => ?_
  rw [h1, mul_comm _ (3 : K)]

/-- C5 (amended): for every list `vertices` containing `start` and every list of edges
between those vertices with strictly positive weights, the predecessor map returned by
`bellmanFord`, run with float64 additions, satisfies: for each vertex `v ≠ start` that
some path from `start` reaches with a weight that float64 holds (the sum along the path
stays below `math.MaxFloat64`), following predecessors from `v` leads back to `start`
along edges of the graph, and the weight of that path, added up in float64 edge by edge
from `start`, is minimal among the weights so added up of all paths from `start` to `v`;
and every vertex not reachable from `start` has the empty string. The exact weight of the
path can exceed the minimum by rounding. In exact arithmetic, the same holds with the
exact weights: there the path is a shortest one. -/
theorem C5_bellmanFord_shortest_paths {K : Type} [LinearOrderedField K] [FloorRing K]
    (start : String) (vertices : List String) (edges : List (edge K))
    (hstart : start ∈ vertices)
    (hedges : ∀ e ∈ edges, e.v1 ∈ vertices ∧ e.v2 ∈ vertices ∧ 0 < e.w) :
    (∀ v, v ≠ start → (∃ es, IsWalk edges start es v ∧ weightF64 es < MaxFloat64) →
      ∃ es, IsWalk edges start es v ∧
        (∀ e ∈ es, bellmanFordF64 start vertices edges e.v2 = e.v1) ∧
        ∀ es', IsWalk edges start es' v → weightF64 es ≤ weightF64 es')
    ∧ (∀ v, (¬ ∃ es, IsWalk edges start es v) → bellmanFordF64 start vertices edges v = "")
    ∧ (∀ v, v ≠ start → (∃ es, IsWalk edges start es v ∧ weight es < MaxFloat64) →
      ∃ es, IsWalk edges start es v ∧
        (∀ e ∈ es, bellmanFord start vertices edges e.v2 = e.v1) ∧
        ∀ es', IsWalk edges start es' v → weight es ≤ weight es') := by
  have hw : ∀ e ∈ edges, 0 < e.w := fun e he => (hedges e he).2.2
  have hV : ∀ e ∈ edges, e.v1 ∈ vertices ∧ e.v2 ∈ vertices :=
    fun e he => ⟨(hedges e he).1, (hedges e he).2.1⟩
  have hm := settledF64_bellmanFordMaps start vertices edges hw hV
  refine ⟨?_, ?_, ?_⟩
  · rintro v hv ⟨es0, hes0, hlt0⟩
    have hvmem : v ∈ vertices :=
      walk_vertices_mem edges vertices hV start v es0 hstart hes0 v
        (isWalk_end_mem edges es0 _ _ hes0)
    have hd0 := initMaps_distance_of_ne (K := K) start vertices v hvmem hv
    have hle := bellmanFordMapsF64_le_walk start vertices edges hw hV hstart
    have hdrop : (bellmanFordMapsF64 start vertices edges).distance v
        < (initMaps start vertices).distance v := by
      rw [hd0]
      exact lt_of_le_of_lt (hle es0 v hes0) hlt0
    obtain ⟨es, hes, hp, hwt⟩ := settledF64_chain start vertices edges hw hV _ hm v hdrop
    exact ⟨es, hes, hp, fun es' hes' => le_trans hwt (hle es' v hes')⟩
  · intro v hun
    apply hm.untouched v
    rcases lt_or_eq_of_le (hm.le_init v) with hlt | heq
    · obtain ⟨es, hes, -⟩ := hm.realised v hlt
      exact absurd ⟨es, hes⟩ hun
    · exact heq
  · rintro v hv ⟨es0, hes0, hlt0⟩
    have hx := settled_bellmanFordMaps start vertices edges hw hV
    have hvmem : v ∈ vertices :=
      walk_vertices_mem edges vertices hV start v es0 hstart hes0 v
        (isWalk_end_mem edges es0 _ _ hes0)
    have hd0 := initMaps_distance_of_ne (K := K) start vertices v hvmem hv
    have hle := bellmanFordMaps_le_walk start vertices edges hw hV hstart
    have hdrop : (bellmanFordMaps start vertices edges).distance v
        < (initMaps start vertices).distance v := by
      rw [hd0]
      exact lt_of_le_of_lt (hle es0 v hes0) hlt0
    obtain ⟨es, hes, hp, hwt⟩ := settled_chain start vertices edges hw hV _ hx _ v
      (Nat.lt_succ_self _) hdrop
    exact ⟨es, hes, hp, fun es' hes' => le_trans hwt (hle es' v hes')⟩

/-- C5 at a concrete graph over `ℚ`: the vertex "c" of `detourEdges`, reached from "a". -/
theorem C5_bellmanFord_shortest_paths_witness :
    ∃ es : List (edge ℚ),
      IsWalk detourEdges "a" es "c" ∧
      (∀ e ∈ es, bellmanFordF64 "a" ["a", "b", "c"] detourEdges e.v2 = e.v1) ∧
      ∀ es', IsWalk detourEdges "a" es' "c" → weightF64 es ≤ weightF64 es' :=
  (C5_bellmanFord_shortest_paths (K := ℚ) "a" ["a", "b", "c"] detourEdges (by decide)
    (by
      intro e he
      simp only [detourEdges, List.mem_cons, List.mem_singleton, List.not_mem_nil,
        or_false] at he
      rcases he with rfl | rfl | rfl <;> refine ⟨by decide, by decide, by norm_num⟩)).1 "c"
    (by decide)
    ⟨[⟨"a", "c", 5⟩], ⟨by simp [detourEdges], rfl, rfl⟩, by
      have hM : (5 : ℚ) < MaxFloat64 := by
        unfold MaxFloat64
        have : (5 : ℕ) < 2 ^ 1024 - 2 ^ 971 := by norm_num
        exact_mod_cast this
      have h5 : roundF64 (5 : ℚ) = 5 := by
        have hr := roundF64_of_repr (K := ℚ) 5629499534213120 2 (by norm_num) (by norm_num)
          (by norm_num)
        have e : ((5629499534213120 : Int) : ℚ) * 2 ^ ((2 : Int) - 52) = 5 := by
          rw [show ((2 : Int) - 52) = -(50 : ℕ) by norm_num, zpow_neg, zpow_natCast]
          norm_num
        rw [e] at hr
        exact hr
      show roundF64 ((0 : ℚ) + 5) < MaxFloat64
      rw [zero_add, h5]
      exact hM⟩

/-- C5 as stated fails in float64. `tieEdges` is the graph that `weakestSequence` makes
of the trigrams "aba", "cab", "aca", "bac" with score `3 * 0.8` and "bab" with score `0.8`,
where `0.8` is `effortResult(0.4)`: the float64 weights `1 / Score` are
`0.41666666666666663` and `1.25`, and the start is "ba". The path from "ba" to "ab"
through "ac" and "ca" weighs `3 * 0.41666666666666663 = 1.25 - 2^-53`, less than the direct
edge of weight `1.25`. Added up in float64 the path also gives `1.25`, the strict test `<`
does not fire, and `bellmanFord` leaves "ba" as the predecessor of "ab": every path that
follows the predecessors into "ab" ends with the direct edge and weighs at least `1.25`, so
none is of minimal weight. -/
theorem C5_counterexample :
    effortResultF64 Real.sqrt (3602879701896397 / 9007199254740992) =
      3602879701896397 / 4503599627370496 ∧
    roundF64 (1 / roundF64 (3 * (3602879701896397 / 4503599627370496 : ℚ))) =
      3752999689475413 / 9007199254740992 ∧
    roundF64 (1 / (3602879701896397 / 4503599627370496 : ℚ)) = 5 / 4 ∧
    (∀ e ∈ tieEdges, e.v1 ∈ ["ab", "ba", "ca", "ac"] ∧ e.v2 ∈ ["ab", "ba", "ca", "ac"] ∧
      0 < e.w ∧ roundF64 e.w = e.w) ∧
    IsWalk tieEdges "ba" tieDetour "ab" ∧
    weight tieDetour = 5 / 4 - 1 / 2 ^ 53 ∧
    weightF64 tieDetour = 5 / 4 ∧
    bellmanFordF64 "ba" ["ab", "ba", "ca", "ac"] tieEdges "ab" = "ba" ∧
    ¬ ∃ es, IsWalk tieEdges "ba" es "ab" ∧
        (∀ e ∈ es, bellmanFordF64 "ba" ["ab", "ba", "ca", "ac"] tieEdges e.v2 = e.v1) ∧
        ∀ es', IsWalk tieEdges "ba" es' "ab" → weight es ≤ weight es' := by
  obtain ⟨rw3, r54, r2, r3⟩ := roundF64_tie_weight
  have hpred := bellmanFordF64_tieEdges
  have hpos : ∀ e ∈ tieEdges, 0 < e.w := by
    intro e he
    simp only [tieEdges, List.mem_cons, List.mem_singleton, List.not_mem_nil, or_false] at he
    rcases he with rfl | rfl | rfl | rfl | rfl <;> norm_num
  have hdet : IsWalk tieEdges "ba" tieDetour "ab" := by
    simp [tieDetour, tieEdges, IsWalk]
  have hwdet : weight tieDetour = 5 / 4 - 1 / 2 ^ 53 := by
    norm_num [weight, tieDetour]
  refine ⟨effortResultF64_tie_duration, tieEdges_weights.1, tieEdges_weights.2, ?_, hdet,
    hwdet, ?_, hpred, ?_⟩
  · intro e he
    simp only [tieEdges, List.mem_cons, List.mem_singleton, List.not_mem_nil, or_false] at he
    rcases he with rfl | rfl | rfl | rfl | rfl
    · exact ⟨by decide, by decide, by norm_num, rw3⟩
    · exact ⟨by decide, by decide, by norm_num, rw3⟩
    · exact ⟨by decide, by decide, by norm_num, rw3⟩
    · exact ⟨by decide, by decide, by norm_num, rw3⟩
    · exact ⟨by decide, by decide, by norm_num, r54⟩
  · show roundF64 (roundF64 (roundF64 ((0 : ℚ) + 3752999689475413 / 9007199254740992) +
      3752999689475413 / 9007199254740992) + 3752999689475413 / 9007199254740992) = 5 / 4
    rw [zero_add, rw3, r2, r3]
  · rintro ⟨es, hes, hp, hmin⟩
    have h1 := hmin tieDetour hdet
    rw [hwdet] at h1
    rcases List.eq_nil_or_concat es with hnil | ⟨es', e, hcat⟩
    · subst hnil
      exact absurd (show ("ba" : String) = "ab" from hes) (by decide)
    · rw [List.concat_eq_append] at hcat
      subst hcat
      rw [isWalk_append_singleton] at hes
      obtain ⟨hes', hmem, he2⟩ := hes
      have hpe := hp e (by simp)
      rw [he2, hpred] at hpe
      have h0 := weight_nonneg_of_walk tieEdges hpos _ _ es' hes'
      rw [weight_append_singleton] at h1
      simp only [tieEdges, List.mem_cons, List.mem_singleton, List.not_mem_nil,
        or_false] at hmem
      rcases hmem with rfl | rfl | rfl | rfl | rfl
      · exact absurd he2 (by decide)
      · exact absurd hpe (by decide)
      · exact absurd he2 (by decide)
      · exact absurd he2 (by decide)
      · norm_num at h1
        linarith

/-- C6: for a non-empty input `top :: rest` whose trigrams each have exactly 3 characters
(the edge weights `1/Score` of positive scores are positive in exact arithmetic) and every
`length ≥ len(trigrams) + 3`, `weakestSequence` returns a string that contains the trigram
`top` as a contiguous substring, whether the loop comes from a traced path or from the
fallback. The tracing loop ends within `len(trigrams) + 1` iterations, so any larger `fuel`
gives the result. -/
theorem C6_output_contains_top {K : Type} [LinearOrderedField K] (fuel : Nat)
    (top : TrigramScore K) (rest : List (TrigramScore K)) (length : Nat)
    (h3 : ∀ t ∈ top :: rest, t.Trigram.length = 3)
    (hfuel : (top :: rest).length < fuel)
    (hlen : (top :: rest).length + 3 ≤ length) :
    ∃ out : String, weakestSequence fuel (top :: rest) length = some out ∧
      top.Trigram.data <:+: out.data := by
  obtain ⟨x, y, z, hxyz⟩ := exists_three top.Trigram (h3 top (List.mem_cons_self _ _))
  have hht := headTail_of_three top.Trigram x y z hxyz
  have hl1 : 1 ≤ (top :: rest).length := by simp
  obtain ⟨path, hcase, hws⟩ := weakestSequence_eq fuel top rest length hfuel
  refine ⟨_, hws, ?_⟩
  rcases hcase with h0 | ⟨hchain, hplen⟩
  · -- fallback: the loop is `top`
    rw [h0]
    simp only [List.length_nil, if_true, hxyz]
    exact wrap_infix _ _ 0 x y z (by omega) rfl rfl rfl
  · by_cases heq : (headTail top.Trigram).1 = (headTail top.Trigram).2
    · -- equal bigrams: the loop is a single character
      rw [heq] at hchain
      have hpath := predChain_start _ _ _ hchain
      rw [hht] at heq
      have hdata : [x, y] = [y, z] := congrArg String.data heq
      simp only [List.cons.injEq, and_true] at hdata
      obtain ⟨hxy, hyz⟩ := hdata
      subst hxy hyz
      have hloop : (if path.length = 0 then top.Trigram.data
          else path.reverse.map firstRune) = [x] := by
        rw [hpath, hht]
        simp [firstRune]
      rw [hloop, hxyz]
      exact wrap_infix _ _ 0 x x x (by omega) (by simp) (by simp) (by simp)
    · -- a traced path from the head bigram back to the tail bigram
      obtain ⟨c', u, hc, hu, hune⟩ := predChain_tail _ _ _ _ hchain heq
      obtain ⟨c'', hc''⟩ := predChain_head _ _ _ _ hchain
      obtain ⟨e, he, he1, he2, _⟩ := predEdge_bellmanFordMaps (headTail top.Trigram).2
        (buildGraph (top :: rest)).2 (buildGraph (top :: rest)).1
        (buildGraph_weight_pos (top :: rest)) u hune
      obtain ⟨t, ht, _, rfl⟩ := buildGraph_edge_mem _ _ he
      obtain ⟨p, q, r, hpqr⟩ := exists_three t.Trigram (h3 t ht)
      have hu' : bellmanFord (headTail top.Trigram).2 (buildGraph (top :: rest)).2
          (buildGraph (top :: rest)).1 u = (headTail top.Trigram).2 := hu
      have he1' : (headTail t.Trigram).1 = (headTail top.Trigram).2 := by
        have : (trigramEdge t).v1 = (headTail t.Trigram).1 := rfl
        rw [← this, he1]; exact hu'
      have he2' : (headTail t.Trigram).2 = u := he2
      rw [headTail_of_three t.Trigram p q r hpqr] at he1' he2'
      rw [hht] at he1'
      have hdata : [p, q] = [y, z] := congrArg String.data he1'
      simp only [List.cons.injEq, and_true] at hdata
      obtain ⟨rfl, rfl⟩ := hdata
      have hfu : firstRune u = q := by rw [← he2']; rfl
      have hfs : firstRune (headTail top.Trigram).2 = p := by rw [hht]; rfl
      have hff : firstRune (headTail top.Trigram).1 = x := by rw [hht]; rfl
      have hpne : ¬ path.length = 0 := by rw [hc]; simp
      rw [if_neg hpne, hxyz]
      set loop := path.reverse.map firstRune with hloop
      have hlen_loop : loop.length = path.length := by simp [hloop]
      have hfront : loop = p :: q :: (c'.reverse.map firstRune) := by
        rw [hloop, hc]; simp [hfu, hfs]
      have hback : loop = (c''.reverse.map firstRune) ++ [x] := by
        rw [hloop, hc'']; simp [hff]
      have hn2 : 2 ≤ loop.length := by rw [hfront]; simp
      have hk : (loop.length - 1) % loop.length = loop.length - 1 :=
        Nat.mod_eq_of_lt (by omega)
      have hk1 : (loop.length - 1 + 1) % loop.length = 0 := by
        rw [Nat.sub_add_cancel (by omega)]; exact Nat.mod_self _
      have hk2 : (loop.length - 1 + 2) % loop.length = 1 := by
        have : loop.length - 1 + 2 = 1 + loop.length := by omega
        rw [this, Nat.add_mod_right]; exact Nat.mod_eq_of_lt (by omega)
      refine wrap_infix loop length (loop.length - 1) x p q (by omega) ?_ ?_ ?_
      · rw [hk]
        have hc''len : (c''.reverse.map firstRune).length = loop.length - 1 := by
          have := congrArg List.length hback
          simp only [List.length_append, List.length_singleton] at this
          omega
        rw [← hc''len]
        conv_lhs => rw [hback]
        simp
      · rw [hk1, hfront]; simp
      · rw [hk2, hfront]; simp

/-- C6 at a concrete input over `ℚ`: "jkl" is the only trigram with a positive score. -/
theorem C6_output_contains_top_witness :
    ∃ out : String,
      weakestSequence 30
        ([⟨"jkl", 19⟩, ⟨"abc", 0⟩, ⟨"bcd", 0⟩, ⟨"klm", 0⟩] : List (TrigramScore ℚ)) 30
        = some out ∧ "jkl".data <:+: out.data :=
  C6_output_contains_top 30 ⟨"jkl", 19⟩ [⟨"abc", 0⟩, ⟨"bcd", 0⟩, ⟨"klm", 0⟩] 30
    (by decide) (by decide) (by decide)

/-- C7: for a non-empty input `top :: rest` of 3-character trigrams and every `length`: if
the head bigram of `top` equals its tail bigram, or the head bigram cannot be reached from
the tail bigram in the graph of the positive-score trigrams, or no trigram of `rest` has a
positive score, then `weakestSequence` returns the 3 characters of `top` repeated
cyclically: `length` characters with `output[i] = top[i mod 3]`. The tracing loop ends
within `len(trigrams) + 1` iterations, so any larger `fuel` gives the result. -/
theorem C7_fallback_repeats_top {K : Type} [LinearOrderedField K] (fuel : Nat)
    (top : TrigramScore K) (rest : List (TrigramScore K)) (length : Nat)
    (h3 : ∀ t ∈ top :: rest, t.Trigram.length = 3)
    (hfuel : (top :: rest).length < fuel)
    (hcond : (headTail top.Trigram).1 = (headTail top.Trigram).2
      ∨ (¬ ∃ es, IsWalk (buildGraph (top :: rest)).1 (headTail top.Trigram).2 es
            (headTail top.Trigram).1)
      ∨ ∀ t ∈ rest, t.Score ≤ 0) :
    ∃ out : String, weakestSequence fuel (top :: rest) length = some out ∧
      out.length = length ∧ ∀ i, i < length → out.data[i]? = top.Trigram.data[i % 3]? := by
  obtain ⟨x, y, z, hxyz⟩ := exists_three top.Trigram (h3 top (List.mem_cons_self _ _))
  have hht := headTail_of_three top.Trigram x y z hxyz
  -- the fallback output has the claimed shape
  have hfb : ∀ i, i < length →
      (wrap top.Trigram.data length).data[i]? = top.Trigram.data[i % 3]? := by
    intro i hi
    rw [wrap_getElem? _ _ (by simp [hxyz]) i hi, hxyz]
    rfl
  -- equal bigrams: the loop is one character, which is each character of `top`
  have hsame : (headTail top.Trigram).1 = (headTail top.Trigram).2 →
      ∃ out : String, weakestSequence fuel (top :: rest) length = some out ∧
        out.length = length ∧ ∀ i, i < length → out.data[i]? = top.Trigram.data[i % 3]? := by
    intro heq
    obtain ⟨path, hcase, hws⟩ := weakestSequence_eq fuel top rest length hfuel
    rcases hcase with h0 | ⟨hchain, _⟩
    · refine ⟨_, hws, wrap_length _ _, ?_⟩
      rw [h0]
      exact hfb
    · rw [heq] at hchain
      have hpath := predChain_start _ _ _ hchain
      rw [hht] at heq
      have hdata : [x, y] = [y, z] := congrArg String.data heq
      simp only [List.cons.injEq, and_true] at hdata
      obtain ⟨hxy, hyz⟩ := hdata
      subst hxy hyz
      have hloop : (if path.length = 0 then top.Trigram.data
          else path.reverse.map firstRune) = [x] := by
        rw [hpath, hht]
        simp [firstRune]
      rw [hloop] at hws
      refine ⟨_, hws, wrap_length _ _, ?_⟩
      intro i hi
      rw [wrap_getElem? _ _ (by simp) i hi, hxyz]
      have h3lt : i % 3 < 3 := Nat.mod_lt _ (by decide)
      simp only [List.length_singleton, Nat.mod_one]
      interval_cases (i % 3) <;> rfl
  rcases hcond with heq | hun | hrest
  · exact hsame heq
  · exact ⟨_, weakestSequence_fallback fuel top rest length hfuel hun, wrap_length _ _, hfb⟩
  · by_cases heq : (headTail top.Trigram).1 = (headTail top.Trigram).2
    · exact hsame heq
    · refine ⟨_, weakestSequence_fallback fuel top rest length hfuel ?_, wrap_length _ _, hfb⟩
      rintro ⟨es, hes⟩
      match es, hes with
      | [], hes => exact heq hes.symm
      | e :: es, hes =>
        obtain ⟨he, hv1, _⟩ := hes
        obtain ⟨t, ht, hpos, rfl⟩ := buildGraph_edge_mem _ _ he
        rcases List.mem_cons.mp ht with rfl | ht
        · exact heq hv1
        · exact absurd hpos (not_lt.mpr (hrest t ht))

/-- C7 at a concrete input over `ℚ`: only the top trigram "jkl" has a positive score. -/
theorem C7_fallback_repeats_top_witness :
    ∃ out : String,
      weakestSequence 3 ([⟨"jkl", 19⟩, ⟨"abc", 0⟩] : List (TrigramScore ℚ)) 7 = some out ∧
      out.length = 7 ∧ ∀ i, i < 7 → out.data[i]? = "jkl".data[i % 3]? :=
  C7_fallback_repeats_top 3 ⟨"jkl", 19⟩ [⟨"abc", 0⟩] 7 (by decide) (by decide)
    (Or.inr (Or.inr (by simp)))

/-- C8: for a non-empty `loop`, `wrap loop l` has exactly `l` characters and its `i`-th
character is `loop[i mod len(loop)]` for every `i < l`; and for a non-empty input of
3-character trigrams, `weakestSequence` ends (within `len(trigrams) + 1` iterations of its
tracing loop) and returns `wrap loop length` for a non-empty `loop`, a string of exactly
`length` characters. -/
theorem C8_wrap_cyclic_and_length {K : Type} [LinearOrderedField K] :
    (∀ (loop : List Char) (l : Nat), loop ≠ [] →
      (wrap loop l).length = l ∧
      ∀ i, i < l → (wrap loop l).data[i]? = loop[i % loop.length]?)
    ∧ (∀ (trigrams : List (TrigramScore K)) (length fuel : Nat), trigrams ≠ [] →
        (∀ t ∈ trigrams, t.Trigram.length = 3) → trigrams.length < fuel →
        ∃ loop : List Char, loop ≠ [] ∧
          weakestSequence fuel trigrams length = some (wrap loop length) ∧
          (wrap loop length).length = length) := by
  refine ⟨fun loop l hloop => ⟨wrap_length loop l, fun i hi => wrap_getElem? loop l hloop i hi⟩,
    ?_⟩
  intro trigrams length fuel hne h3 hfuel
  match trigrams, hne with
  | top :: rest, _ =>
    obtain ⟨path, _, heq⟩ := weakestSequence_eq fuel top rest length hfuel
    refine ⟨_, ?_, heq, wrap_length _ _⟩
    have htop : top.Trigram.data.length = 3 := h3 top (List.mem_cons_self _ _)
    by_cases hp : path.length = 0
    · rw [if_pos hp]
      intro h
      rw [h] at htop
      simp at htop
    · rw [if_neg hp]
      intro h
      apply hp
      simpa using congrArg List.length h

/-- C8 at a concrete input over `ℚ`: the four trigrams of the cycle "abcd". -/
theorem C8_wrap_cyclic_and_length_witness :
    (wrap ['x', 'y'] 5).length = 5 ∧
    (∃ loop : List Char, loop ≠ [] ∧
      weakestSequence 5
        ([⟨"abc", 5⟩, ⟨"bcd", 5⟩, ⟨"cda", 5⟩, ⟨"dab", 5⟩] : List (TrigramScore ℚ)) 9
        = some (wrap loop 9) ∧ (wrap loop 9).length = 9) :=
  ⟨((C8_wrap_cyclic_and_length (K := ℚ)).1 ['x', 'y'] 5 (by decide)).1,
    (C8_wrap_cyclic_and_length (K := ℚ)).2 _ 9 5 (by simp) (by decide) (by decide)⟩

/-- C9 (amended): for every input of at least 10 three-character trigrams with
non-negative scores, every value `seed < 10` of `rand.Intn(NWeakest)`, every sequence
`choices` of values of `rand.Float64()` (each in `[0, 1)`), every order in which the
entries of a map are visited, and every requested `length`, `markovSequence` ends (within
`length` iterations of its sampling loop) and returns a string of exactly
`max(length, 3)` characters: exactly `length` characters when `length ≥ 3`, and the 3 seed
characters when `length < 3`. -/
theorem C9_markovSequence_length {K : Type} [LinearOrderedField K] (fuel seed : Nat)
    (order : Nat → List (Char × K) → List (Char × K)) (choices : Nat → K)
    (trigrams : List (TrigramScore K)) (length : Nat)
    (hten : NWeakest ≤ trigrams.length)
    (h3 : ∀ t ∈ trigrams, t.Trigram.length = 3)
    (hscore : ∀ t ∈ trigrams, 0 ≤ t.Score)
    (hseed : seed < NWeakest)
    (hchoice : ∀ n, 0 ≤ choices n ∧ choices n < 1)
    (horder : ∀ n l, (order n l).Perm l)
    (hfuel : length ≤ fuel) :
    ∃ out : String, markovSequence fuel seed order choices trigrams length = some out ∧
      out.length = max length 3 ∧ (3 ≤ length → out.length = length) := by
  have hidx : seed < trigrams.length := lt_of_lt_of_le hseed hten
  have hts : trigrams[seed]? = some trigrams[seed] := List.getElem?_eq_getElem hidx
  have hlen3 : trigrams[seed].Trigram.data.length = 3 :=
    h3 _ (List.getElem_mem hidx)
  obtain ⟨out, hout, hlen⟩ := markovLoop_spec (normalizeChain (buildChain trigrams)) order
    choices length (chainLinks_normalized trigrams hscore) horder (fun n => (hchoice n).2)
    fuel 0 trigrams[seed].Trigram.data (by omega)
  refine ⟨String.mk out, ?_, ?_, ?_⟩
  · unfold markovSequence
    simp only [hts, hout]
  · show out.length = max length 3
    rw [hlen, hlen3, max_comm]
  · intro h
    show out.length = length
    rw [hlen, hlen3]
    omega

/-- C9 at a concrete input over `ℚ`: ten trigrams, 20 characters requested. -/
theorem C9_markovSequence_length_witness :
    ∃ out : String,
      markovSequence 20 0 (fun _ l => l) (fun _ => (1 / 2 : ℚ)) tenTrigrams 20 = some out ∧
      out.length = max 20 3 ∧ (3 ≤ 20 → out.length = 20) :=
  C9_markovSequence_length 20 0 (fun _ l => l) (fun _ => (1 / 2 : ℚ)) tenTrigrams 20
    (by decide) (by decide)
    (by
      intro t ht
      simp only [tenTrigrams, List.mem_cons, List.mem_singleton, List.not_mem_nil,
        or_false] at ht
      rcases ht with rfl | rfl | rfl | rfl | rfl | rfl | rfl | rfl | rfl | rfl <;> norm_num)
    (by decide) (fun _ => by norm_num) (fun _ l => List.Perm.refl l) (by decide)

/-- C9 as stated fails: with ten three-character trigrams and requested length 1,
`markovSequence` returns the 3 seed characters "abc", not 1 character. -/
theorem C9_counterexample :
    markovSequence 1 0 (fun _ l => l) (fun _ => (1 / 2 : ℚ)) tenTrigrams 1 = some "abc" ∧
    ("abc" : String).length ≠ 1 := by
  refine ⟨?_, by decide⟩
  have hts : tenTrigrams[0]? = some ⟨"abc", 9⟩ := rfl
  unfold markovSequence
  simp only [hts]
  rw [markovLoop, if_neg (by decide)]

/-- C10: with `T = 36/150 = 0.24` s the 150-wpm-equivalent trigram duration,
`effortResult`, computed in float64 with `math.Sqrt` the correctly rounded square root,
is non-decreasing above the ceiling, `effortResult d1 ≤ effortResult d2` for all durations
`T ≤ d1 ≤ d2`, and `effortResult d = 0` for every duration `0 < d < T`. In exact real
arithmetic the increase is strict: there `effortResult d1 < effortResult d2` for
`T ≤ d1 < d2`. -/
theorem C10_effortResult_monotone_above_ceiling :
    (∀ d1 d2 : ℝ, 36 / 150 ≤ d1 → d1 ≤ d2 →
      effortResultF64 Real.sqrt d1 ≤ effortResultF64 Real.sqrt d2)
    ∧ (∀ d : ℝ, 0 < d → d < 36 / 150 → effortResultF64 Real.sqrt d = 0)
    ∧ (∀ d1 d2 : ℝ, 36 / 150 ≤ d1 → d1 < d2 →
      effortResult Real.sqrt d1 < effortResult Real.sqrt d2) :=
  ⟨fun d1 d2 h1 h12 =>
      effortResultF64_mono Real.sqrt (fun _ _ _ hxy => Real.sqrt_le_sqrt hxy)
        (fun x _ => Real.sqrt_nonneg x) d1 d2 h1 h12,
    fun d hpos hd => effortResultF64_of_fast Real.sqrt Real.sqrt_zero d hpos hd,
    fun d1 d2 h1 h12 =>
      effortResult_strictMono Real.sqrt (fun _ _ hx hxy => Real.sqrt_lt_sqrt hx hxy) d1 d2 h1 h12⟩

/-- C10 at concrete durations: 0.24 s against 1 s, and 0.1 s below the ceiling. -/
theorem C10_effortResult_monotone_above_ceiling_witness :
    effortResultF64 Real.sqrt (6 / 25) ≤ effortResultF64 Real.sqrt 1
      ∧ effortResultF64 Real.sqrt (1 / 10) = 0
      ∧ effortResult Real.sqrt (6 / 25) < effortResult Real.sqrt 1 :=
  ⟨C10_effortResult_monotone_above_ceiling.1 (6 / 25) 1 (by norm_num) (by norm_num),
    C10_effortResult_monotone_above_ceiling.2.1 (1 / 10) (by norm_num) (by norm_num),
    C10_effortResult_monotone_above_ceiling.2.2 (6 / 25) 1 (by norm_num) (by norm_num)⟩

/-- C10, strictness fails in float64: the durations `1e9` s and `2e9` s are both above the
ceiling and differ, yet `effortResult` returns exactly 1 for each. The squared speed
ratio is below `2 ^ -62`, so `1.0 - q` rounds to `1.0`. -/
theorem C10_counterexample :
    (36 / 150 : ℝ) ≤ 10 ^ 9 ∧ (10 ^ 9 : ℝ) < 2 * 10 ^ 9 ∧
    effortResultF64 Real.sqrt (10 ^ 9) = 1 ∧
    effortResultF64 Real.sqrt (2 * 10 ^ 9) = 1 ∧
    ¬ effortResultF64 Real.sqrt (10 ^ 9) < effortResultF64 Real.sqrt (2 * 10 ^ 9) := by
  have h1 : effortResultF64 Real.sqrt (10 ^ 9) = 1 :=
    effortResultF64_of_very_slow Real.sqrt Real.sqrt_one _ (by norm_num)
  have h2 : effortResultF64 Real.sqrt (2 * 10 ^ 9) = 1 :=
    effortResultF64_of_very_slow Real.sqrt Real.sqrt_one _ (by norm_num)
  refine ⟨by norm_num, by norm_num, h1, h2, ?_⟩
  rw [h1, h2]
  exact lt_irrefl _

/-- C11: over the reals, with `math.Sqrt` the real square root, every positive duration
`d` has `0 ≤ effortResult d ≤ 1`. -/
theorem C11_effortResult_between_zero_and_one (d : ℝ) (hd : 0 < d) :
    0 ≤ effortResult Real.sqrt d ∧ effortResult Real.sqrt d ≤ 1 :=
  effortResult_real_bounds d hd

/-- C11 at a concrete duration: one second per trigram. -/
theorem C11_effortResult_between_zero_and_one_witness :
    0 ≤ effortResult Real.sqrt 1 ∧ effortResult Real.sqrt 1 ≤ 1 :=
  C11_effortResult_between_zero_and_one 1 (by norm_num)

/-- C12 (amended): for any `N` values with `1 ≤ N ≤ 10` appended to a zero-valued
`Window`, and any default `d`, `Average d` is the arithmetic mean of the `N` values each
rounded to the millisecond (`round(value*1000)/1000`); it is the exact arithmetic mean of
the appended values when each of them is a whole number of milliseconds, as in the test
(`Append(1.0)`, then `Average(13.0) = 1.0`). -/
theorem C12_average_of_few_samples {K : Type} [LinearOrderedField K] [FloorRing K]
    (xs : List K) (d : K) (h1 : 1 ≤ xs.length) (h10 : xs.length ≤ 10) :
    (xs.foldl Window.Append Window.zero).Average d =
        (xs.map storedSample).sum / (xs.length : K)
    ∧ ((∀ x ∈ xs, ∃ m : Int, x = (m : K) / 1000) →
        (xs.foldl Window.Append Window.zero).Average d = xs.sum / (xs.length : K))
    ∧ (Window.zero.Append (1 : K)).Average (13 : K) = 1 := by
  have hfew := average_few xs d h1 h10
  refine ⟨hfew, ?_, ?_⟩
  · intro hms
    rw [hfew]
    congr 1
    have hmap : xs.map storedSample = xs := by
      conv_rhs => rw [← List.map_id xs]
      refine List.map_congr_left fun x hx => ?_
      obtain ⟨m, rfl⟩ := hms x hx
      exact storedSample_of_millis m
    rw [hmap]
  · have h := average_few [(1 : K)] 13 (by simp) (by simp [Capacity])
    have hone : storedSample (1 : K) = 1 := by
      have := storedSample_of_millis (K := K) 1000
      norm_num at this
      exact this
    simpa [hone] using h

/-- C12 at concrete samples over `ℚ`: 0.25 s and 0.75 s average to 0.5 s. -/
theorem C12_average_of_few_samples_witness :
    (([1 / 4, 3 / 4] : List ℚ).foldl Window.Append Window.zero).Average 13
      = ([1 / 4, 3 / 4] : List ℚ).sum / (([1 / 4, 3 / 4] : List ℚ).length : ℚ) :=
  (C12_average_of_few_samples ([1 / 4, 3 / 4] : List ℚ) 13 (by decide) (by decide)).2.1
    (by
      intro x hx
      simp only [List.mem_cons, List.mem_singleton, List.not_mem_nil, or_false] at hx
      rcases hx with rfl | rfl
      · exact ⟨250, by norm_num⟩
      · exact ⟨750, by norm_num⟩)

/-- C12 as stated fails: after `Append(1/3)` the window holds 333 ms, so `Average(13)` is
`0.333`, not the exact mean `1/3` of the appended value. -/
theorem C12_counterexample :
    (Window.zero.Append (1 / 3 : ℚ)).Average (13 : ℚ) = 333 / 1000 ∧
    (Window.zero.Append (1 / 3 : ℚ)).Average (13 : ℚ) ≠ 1 / 3 := by
  have h : (Window.zero.Append (1 / 3 : ℚ)).Average (13 : ℚ) = 333 / 1000 := by
    have h := average_few [(1 / 3 : ℚ)] 13 (by simp) (by simp [Capacity])
    have hs : storedSample (1 / 3 : ℚ) = 333 / 1000 := by
      norm_num [storedSample, toMillis, mathRound]
    simp only [List.foldl_cons, List.foldl_nil, List.map_cons, List.map_nil, List.sum_cons,
      List.sum_nil, List.length_singleton, Nat.cast_one, add_zero, div_one] at h
    rw [h, hs]
  exact ⟨h, by rw [h]; norm_num⟩

/-- C15 (amended): the duration sample that `addSession` records for the trigram
occupying `text[i]`, `text[i+1]`, `text[i+2]` is `timeline[i+3] - timeline[i]`, the time
from completing the trigram's first character to completing the character after the
trigram, for every session and every index `i` with `i + 3 < len(text)`, the indices at
which a trigram is recorded: with `idxs` the recorded indices at which that trigram stands
(`i` among them), its window after the session is its window before with one
`Append(timeline[j+3] - timeline[j])` per `j` in `idxs`, in order; when the trigram stands
at `i` only, that is the single `Append(timeline[i+3] - timeline[i])`. -/
theorem C15_sample_is_three_steps {K : Type} [LinearOrderedField K] [FloorRing K]
    (s : stats K) (text : List Char) (timeline : List K) (training : Bool) (i : Nat)
    (hi : i + 3 < text.length) :
    let t := trigramAt text i
    let idxs := (List.range (text.length - 3)).filter (fun j => trigramAt text j = t)
    let old := (s.Trigrams.lookup t).getD trigramStat.zero
    i ∈ idxs ∧
    ((s.addSession text timeline training).Trigrams.lookup t).map trigramStat.Duration =
      some (idxs.foldl (fun w j => w.Append (timeline.getD (j + 3) 0 - timeline.getD j 0))
        old.Duration) ∧
    (idxs = [i] →
      ((s.addSession text timeline training).Trigrams.lookup t).map trigramStat.Duration =
        some (old.Duration.Append (timeline.getD (i + 3) 0 - timeline.getD i 0))) := by
  intro t idxs old
  have hmem : i ∈ idxs := by
    rw [List.mem_filter, List.mem_range]
    exact ⟨by omega, decide_eq_true rfl⟩
  have hne : idxs ≠ [] := List.ne_nil_of_mem hmem
  have hlook : ((s.addSession text timeline training).Trigrams.lookup t).map
      trigramStat.Duration =
      some (idxs.foldl (fun w j => w.Append (timeline.getD (j + 3) 0 - timeline.getD j 0))
        old.Duration) := by
    unfold stats.addSession
    simp only
    rw [foldl_addSessionStep_lookup, if_neg hne]
    rfl
  refine ⟨hmem, hlook, fun h1 => ?_⟩
  rw [hlook, h1]
  rfl

/-- C15 at a concrete session over `ℚ`: "abcabc" typed at seconds 1 to 6, index 0. -/
theorem C15_sample_is_three_steps_witness :
    (((stats.fresh : stats ℚ).addSession "abcabc".data [1, 2, 3, 4, 5, 6] false).Trigrams.lookup
        "abc").map trigramStat.Duration
      = some { Length := 1, Index := 1, Values := [3000, 0, 0, 0, 0, 0, 0, 0, 0, 0] } := by
  have h := (C15_sample_is_three_steps (stats.fresh : stats ℚ) "abcabc".data
    [1, 2, 3, 4, 5, 6] false 0 (by decide)).2.2 (by decide)
  have ht : trigramAt "abcabc".data 0 = "abc" := by decide
  rw [ht] at h
  rw [h]
  norm_num [stats.fresh, trigramStat.zero, Window.Append, Window.AppendMillis, Window.zero,
    toMillis, mathRound, Capacity]
  rfl

/-- C15 as stated fails: for "abcabc" typed at seconds 1 to 6, the trigram "abc" at index 0
gets the sample `timeline[3] - timeline[0] = 3` s (3000 ms), not
`timeline[2] - timeline[0] = 2` s. -/
theorem C15_counterexample :
    (((stats.fresh : stats ℚ).addSession "abcabc".data [1, 2, 3, 4, 5, 6] false).Trigrams.lookup
        "abc").map trigramStat.Duration
      = some (Window.zero.Append ((4 : ℚ) - 1)) ∧
    Window.zero.Append ((4 : ℚ) - 1) ≠ Window.zero.Append ((3 : ℚ) - 1) := by
  refine ⟨?_, ?_⟩
  · rw [abcabc_trigrams]
    have n1 : ("abc" : String) ≠ "bca" := by decide
    have n2 : ("abc" : String) ≠ "cab" := by decide
    rw [AList.lookup_insert_ne n2, AList.lookup_insert_ne n1, AList.lookup_insert]
    rfl
  · intro h
    have hv := congrArg Window.Values h
    norm_num [Window.Append, Window.AppendMillis, Window.zero, toMillis, mathRound,
      Capacity] at hv
    have h0 := congrArg (fun l => l.getD 0 0) hv
    simp [List.replicate] at h0

/-- C16 (the code at a failing input): for a trigram met once whose only duration sample
is 0.1 s, `Score` is 0 whatever the fallback and the square root, while its count times
its average duration is 0.1. -/
theorem C16_score_is_not_count_times_duration :
    ∀ (sqrt : ℚ → ℚ) (a : ℚ),
      trigramStat.Score sqrt { Count := 1, Duration := Window.zero.Append (1 / 10 : ℚ) } a = 0 ∧
      (((1 : Int) : ℚ)) * (Window.zero.Append (1 / 10 : ℚ)).Average a = 1 / 10 := by
  intro sqrt a
  have havg : (Window.zero.Append (1 / 10 : ℚ)).Average a = 1 / 10 := by
    rw [average_single]
    have := storedSample_of_millis (K := ℚ) 100
    norm_num at this
    norm_num
    exact this
  refine ⟨?_, by rw [havg]; norm_num⟩
  unfold trigramStat.Score
  simp only [havg]
  rw [effortResult_of_fast sqrt (1 / 10) (by norm_num) (by norm_num)]
  norm_num

/-- C17 (the code at a failing input): after 36001 s of training, more than 10 hours,
`GetReport` chooses 30-minute intervals, not 60-minute ones; at 600 s it chooses 10
minutes and at 7201 s 30 minutes. -/
theorem C17_interval_beyond_ten_hours :
    progressInterval (36001 : ℚ) = some (timeMinute * 30) ∧
    progressInterval (36001 : ℚ) ≠ some (timeMinute * 60) ∧
    progressInterval (600 : ℚ) = some (timeMinute * 10) ∧
    progressInterval (7201 : ℚ) = some (timeMinute * 30) := by
  have h1 := progressInterval_eq (36001 : ℚ) (by norm_num)
  have h2 := progressInterval_eq (600 : ℚ) (by norm_num)
  have h3 := progressInterval_eq (7201 : ℚ) (by norm_num)
  rw [if_neg (by norm_num)] at h1 h3
  rw [if_pos (by norm_num)] at h2
  refine ⟨h1, ?_, h2, h3⟩
  rw [h1]
  decide

/-- C19 (the code at a failing input): with "abc" the only known trigram, the table part of
`GetReport` does not list 1 trigram: the slice expression `trigrams[:20]` is out of range
for the ranked list of length and capacity 1, and Go panics. -/
theorem C19_top20_of_one_trigram :
    ∀ sqrt : ℚ → ℚ,
      (oneTrigramStats.trigramsToTrain sqrt).length = 1 ∧
      sliceTo (oneTrigramStats.trigramsToTrain sqrt) 20 = none ∧
      reportTable sqrt oneTrigramStats = none := by
  intro sqrt
  have hlen : (oneTrigramStats.trigramsToTrain sqrt).length = 1 := by
    rw [trigramsToTrain_length]
    rfl
  refine ⟨hlen, ?_, reportTable_few sqrt oneTrigramStats (by decide) (by decide)⟩
  unfold sliceTo
  rw [hlen, if_neg (by decide)]

/-- C13: `SaveSession` leaves the stored state as it was for a rejected or skipped
session. For every text and timeline with `len(text) != len(timeline)` it returns an error,
and for every text with `len(text) = len(timeline) < 5` it returns success; in both cases
the cached statistics, the statistics file and the session log are the same after the call
as before, whatever the writing calls would have done. -/
theorem C13_saveSession_rejected_or_skipped {K : Type} [LinearOrderedField K] [FloorRing K]
    (io : ioFaults) (w : world K) (start : String) (text : List Char) (timeline : List K)
    (training : Bool) :
    (text.length ≠ timeline.length →
      (SaveSession io w start text timeline training).1 =
          Except.error (statsError.lengthMismatch text.length timeline.length) ∧
        (SaveSession io w start text timeline training).2 = w)
    ∧ (text.length = timeline.length → text.length < 5 →
        (SaveSession io w start text timeline training).1 = Except.ok () ∧
          (SaveSession io w start text timeline training).2 = w) := by
  constructor
  · intro hne
    unfold SaveSession
    rw [if_pos hne]
    exact ⟨rfl, rfl⟩
  · intro heq hshort
    unfold SaveSession
    rw [if_neg (not_not.mpr heq), if_pos (show text.length < MinSessionLength from hshort)]
    exact ⟨rfl, rfl⟩

/-- C13 at concrete sessions over `ℚ`: "abc" with two time values, and "abc" with three. -/
theorem C13_saveSession_rejected_or_skipped_witness :
    ((SaveSession ⟨false, false⟩ (⟨none, statsFile.missing, []⟩ : world ℚ) "start"
        "abc".data [1, 2] false).1 = Except.error (statsError.lengthMismatch 3 2))
    ∧ ((SaveSession ⟨false, false⟩ (⟨none, statsFile.missing, []⟩ : world ℚ) "start"
        "abc".data [1, 2, 3] false).1 = Except.ok ()) :=
  ⟨((C13_saveSession_rejected_or_skipped ⟨false, false⟩
      (⟨none, statsFile.missing, []⟩ : world ℚ) "start" "abc".data [1, 2] false).1
      (by decide)).1,
    ((C13_saveSession_rejected_or_skipped ⟨false, false⟩
      (⟨none, statsFile.missing, []⟩ : world ℚ) "start" "abc".data [1, 2, 3] false).2
      (by decide) (by decide)).1⟩

/-- C14 (amended): a generator request fails with the insufficient-data error whenever
fewer than 10 trigrams are known, whatever their scores: for every loaded Statistics with
fewer than 10 trigrams, `getTrigrams`, `WeakestTraining` and `RandomTraining` return that
error and no text; with 10 known trigrams or more `getTrigrams` returns the whole ranked
list, also when fewer than 10 of them have a positive score. -/
theorem C14_getTrigrams_needs_ten_known {K : Type} [LinearOrderedField K] (sqrt : K → K)
    (w : world K) (s : stats K) (hload : (loadStats w).1 = Except.ok s) :
    (s.Trigrams.entries.length < 10 →
      (getTrigrams sqrt w).1 = Except.error statsError.notEnoughStats ∧
      (∀ fuel length, (WeakestTraining sqrt fuel w length).1
        = Except.error statsError.notEnoughStats) ∧
      (∀ fuel seed order choices length,
        (RandomTraining sqrt fuel seed order choices w length).1
          = Except.error statsError.notEnoughStats))
    ∧ (10 ≤ s.Trigrams.entries.length →
        (getTrigrams sqrt w).1 = Except.ok (s.trigramsToTrain sqrt)) := by
  have hg := getTrigrams_of_loaded sqrt w s hload
  constructor
  · intro hfew
    have herr : (getTrigrams sqrt w).1 = Except.error statsError.notEnoughStats := by
      rw [hg, if_pos (show s.Trigrams.entries.length < NWeakest from hfew)]
    exact ⟨herr, fun fuel length => weakestTraining_of_error sqrt fuel w length _ herr,
      fun fuel seed order choices length =>
        randomTraining_of_error sqrt fuel seed order choices w length _ herr⟩
  · intro hmany
    rw [hg, if_neg (show ¬ s.Trigrams.entries.length < NWeakest from not_lt.mpr hmany)]

/-- C14 at a concrete state over `ℚ`: the statistics with the single trigram "abc". -/
theorem C14_getTrigrams_needs_ten_known_witness :
    (getTrigrams (fun x : ℚ => x) ⟨some oneTrigramStats, statsFile.missing, []⟩).1
      = Except.error statsError.notEnoughStats :=
  ((C14_getTrigrams_needs_ten_known (fun x : ℚ => x)
    ⟨some oneTrigramStats, statsFile.missing, []⟩ oneTrigramStats rfl).1 (by decide)).1

/-- C14 as stated fails: in `tenMastered` no trigram has a positive score (fewer than 10
do), yet `getTrigrams` returns the ranked list of all ten without error. Every duration is
below the 150 wpm ceiling, so `math.Sqrt` is never called; the identity stands in for it. -/
theorem C14_counterexample :
    (tenMastered.trigramsToTrain fun x => x).countP (fun t => decide (0 < t.Score)) < 10 ∧
    (getTrigrams (fun x => x) ⟨some tenMastered, statsFile.missing, []⟩).1
      = Except.ok (tenMastered.trigramsToTrain fun x => x) := by
  constructor
  · have h0 : (tenMastered.trigramsToTrain fun x => x).countP
        (fun t => decide (0 < t.Score)) = 0 := by
      rw [List.countP_eq_zero]
      intro t ht
      rw [tenMastered_scores (fun x => x) t ht]
      simp
    rw [h0]
    decide
  · rw [getTrigrams_of_loaded (fun x => x) ⟨some tenMastered, statsFile.missing, []⟩
      tenMastered rfl, if_neg]
    rw [tenMastered_entries]
    decide

/-- C18: for every non-empty input `top :: rest` (the edge weights `1/Score` of positive
scores are positive in exact arithmetic), following the predecessor map returned by
`bellmanFord` from the finish bigram reaches the start bigram or a vertex with no
predecessor after `k` steps, for some `k` at most the number of vertices; so the tracing
loop of `weakestSequence` ends whenever `fuel` exceeds the number of vertices; and the
predecessor map has no cycle: following `k ≥ 1` predecessors from a vertex never leads
back to it. -/
theorem C18_trace_terminates {K : Type} [LinearOrderedField K] (top : TrigramScore K)
    (rest : List (TrigramScore K)) (fuel : Nat)
    (hfuel : (buildGraph (top :: rest)).2.length < fuel) :
    (∃ k, k ≤ (buildGraph (top :: rest)).2.length ∧
      ((bellmanFord (headTail top.Trigram).2 (buildGraph (top :: rest)).2
            (buildGraph (top :: rest)).1)^[k] (headTail top.Trigram).1
          = (headTail top.Trigram).2 ∨
        bellmanFord (headTail top.Trigram).2 (buildGraph (top :: rest)).2
            (buildGraph (top :: rest)).1
          ((bellmanFord (headTail top.Trigram).2 (buildGraph (top :: rest)).2
            (buildGraph (top :: rest)).1)^[k] (headTail top.Trigram).1) = "") ∧
      ∀ j, j < k →
        (bellmanFord (headTail top.Trigram).2 (buildGraph (top :: rest)).2
            (buildGraph (top :: rest)).1)^[j] (headTail top.Trigram).1
          ≠ (headTail top.Trigram).2 ∧
        bellmanFord (headTail top.Trigram).2 (buildGraph (top :: rest)).2
            (buildGraph (top :: rest)).1
          ((bellmanFord (headTail top.Trigram).2 (buildGraph (top :: rest)).2
            (buildGraph (top :: rest)).1)^[j] (headTail top.Trigram).1) ≠ "")
    ∧ (∃ path, tracePath (headTail top.Trigram).2
        (bellmanFord (headTail top.Trigram).2 (buildGraph (top :: rest)).2
          (buildGraph (top :: rest)).1) fuel (headTail top.Trigram).1 [] = some path)
    ∧ (∀ (v : String) (k : Nat), 0 < k →
        (∀ j, j < k →
          bellmanFord (headTail top.Trigram).2 (buildGraph (top :: rest)).2
            (buildGraph (top :: rest)).1
            ((bellmanFord (headTail top.Trigram).2 (buildGraph (top :: rest)).2
              (buildGraph (top :: rest)).1)^[j] v) ≠ "") →
        (bellmanFord (headTail top.Trigram).2 (buildGraph (top :: rest)).2
          (buildGraph (top :: rest)).1)^[k] v ≠ v) := by
  have hw := buildGraph_weight_pos (top :: rest)
  have hV := buildGraph_vertices (top :: rest)
  have hpe := predEdge_bellmanFordMaps (headTail top.Trigram).2 (buildGraph (top :: rest)).2
    (buildGraph (top :: rest)).1 hw
  have hdec : ∀ v, bellmanFord (headTail top.Trigram).2 (buildGraph (top :: rest)).2
      (buildGraph (top :: rest)).1 v ≠ "" →
      vertexMeasure (buildGraph (top :: rest)).2
          (bellmanFordMaps (headTail top.Trigram).2 (buildGraph (top :: rest)).2
            (buildGraph (top :: rest)).1)
          (bellmanFord (headTail top.Trigram).2 (buildGraph (top :: rest)).2
            (buildGraph (top :: rest)).1 v)
        < vertexMeasure (buildGraph (top :: rest)).2
          (bellmanFordMaps (headTail top.Trigram).2 (buildGraph (top :: rest)).2
            (buildGraph (top :: rest)).1) v :=
    fun v hv => vertexMeasure_pred_lt _ _ hw hV _ hpe v hv
  have hle := vertexMeasure_le (buildGraph (top :: rest)).2
    (bellmanFordMaps (headTail top.Trigram).2 (buildGraph (top :: rest)).2
      (buildGraph (top :: rest)).1) (headTail top.Trigram).1
  refine ⟨?_, ?_, ?_⟩
  · exact steps_bound _ _ _ hdec _ _ hle
  · obtain ⟨r, hr, _⟩ := tracePath_spec (headTail top.Trigram).2 _ _ hdec fuel
      (headTail top.Trigram).1 [] (lt_of_le_of_lt hle hfuel)
    exact ⟨r, hr⟩
  · intro v k hk hall heq
    have hlt := iterate_pred_distance_lt _ hw _ hpe v k hk hall
    have heq' : (bellmanFordMaps (headTail top.Trigram).2 (buildGraph (top :: rest)).2
        (buildGraph (top :: rest)).1).predecessor^[k] v = v := heq
    rw [heq'] at hlt
    exact lt_irrefl _ hlt

/-- C18 at a concrete input over `ℚ`: the ten trigrams of `tenTrigrams`, with one more
iteration allowed than there are vertices. -/
theorem C18_trace_terminates_witness :
    ∃ path, tracePath (headTail "abc").2
      (bellmanFord (headTail "abc").2 (buildGraph tenTrigrams).2 (buildGraph tenTrigrams).1)
      ((buildGraph tenTrigrams).2.length + 1) (headTail "abc").1 [] = some path :=
  (C18_trace_terminates (⟨"abc", 9⟩ : TrigramScore ℚ)
    [⟨"bcd", 8⟩, ⟨"cda", 7⟩, ⟨"dab", 6⟩, ⟨"abd", 5⟩, ⟨"bda", 4⟩, ⟨"dac", 3⟩, ⟨"acb", 2⟩,
      ⟨"cba", 1⟩, ⟨"bad", 0⟩]
    ((buildGraph tenTrigrams).2.length + 1) (Nat.lt_succ_self _)).2.1

end Stats
